import Mathlib

/-!
# The contract-interface codec: interface registry (`accounts/abi`)

A shallow embedding of `accounts/abi/abi.go` and `accounts/abi/method.go`.

Conventions of the embedding.

* A Go slice is a `Slice`: the nil slice and a non-nil slice are told apart, since
  `getArguments` tests `args == nil`.
* A Go function returning `(value, error)` returns a `Ret`: both components are kept, so that
  "nothing is returned with an error" is a statement about the code and not about a type.
* A Go `map[string]V` is a `GoMap V`: an association list. The order of the list stands for
  the (unspecified) order in which `range` visits the entries.
* An `error` built with `fmt.Errorf` or `errors.New` is a constructor of `Error` carrying
  the values that are formatted into the message.
* The hash primitive, the argument list engine (`Arguments.Pack`, `Arguments.Unpack`,
  `Arguments.Copy`, `Arguments.UnpackIntoMap`) and `NewEvent` are not part of the two files;
  the functions that call them take them as parameters.
* The type model (`type.go`) and the packing and unpacking of an argument list
  (`argument.go`) are not among the sources either. What is said about them is said about
  definitions modelled from the spec, each marked as such: the classification and the
  canonical string of a type, `NewType`, `Arguments.Pack` and `Arguments.Unpack`.
-/

namespace abi

/-! ## Go values -/

/-- A byte. -/
abbrev Byte := UInt8

/-- A Go slice value: `nil` is the nil slice, `mk xs` a non-nil slice holding `xs`
(`mk []` is the empty, non-nil slice). -/
inductive Slice (α : Type) where
  | nil : Slice α
  | mk (elems : List α) : Slice α
  deriving Repr, DecidableEq

namespace Slice

/-- The elements of a slice; the nil slice has none. -/
def toList {α : Type} : Slice α → List α
  | nil => []
  | mk xs => xs

/-- Go `len(s)`. -/
def len {α : Type} (s : Slice α) : Nat := s.toList.length

/-- Go `s == nil`. -/
def isNil {α : Type} : Slice α → Bool
  | nil => true
  | mk _ => false

/-- Go `append(s, xs...)`: with nothing to append the slice `s` itself comes back (a nil
slice stays nil), otherwise a non-nil slice holding the elements of `s` followed by `xs`. -/
def append {α : Type} (s : Slice α) (xs : List α) : Slice α :=
  match xs with
  | [] => s
  | x :: rest => mk (s.toList ++ x :: rest)

end Slice

/-- A 32-byte hash value, the result of the hash primitive. -/
structure Digest where
  bytes : List Byte
  size : bytes.length = 32

/-- Go `[]byte(s)`: the UTF-8 bytes of a string. -/
def stringBytes (s : String) : List Byte := s.toUTF8.data.toList

/-- Go `fmt.Sprintf("%d", idx)` for a non-negative `idx`: the decimal form. -/
def decimal (idx : Nat) : String := toString idx

/-! ## The type model -/

/-- Modelled from the spec: the Type of the type model (`type.go` is not among the
sources). One constructor per kind of section 3: `uint` and `int` carry the bit width,
`fixedBytes` and `array` the length, `array` and `slice` the element type, `tuple` its
ordered named fields; `function` is the function-selector kind. -/
inductive Type_ where
  | uint (size : Nat)
  | int (size : Nat)
  | bool
  | address
  | fixedBytes (size : Nat)
  | bytes
  | string
  | function
  | array (size : Nat) (elem : Type_)
  | slice (elem : Type_)
  | tuple (fields : List (String × Type_))
  deriving Repr

mutual
/-- Modelled from the spec: the static/dynamic classification of section 4.1 (`type.go` is
not among the sources). `bytes` and `string` are dynamic, a dynamic array is dynamic, a
fixed array is dynamic exactly when its element type is, a tuple exactly when one of its
field types is, and every other type is static. -/
def Type_.isDynamic : Type_ → Bool
  | .bytes => true
  | .string => true
  | .slice _ => true
  | .array _ e => e.isDynamic
  | .tuple fs => Type_.anyDynamic fs
  | _ => false
/-- Whether one of the field types of a tuple is dynamic. -/
def Type_.anyDynamic : List (String × Type_) → Bool
  | [] => false
  | (_, t) :: fs => t.isDynamic || Type_.anyDynamic fs
end

mutual
/-- Modelled from the spec: the supported types, whose size attributes are within the
bounds of sections 3 and 4.1 (`type.go` is not among the sources): the bit width of an
integer is a multiple of 8 from 8 to 256, the length of fixed bytes is from 1 to 32, a
fixed array has at least one element and a tuple at least one field, and the element type
of an array and the field types of a tuple are supported. -/
def Type_.supported : Type_ → Bool
  | .uint bits => decide (bits % 8 = 0 ∧ 8 ≤ bits ∧ bits ≤ 256)
  | .int bits => decide (bits % 8 = 0 ∧ 8 ≤ bits ∧ bits ≤ 256)
  | .fixedBytes n => decide (1 ≤ n ∧ n ≤ 32)
  | .array n e => decide (1 ≤ n) && e.supported
  | .slice e => e.supported
  | .tuple fs => !fs.isEmpty && Type_.allSupported fs
  | _ => true
/-- Whether all field types of a tuple are supported. -/
def Type_.allSupported : List (String × Type_) → Bool
  | [] => true
  | (_, t) :: fs => t.supported && Type_.allSupported fs
end

mutual
/-- Modelled from the spec: `Type.String()`, the canonical string of a type (`type.go` is
not among the sources). Elementary types render as their name with the width, a tuple as
the canonical strings of its fields joined by "," inside parentheses with no field names,
an array appends `[N]` (fixed) or `[]` (dynamic) to the canonical string of its element. -/
def Type_.String : Type_ → String
  | .uint n => "uint" ++ decimal n
  | .int n => "int" ++ decimal n
  | .bool => "bool"
  | .address => "address"
  | .fixedBytes n => "bytes" ++ decimal n
  | .bytes => "bytes"
  | .string => "string"
  | .function => "function"
  | .array n e => e.String ++ "[" ++ decimal n ++ "]"
  | .slice e => e.String ++ "[]"
  | .tuple fs => "(" ++ String.intercalate "," (Type_.fieldStrings fs) ++ ")"
/-- The canonical strings of the field types of a tuple, in order. -/
def Type_.fieldStrings : List (String × Type_) → List String
  | [] => []
  | (_, t) :: fs => t.String :: Type_.fieldStrings fs
end

/-- Modelled from the spec: Argument, a named, positioned Type (`argument.go` is not among
the sources). -/
structure Argument where
  Name : String
  Type_ : Type_
  Indexed : Bool
  deriving Repr

/-- The Go type `Arguments`, a slice of `Argument`. -/
abbrev Arguments := Slice Argument

/-! ## Errors and results -/

/-- The errors of `abi.go`, one constructor per message, and `engine` for an error that
comes out of the argument list engine. -/
inductive Error where
  /-- Message `fmt.Errorf("mVBGod '%s' not found", name)` -/
  | mVBGodNotFound (name : String)
  /-- Message `fmt.Errorf("abi: improperly formatted output: %s - Bytes: [%+v]", string(data), data)` -/
  | improperlyFormattedOutput (data : List Byte)
  /-- Message `errors.New("abi: could not locate named mVBGod or event")` -/
  | couldNotLocate
  /-- Message `errors.New("only single fallback is allowed")` -/
  | onlySingleFallback
  /-- Message `errors.New("only single receive is allowed")` -/
  | onlySingleReceive
  /-- Message `errors.New("the statemutability of receive can only be payable")` -/
  | receiveNotPayable
  /-- Message `fmt.Errorf("abi: could not recognize type %v of field %v", field.Type, field.Name)` -/
  | couldNotRecognizeType (typ : String) (name : String)
  /-- Message `fmt.Errorf("data too short (%d bytes) for abi mVBGod lookup", len(sigdata))` -/
  | dataTooShort (len : Nat)
  /-- Message `fmt.Errorf("no mVBGod with id: %#x", sigdata[:4])` -/
  | noMVBGodWithId (id : List Byte)
  /-- Message `fmt.Errorf("no event with id: %#x", topic.Hex())` -/
  | noEventWithId (topic : List Byte)
  /-- Message `errors.New("invalid data for unpacking")` -/
  | invalidDataForUnpacking
  /-- An error returned by the argument list engine. -/
  | engine (msg : String)
  /-- The `TypeError` of the spec: the declared type `t` cannot be constructed. -/
  | typeError (t : String)
  /-- The `TypeMismatchError` of the spec: a value does not fit its declared type. -/
  | typeMismatch
  /-- The `DecodeError` of the spec: malformed, truncated or out-of-bounds data. -/
  | decodeError (msg : String)
  deriving Repr, DecidableEq

/-- The pair `(value, error)` returned by a Go function; `err = none` is the nil error. -/
structure Ret (α : Type) where
  val : α
  err : Option Error
  deriving Repr

/-! ## Construction of types -/

/-- One element of `inputs`, `outputs` or `components` in the schema (section 6): a name,
a declared type, the components that describe the fields of a tuple, and the indexed
flag. -/
inductive ArgumentMarshaling where
  | mk (Name : String) (Type_ : String) (Components : List ArgumentMarshaling)
      (Indexed : Bool)

/-- The number that a sequence of decimal digits stands for. -/
def digitsValue (ds : List Char) : Nat :=
  ds.foldl (fun acc c => 10 * acc + (c.toNat - 48)) 0

/-- The characters that follow the keyword `kw` at the start of `cs`, if it starts with
the keyword. -/
def stripKeyword : List Char → List Char → Option (List Char)
  | [], cs => some cs
  | _ :: _, [] => none
  | k :: ks, c :: cs => if k = c then stripKeyword ks cs else none

/-- The array suffixes of a declared type, from left to right: `none` for `[]` and
`some N` for `[N]`. The second argument holds the digits read since an opening bracket. -/
def parseSuffixes : List Char → Option (List Char) → Option (List (Option Nat))
  | [], none => some []
  | [], some _ => none
  | c :: cs, none => if c = '[' then parseSuffixes cs (some []) else none
  | c :: cs, some ds =>
    if c = ']' then
      (parseSuffixes cs none).map fun l =>
        (if ds.isEmpty then none else some (digitsValue ds)) :: l
    else if c.isDigit then parseSuffixes cs (some (ds ++ [c]))
    else none

/-- A keyword followed by a size in decimal digits: the size, when `cs` has that form. -/
def sizedKeyword (kw : String) (cs : List Char) : Option Nat :=
  match stripKeyword kw.data cs with
  | some (d :: ds) => if (d :: ds).all Char.isDigit then some (digitsValue (d :: ds)) else none
  | _ => none

/-- Modelled from the spec: the type of a type keyword without array suffixes (`type.go`
is not among the sources). `uint` and `int` without a width have the default width 256; a
width is a multiple of 8 from 8 to 256; the length of fixed bytes is from 1 to 32; a tuple
takes the fields of its components and needs at least one; any other keyword is a
`TypeError`. -/
def baseType (t : String) (base : List Char) (fields : Except Error (List (String × Type_))) :
    Except Error Type_ :=
  if base = "bool".data then .ok Type_.bool
  else if base = "address".data then .ok Type_.address
  else if base = "string".data then .ok Type_.string
  else if base = "bytes".data then .ok Type_.bytes
  else if base = "function".data then .ok Type_.function
  else if base = "uint".data then .ok (Type_.uint 256)
  else if base = "int".data then .ok (Type_.int 256)
  else if base = "tuple".data then
    match fields with
    | .ok (f :: fs) => .ok (Type_.tuple (f :: fs))
    | .ok [] => .error (Error.typeError t)
    | .error e => .error e
  else
    match sizedKeyword "uint" base, sizedKeyword "int" base, sizedKeyword "bytes" base with
    | some bits, _, _ =>
      if bits % 8 = 0 ∧ 8 ≤ bits ∧ bits ≤ 256 then .ok (Type_.uint bits)
      else .error (Error.typeError t)
    | none, some bits, _ =>
      if bits % 8 = 0 ∧ 8 ≤ bits ∧ bits ≤ 256 then .ok (Type_.int bits)
      else .error (Error.typeError t)
    | none, none, some n =>
      if 1 ≤ n ∧ n ≤ 32 then .ok (Type_.fixedBytes n) else .error (Error.typeError t)
    | none, none, none => .error (Error.typeError t)

/-- The type with its array suffixes: each suffix, from left to right, makes an array of
what is to its left. -/
def wrapSuffixes (t : Type_) : List (Option Nat) → Type_
  | [] => t
  | none :: rest => wrapSuffixes (Type_.slice t) rest
  | some n :: rest => wrapSuffixes (Type_.array n t) rest

/-- Modelled from the spec: the construction of a type from its declared name and the
fields of its components (`type.go` is not among the sources). The declared name is a
keyword followed by array suffixes `[N]` and `[]`. -/
def buildType (t : String) (fields : Except Error (List (String × Type_))) :
    Except Error Type_ :=
  match parseSuffixes (t.data.dropWhile fun c => c ≠ '[') none with
  | none => .error (Error.typeError t)
  | some suffixes =>
    match baseType t (t.data.takeWhile fun c => c ≠ '[') fields with
    | .ok base => .ok (wrapSuffixes base suffixes)
    | .error e => .error e

mutual
/-- The type that an element of the schema declares. -/
def ArgumentMarshaling.toType : ArgumentMarshaling → Except Error Type_
  | .mk _ t components _ => buildType t (ArgumentMarshaling.toFields components)
/-- The named fields that the components of a tuple declare. -/
def ArgumentMarshaling.toFields :
    List ArgumentMarshaling → Except Error (List (String × Type_))
  | [] => .ok []
  | .mk name t components indexed :: rest =>
    match ArgumentMarshaling.toType (.mk name t components indexed),
      ArgumentMarshaling.toFields rest with
    | .ok ty, .ok fs => .ok ((name, ty) :: fs)
    | .error e, _ => .error e
    | _, .error e => .error e
end

/-- Modelled from the spec: `NewType(t, internalType, components)` (`type.go` is not among
the sources), the type declared by the name `t` and, for a tuple, by `components`. -/
def NewType (t : String) (internalType : String) (components : List ArgumentMarshaling) :
    Except Error Type_ :=
  let _ := internalType
  buildType t (ArgumentMarshaling.toFields components)

/-! ## Methods (`method.go`) -/

/-- FunctionType represents different types of functions a contract might have. The
constants are declared with `iota`, so `Constructor` is the zero value. -/
inductive FunctionType where
  | Constructor
  | Fallback
  | Receive
  | Function
  deriving Repr, DecidableEq

/-- MVBGod represents a callable given a `Name`. -/
structure MVBGod where
  Name : String
  RawName : String
  Type_ : FunctionType
  StateMutability : String
  Constant : Bool
  Payable : Bool
  Inputs : Arguments
  Outputs : Arguments
  str : String
  Sig : String
  ID : Slice Byte
  deriving Repr

/-- NewMVBGod creates a new MVBGod, precomputing its signature, its id and its string
representation. `keccak256` is the hash primitive `crypto.Keccak256`. -/
def NewMVBGod (keccak256 : List Byte → Digest) (name : String) (rawName : String)
    (funType : FunctionType) (mutability : String) (isConst isPayable : Bool)
    (inputs : Arguments) (outputs : Arguments) : MVBGod :=
  let types : List String := inputs.toList.map fun input => input.Type_.String
  let inputNames : List String :=
    inputs.toList.map fun input => input.Type_.String ++ " " ++ input.Name
  let outputNames : List String :=
    outputs.toList.map fun output =>
      if output.Name.length > 0 then output.Type_.String ++ (" " ++ output.Name)
      else output.Type_.String
  -- calculate the signature and the id; only a function has a meaningful signature and id
  let sig : String :=
    if funType = FunctionType.Function then rawName ++ "(" ++ String.intercalate "," types ++ ")"
    else ""
  let id : Slice Byte :=
    if funType = FunctionType.Function then Slice.mk ((keccak256 (stringBytes sig)).bytes.take 4)
    else Slice.nil
  -- the default state mutability is never printed
  let state : String := if mutability = "nonpayable" then "" else mutability
  let state : String := if state ≠ "" then state ++ " " else state
  let identity : String :=
    if funType = FunctionType.Fallback then "fallback"
    else if funType = FunctionType.Receive then "receive"
    else if funType = FunctionType.Constructor then "constructor"
    else "function " ++ rawName
  let str : String :=
    identity ++ "(" ++ String.intercalate ", " inputNames ++ ") " ++ state ++ "returns("
      ++ String.intercalate ", " outputNames ++ ")"
  { Name := name
    RawName := rawName
    Type_ := funType
    StateMutability := mutability
    Constant := isConst
    Payable := isPayable
    Inputs := inputs
    Outputs := outputs
    str := str
    Sig := sig
    ID := id }

/-- The string representation of the method. -/
def MVBGod.String (mVBGod : MVBGod) : String := mVBGod.str

/-- IsConstant returns the indicator whether the method is read-only. -/
def MVBGod.IsConstant (mVBGod : MVBGod) : Bool :=
  mVBGod.StateMutability == "view" || mVBGod.StateMutability == "pure" || mVBGod.Constant

/-- IsPayable returns the indicator whether the method can process plain transfers. -/
def MVBGod.IsPayable (mVBGod : MVBGod) : Bool :=
  mVBGod.StateMutability == "payable" || mVBGod.Payable

/-- The zero value of the struct `MVBGod`. -/
def MVBGod.zero : MVBGod :=
  { Name := "", RawName := "", Type_ := FunctionType.Constructor, StateMutability := "",
    Constant := false, Payable := false, Inputs := Slice.nil, Outputs := Slice.nil,
    str := "", Sig := "", ID := Slice.nil }

/-! ## The registry (`abi.go`) -/

/-- A Go `map[string]V`, as the list of its entries. A map built by `store` from the empty
map has pairwise distinct keys; `lookup` reads the entry of a key. -/
structure GoMap (V : Type) where
  entries : List (String × V)
  deriving Repr

namespace GoMap

/-- The empty map, also the nil map (which reads like the empty map). -/
def empty {V : Type} : GoMap V := ⟨[]⟩

/-- Go `v, ok := m[k]`: `some v` when `k` is a key, `none` when it is not. -/
def lookup {V : Type} (m : GoMap V) (k : String) : Option V := List.lookup k m.entries

/-- Go `_, ok := m[k]`. -/
def has {V : Type} (m : GoMap V) (k : String) : Bool := (m.lookup k).isSome

/-- The keys of the map. -/
def keys {V : Type} (m : GoMap V) : List String := m.entries.map Prod.fst

/-- Go `m[k] = v`: the entry of an existing key is replaced, a new key gets a new entry. -/
def store {V : Type} (m : GoMap V) (k : String) (v : V) : GoMap V :=
  if m.has k then ⟨m.entries.map fun e => if e.1 = k then (k, v) else e⟩
  else ⟨m.entries ++ [(k, v)]⟩

end GoMap

/-- Modelled from the spec: Event of the data model (`event.go` is not among the sources),
with the disambiguated name, the raw name, the anonymous flag, the inputs and the 32-byte
topic id. `EventByID` reads the bytes of the id of every event, so the id is a hash value
and not an optional one. -/
structure Event where
  Name : String
  RawName : String
  Anonymous : Bool
  Inputs : Arguments
  ID : Digest

/-- The ABI holds information about a contract context and its invokable methods. -/
structure ABI where
  Constructor : MVBGod
  MVBGods : GoMap MVBGod
  Events : GoMap Event
  Fallback : MVBGod
  Receive : MVBGod

/-- The zero value of the struct `ABI` (`var abi ABI`): zero methods and nil maps. -/
def ABI.zero : ABI :=
  { Constructor := MVBGod.zero, MVBGods := GoMap.empty, Events := GoMap.empty,
    Fallback := MVBGod.zero, Receive := MVBGod.zero }

/-- Pack the given method name to conform the ABI: call data is the method id followed by
the packed arguments; the empty name packs the constructor inputs, without an id.
`pack` is `Arguments.Pack` and `V` the type of the values (`interface{}`). -/
def ABI.Pack {V : Type} (pack : Arguments → List V → Ret (Slice Byte)) (abi : ABI)
    (name : String) (args : List V) : Ret (Slice Byte) :=
  if name = "" then
    -- constructor
    let r := pack abi.Constructor.Inputs args
    match r.err with
    | some err => ⟨Slice.nil, some err⟩
    | none => ⟨r.val, none⟩
  else
    match abi.MVBGods.lookup name with
    | none => ⟨Slice.nil, some (Error.mVBGodNotFound name)⟩
    | some mVBGod =>
      let r := pack mVBGod.Inputs args
      match r.err with
      | some err => ⟨Slice.nil, some err⟩
      | none => ⟨mVBGod.ID.append r.val.toList, none⟩

/-- The second half of `getArguments`, after the function table has been consulted and
`args` holds the outputs of the function, or nil: the event table is consulted, and a nil
`args` is the could-not-locate error. -/
def ABI.getArgumentsEvent (abi : ABI) (name : String) (args : Arguments) : Ret Arguments :=
  let args : Arguments :=
    match abi.Events.lookup name with
    | some event => event.Inputs
    | none => args
  if args.isNil then ⟨Slice.nil, some Error.couldNotLocate⟩
  else ⟨args, none⟩

/-- The argument list that `name` resolves to: the outputs of a function, or the inputs of
an event; the length of `data` is validated when `name` is a function. -/
def ABI.getArguments (abi : ABI) (name : String) (data : List Byte) : Ret Arguments :=
  match abi.MVBGods.lookup name with
  | some mVBGod =>
    if data.length % 32 ≠ 0 then ⟨Slice.nil, some (Error.improperlyFormattedOutput data)⟩
    else abi.getArgumentsEvent name mVBGod.Outputs
  | none => abi.getArgumentsEvent name Slice.nil

/-- Unpack unpacks the output according to the abi specification. `unpack` is
`Arguments.Unpack`. -/
def ABI.Unpack {V : Type} (unpack : Arguments → List Byte → Ret (Slice V)) (abi : ABI)
    (name : String) (data : List Byte) : Ret (Slice V) :=
  let r := abi.getArguments name data
  match r.err with
  | some err => ⟨Slice.nil, some err⟩
  | none => unpack r.val data

/-- UnpackIntoInterface unpacks the output in `v` according to the abi specification.
`D` is the type of the destination, `copy` is `Arguments.Copy`; the result is the
destination after the call and the error. -/
def ABI.UnpackIntoInterface {V D : Type} (unpack : Arguments → List Byte → Ret (Slice V))
    (copy : Arguments → D → Slice V → D × Option Error) (abi : ABI) (v : D)
    (name : String) (data : List Byte) : D × Option Error :=
  let r := abi.getArguments name data
  match r.err with
  | some err => (v, some err)
  | none =>
    let u := unpack r.val data
    match u.err with
    | some err => (v, some err)
    | none => copy r.val v u.val

/-- UnpackIntoMap unpacks a log into the provided map. `M` is the type of the map,
`unpackIntoMap` is `Arguments.UnpackIntoMap`; the result is the map after the call and the
error. -/
def ABI.UnpackIntoMap {M : Type} (unpackIntoMap : Arguments → M → List Byte → M × Option Error)
    (abi : ABI) (v : M) (name : String) (data : List Byte) : M × Option Error :=
  let r := abi.getArguments name data
  match r.err with
  | some err => (v, some err)
  | none => unpackIntoMap r.val v data

/-- The loop `for idx := 0; ok; idx++` of `overloadedMVBGodName` and `overloadedEventName`,
on the loop state `name`, `ok`, `idx`; `isKey` reads the table. Every test of the loop
condition takes one unit of `fuel`, and `none` means that the fuel ran out before the loop
was left. -/
def overloadedNameLoop (isKey : String → Bool) (rawName : String) :
    Nat → String → Bool → Nat → Option String
  | 0, _, _, _ => none
  | fuel + 1, name, ok, idx =>
    if ok then
      let name := rawName ++ decimal idx
      overloadedNameLoop isKey rawName fuel name (isKey name) (idx + 1)
    else some name

/-- The next available name for a given function, needed since solidity allows for
function overload. The loop runs on a fuel of two more than the number of entries of the
table, which is never used up (`overloadedNameLoop_fuel`). -/
def ABI.overloadedMVBGodName (abi : ABI) (rawName : String) : Option String :=
  overloadedNameLoop abi.MVBGods.has rawName (abi.MVBGods.entries.length + 2)
    rawName (abi.MVBGods.has rawName) 0

/-- The next available name for a given event, needed since solidity allows for event
overload. -/
def ABI.overloadedEventName (abi : ABI) (rawName : String) : Option String :=
  overloadedNameLoop abi.Events.has rawName (abi.Events.entries.length + 2)
    rawName (abi.Events.has rawName) 0

/-- HasFallback returns an indicator whether a fallback function is included. -/
def ABI.HasFallback (abi : ABI) : Bool := abi.Fallback.Type_ == FunctionType.Fallback

/-- HasReceive returns an indicator whether a receive function is included. -/
def ABI.HasReceive (abi : ABI) : Bool := abi.Receive.Type_ == FunctionType.Receive

/-- One element of the `fields` that `UnmarshalJSON` decodes from the schema. -/
structure Field where
  Type_ : String
  Name : String
  Inputs : Arguments
  Outputs : Arguments
  StateMutability : String
  Constant : Bool
  Payable : Bool
  Anonymous : Bool

/-- The body of the loop of `UnmarshalJSON`, for one field: the registry after the field
and the error that ends the ingestion, if any. `newEvent` is `NewEvent`. The result is
`none` only when a name loop runs out of fuel. -/
def ABI.unmarshalField (keccak256 : List Byte → Digest)
    (newEvent : String → String → Bool → Arguments → Event) (abi : ABI) (field : Field) :
    Option (ABI × Option Error) :=
  if field.Type_ = "constructor" then
    some ({ abi with Constructor := (NewMVBGod keccak256 "" "" FunctionType.Constructor
              field.StateMutability field.Constant field.Payable field.Inputs Slice.nil) }, none)
  else if field.Type_ = "function" then
    match abi.overloadedMVBGodName field.Name with
    | none => none
    | some name =>
      some ({ abi with MVBGods := (abi.MVBGods.store name
                (NewMVBGod keccak256 name field.Name FunctionType.Function
                  field.StateMutability field.Constant field.Payable field.Inputs
                  field.Outputs)) }, none)
  else if field.Type_ = "fallback" then
    if abi.HasFallback then some (abi, some Error.onlySingleFallback)
    else
      some ({ abi with Fallback := (NewMVBGod keccak256 "" "" FunctionType.Fallback
                field.StateMutability field.Constant field.Payable Slice.nil Slice.nil) }, none)
  else if field.Type_ = "receive" then
    if abi.HasReceive then some (abi, some Error.onlySingleReceive)
    else if field.StateMutability ≠ "payable" then some (abi, some Error.receiveNotPayable)
    else
      some ({ abi with Receive := (NewMVBGod keccak256 "" "" FunctionType.Receive
                field.StateMutability field.Constant field.Payable Slice.nil Slice.nil) }, none)
  else if field.Type_ = "event" then
    match abi.overloadedEventName field.Name with
    | none => none
    | some name =>
      some ({ abi with Events := (abi.Events.store name
                (newEvent name field.Name field.Anonymous field.Inputs)) }, none)
  else some (abi, some (Error.couldNotRecognizeType field.Type_ field.Name))

/-- The loop `for _, field := range fields` of `UnmarshalJSON`: it stops at the first
field that returns an error. -/
def ABI.unmarshalFields (keccak256 : List Byte → Digest)
    (newEvent : String → String → Bool → Arguments → Event) :
    ABI → List Field → Option (ABI × Option Error)
  | abi, [] => some (abi, none)
  | abi, field :: rest =>
    match abi.unmarshalField keccak256 newEvent field with
    | none => none
    | some (abi1, some err) => some (abi1, some err)
    | some (abi1, none) => ABI.unmarshalFields keccak256 newEvent abi1 rest

/-- UnmarshalJSON, after `json.Unmarshal` has decoded the schema into `fields`: both
tables are made anew and the fields are ingested in order. The result is the registry
that `abi` points to after the call, and the error returned. -/
def ABI.UnmarshalJSON (keccak256 : List Byte → Digest)
    (newEvent : String → String → Bool → Arguments → Event) (abi : ABI)
    (fields : List Field) : Option (ABI × Option Error) :=
  ABI.unmarshalFields keccak256 newEvent
    { abi with MVBGods := GoMap.empty, Events := GoMap.empty } fields

/-- JSON returns a parsed ABI interface and error if it failed: the schema is decoded into
a zero-valued registry, and the zero value is returned with the error. -/
def JSON (keccak256 : List Byte → Digest)
    (newEvent : String → String → Bool → Arguments → Event) (fields : List Field) :
    Option (Ret ABI) :=
  match ABI.UnmarshalJSON keccak256 newEvent ABI.zero fields with
  | none => none
  | some (_, some err) => some ⟨ABI.zero, some err⟩
  | some (abi, none) => some ⟨abi, none⟩

/-- MVBGodById looks up a method by the 4-byte id; `find?` is the `range` loop, which
returns at the first entry it visits whose id equals `sigdata[:4]`. -/
def ABI.MVBGodById (abi : ABI) (sigdata : List Byte) : Ret (Option MVBGod) :=
  if sigdata.length < 4 then ⟨none, some (Error.dataTooShort sigdata.length)⟩
  else
    match abi.MVBGods.entries.find? fun e => decide (e.2.ID.toList = sigdata.take 4) with
    | some e => ⟨some e.2, none⟩
    | none => ⟨none, some (Error.noMVBGodWithId (sigdata.take 4))⟩

/-! ## Lookup by topic and the revert decoder (`abi.go`) -/

/-- EventByID looks an event up by its topic hash; `find?` is the `range` loop, which
returns at the first entry it visits whose id has the bytes of `topic`. -/
def ABI.EventByID (abi : ABI) (topic : Digest) : Ret (Option Event) :=
  match abi.Events.entries.find? fun e => decide (e.2.ID.bytes = topic.bytes) with
  | some e => ⟨some e.2, none⟩
  | none => ⟨none, some (Error.noEventWithId topic.bytes)⟩

/-- Modelled from the spec: a decoded value, a tagged union with one variant per kind of
type (section 9; the values of the engine are not among the sources). A Go string is a
sequence of bytes, so the `string` variant holds bytes; `array`, `slice` and `tuple` hold
their elements in order. -/
inductive Value where
  | uint (n : Nat)
  | int (i : Int)
  | bool (b : Bool)
  | address (bs : List Byte)
  | fixedBytes (bs : List Byte)
  | bytes (bs : List Byte)
  | string (bs : List Byte)
  | function (bs : List Byte)
  | array (elems : List Value)
  | slice (elems : List Value)
  | tuple (fields : List Value)
  deriving Repr

/-- The variable `revertSelector`, the selector for revert reason unpacking:
`crypto.Keccak256([]byte("Error(string)"))[:4]`. -/
def revertSelector (keccak256 : List Byte → Digest) : List Byte :=
  (keccak256 (stringBytes "Error(string)")).bytes.take 4

/-- UnpackRevert resolves the abi-encoded revert reason. `unpack` is `Arguments.Unpack`;
`NewType("string", "", nil)` is the string type. The string returned is a Go string, a
sequence of bytes. The result is `none` when the code panics: `unpacked[0].(string)` with
no value unpacked, or with a first value that is not a string. -/
def UnpackRevert (keccak256 : List Byte → Digest)
    (unpack : Arguments → List Byte → Ret (Slice Value)) (data : List Byte) :
    Option (Ret (List Byte)) :=
  if data.length < 4 then some ⟨[], some Error.invalidDataForUnpacking⟩
  else if data.take 4 ≠ revertSelector keccak256 then
    some ⟨[], some Error.invalidDataForUnpacking⟩
  else
    let typ := Type_.string
    let r := unpack (Slice.mk [{ Name := "", Type_ := typ, Indexed := false }]) (data.drop 4)
    match r.err with
    | some err => some ⟨[], some err⟩
    | none =>
      match r.val.toList with
      | Value.string s :: _ => some ⟨s, none⟩
      | _ => none

/-! ## The argument list engine, from the spec (section 4.2) -/

/-- The 32-byte big-endian word of `n`; a number of more than 256 bits is cut to its low
256 bits. -/
def wordOfNat (n : Nat) : List Byte :=
  (List.range 32).map fun i => UInt8.ofNat (n / 256 ^ (31 - i) % 256)

/-- The number that a sequence of bytes stands for, read as a big-endian integer. -/
def natOfBytes (bs : List Byte) : Nat :=
  bs.foldl (fun acc b => acc * 256 + b.toNat) 0

/-- The bytes right-padded with zeros to the next multiple of 32. -/
def padRight (bs : List Byte) : List Byte :=
  bs ++ List.replicate ((32 - bs.length % 32) % 32) 0

mutual
/-- Modelled from the spec: the number of bytes that a static type occupies in place
(section 4.1): one 32-byte slot for an elementary type, `N` consecutive encodings of the
element for a fixed array, the concatenation of the encodings of the fields for a tuple. -/
def staticSize : Type_ → Nat
  | .array n e => n * staticSize e
  | .tuple fs => staticSizeFields fs
  | _ => 32
/-- The number of bytes of the static encodings of the fields of a tuple. -/
def staticSizeFields : List (String × Type_) → Nat
  | [] => 0
  | (_, t) :: fs => staticSize t + staticSizeFields fs
end

/-- Modelled from the spec: the number of bytes of the head of an argument of type `t`:
the 32-byte slot of the offset when `t` is dynamic, and the bytes that a static type
occupies in place. -/
def headSize (t : Type_) : Nat := if t.isDynamic then 32 else staticSize t

/-- The number of bytes of the head region of a sequence of encodings: a 32-byte slot for a
dynamic one, the bytes of its encoding for a static one. -/
def headsLength : List (Bool × List Byte) → Nat
  | [] => 0
  | (false, enc) :: rest => enc.length + headsLength rest
  | (true, _) :: rest => 32 + headsLength rest

/-- Modelled from the spec: the head/tail protocol of `Pack` (section 4.2, steps 1 to 5),
on the encodings of the arguments in order, each with the classification of its type;
`headLen` is the number of bytes of the head region, `heads` the head slots written so
far and `tail` the running tail buffer. A static argument is encoded into the head; for a
dynamic argument the head is the byte offset, as a 32-byte big-endian integer, of the
place where its encoded data begins, and the encoding is appended to the tail buffer. The
offset is counted as `Unpack` reads it, "relative to the start of the data buffer (not
just the tail region)": it is the length of the head region plus the length of the tail
buffer so far. Step 3 words it as counted "from the start of the tail region"; with that
base the slot of the first dynamic argument would hold 0, where `Unpack` finds the head
region and not the data, against the round trip of section 8. The output is the heads
followed by the tail buffer. -/
def headTailFrom (headLen : Nat) :
    List (Bool × List Byte) → List Byte → List Byte → List Byte
  | [], heads, tail => heads ++ tail
  | (false, enc) :: rest, heads, tail => headTailFrom headLen rest (heads ++ enc) tail
  | (true, enc) :: rest, heads, tail =>
    headTailFrom headLen rest (heads ++ wordOfNat (headLen + tail.length)) (tail ++ enc)

/-- Modelled from the spec: the head/tail encoding of a sequence of encodings (section
4.2), the head slots in order followed by the tail buffer. -/
def headTail (items : List (Bool × List Byte)) : List Byte :=
  headTailFrom (headsLength items) items [] []

mutual
/-- Modelled from the spec: the encoding of one value of a type (section 4.2), or the
`TypeMismatchError` when the value does not fit the type (wrong kind, integer out of
range, wrong number of bytes or elements, wrong tuple arity). Integers, `bool` and
`address` are left-padded (a negative integer in two-complement form), fixed bytes and the
function selector are right-padded; `bytes` and `string` are the length followed by the
bytes right-padded to a multiple of 32; a dynamic array is the number of elements followed
by the head/tail encoding of its elements among themselves; a fixed array and a tuple are
the head/tail encoding of their elements, without a length. -/
def encode : Type_ → Value → Except Error (List Byte)
  | .uint bits, .uint n =>
    if n < 2 ^ bits then .ok (wordOfNat n) else .error Error.typeMismatch
  | .int bits, .int i =>
    if -(2 : Int) ^ (bits - 1) ≤ i ∧ i < (2 : Int) ^ (bits - 1) then
      .ok (wordOfNat (i % (2 : Int) ^ 256).toNat)
    else .error Error.typeMismatch
  | .bool, .bool b => .ok (wordOfNat (if b then 1 else 0))
  | .address, .address bs =>
    if bs.length = 20 then .ok (List.replicate 12 0 ++ bs) else .error Error.typeMismatch
  | .fixedBytes n, .fixedBytes bs =>
    if bs.length = n ∧ n ≤ 32 then .ok (bs ++ List.replicate (32 - n) 0)
    else .error Error.typeMismatch
  | .function, .function bs =>
    if bs.length = 24 then .ok (bs ++ List.replicate 8 0) else .error Error.typeMismatch
  | .bytes, .bytes bs => .ok (wordOfNat bs.length ++ padRight bs)
  | .string, .string bs => .ok (wordOfNat bs.length ++ padRight bs)
  | .array n e, .array vs =>
    if vs.length = n then
      match vs.mapM fun v => (encode e v).map fun enc => (e.isDynamic, enc) with
      | .ok items => .ok (headTail items)
      | .error err => .error err
    else .error Error.typeMismatch
  | .slice e, .slice vs =>
    match vs.mapM fun v => (encode e v).map fun enc => (e.isDynamic, enc) with
    | .ok items => .ok (wordOfNat vs.length ++ headTail items)
    | .error err => .error err
  | .tuple fs, .tuple vs =>
    match encodeFields fs vs with
    | .ok items => .ok (headTail items)
    | .error err => .error err
  | _, _ => .error Error.typeMismatch
/-- The encodings of the fields of a tuple, each with the classification of its type. -/
def encodeFields : List (String × Type_) → List Value → Except Error (List (Bool × List Byte))
  | [], [] => .ok []
  | (_, t) :: fs, v :: vs =>
    match encode t v, encodeFields fs vs with
    | .ok enc, .ok items => .ok ((t.isDynamic, enc) :: items)
    | .error err, _ => .error err
    | _, .error err => .error err
  | _, _ => .error Error.typeMismatch
end

/-- The encodings of the values of an argument list, one value per argument, each with the
classification of its type. -/
def packItems : List Argument → List Value → Except Error (List (Bool × List Byte))
  | [], [] => .ok []
  | a :: as, v :: vs =>
    match encode a.Type_ v, packItems as vs with
    | .ok enc, .ok items => .ok ((a.Type_.isDynamic, enc) :: items)
    | .error err, _ => .error err
    | _, .error err => .error err
  | _, _ => .error Error.typeMismatch

/-- Modelled from the spec: `Arguments.Pack` (section 4.2; `argument.go` is not among the
sources): one value per argument, matched by position and checked against the type, and
the head/tail encoding of the values; on failure no bytes are returned. -/
def Arguments.Pack (arguments : Arguments) (args : List Value) : Ret (Slice Byte) :=
  match packItems arguments.toList args with
  | .ok items => ⟨Slice.mk (headTail items), none⟩
  | .error err => ⟨Slice.nil, some err⟩

/-- The 32-byte word at position `pos` of the buffer, as a number; a `DecodeError` if
fewer than 32 bytes remain. -/
def readWord (buf : List Byte) (pos : Nat) : Except Error Nat :=
  if pos + 32 ≤ buf.length then .ok (natOfBytes ((buf.drop pos).take 32))
  else .error (Error.decodeError "fewer than 32 bytes remain")

/-- Modelled from the spec: the decoding of one argument of `Unpack` (section 4.2), whose
head is at `headPos` in a region that starts at `start`: a static argument is decoded in
place; for a dynamic argument the head slot is a byte offset relative to the start of the
region, validated against the length of the data, and the argument is decoded from there.
`dec` decodes a value of the type of the argument at a position of the buffer. -/
def decodeElement (dec : List Byte → Nat → Except Error Value) (dynamic : Bool)
    (buf : List Byte) (start headPos : Nat) : Except Error Value :=
  if dynamic then
    match readWord buf headPos with
    | .ok offset =>
      if start + offset ≤ buf.length then dec buf (start + offset)
      else .error (Error.decodeError "out of bounds")
    | .error err => .error err
  else dec buf headPos

mutual
/-- Modelled from the spec: the decoding of one value of a type whose encoding begins at
`pos` (section 4.2), the inverse reading of `encode`: a word for an elementary type; the
length and that many bytes for `bytes` and `string`, validated against the length of the
data; the number of elements and the elements, in a region that starts after the count,
for a dynamic array; the elements, in a region that starts at `pos`, for a fixed array and
a tuple. -/
def decode : Type_ → List Byte → Nat → Except Error Value
  | .uint _, buf, pos => (readWord buf pos).map Value.uint
  | .int _, buf, pos =>
    (readWord buf pos).map fun n =>
      Value.int (if n < 2 ^ 255 then (n : Int) else (n : Int) - (2 : Int) ^ 256)
  | .bool, buf, pos =>
    match readWord buf pos with
    | .ok 0 => .ok (Value.bool false)
    | .ok 1 => .ok (Value.bool true)
    | .ok _ => .error (Error.decodeError "improperly encoded boolean value")
    | .error err => .error err
  | .address, buf, pos =>
    (readWord buf pos).map fun _ => Value.address (((buf.drop pos).take 32).drop 12)
  | .fixedBytes n, buf, pos =>
    (readWord buf pos).map fun _ => Value.fixedBytes (((buf.drop pos).take 32).take n)
  | .function, buf, pos =>
    (readWord buf pos).map fun _ => Value.function (((buf.drop pos).take 32).take 24)
  | .bytes, buf, pos =>
    match readWord buf pos with
    | .ok len =>
      if pos + 32 + len ≤ buf.length then .ok (Value.bytes ((buf.drop (pos + 32)).take len))
      else .error (Error.decodeError "out of bounds")
    | .error err => .error err
  | .string, buf, pos =>
    match readWord buf pos with
    | .ok len =>
      if pos + 32 + len ≤ buf.length then .ok (Value.string ((buf.drop (pos + 32)).take len))
      else .error (Error.decodeError "out of bounds")
    | .error err => .error err
  | .array n e, buf, pos =>
    match (List.range n).mapM fun i =>
        decodeElement (decode e) e.isDynamic buf pos (pos + i * headSize e) with
    | .ok vs => .ok (Value.array vs)
    | .error err => .error err
  | .slice e, buf, pos =>
    match readWord buf pos with
    | .ok count =>
      if pos + 32 + count * headSize e ≤ buf.length then
        match (List.range count).mapM fun i =>
            decodeElement (decode e) e.isDynamic buf (pos + 32)
              (pos + 32 + i * headSize e) with
        | .ok vs => .ok (Value.slice vs)
        | .error err => .error err
      else .error (Error.decodeError "out of bounds")
    | .error err => .error err
  | .tuple fs, buf, pos =>
    match decodeFields fs buf pos pos with
    | .ok vs => .ok (Value.tuple vs)
    | .error err => .error err
/-- The decoding of the fields of a tuple, in a region that starts at `start`, the head of
the first of the fields being at `headPos`. -/
def decodeFields : List (String × Type_) → List Byte → Nat → Nat → Except Error (List Value)
  | [], _, _, _ => .ok []
  | (_, t) :: fs, buf, start, headPos =>
    match decodeElement (decode t) t.isDynamic buf start headPos,
      decodeFields fs buf start (headPos + headSize t) with
    | .ok v, .ok vs => .ok (v :: vs)
    | .error err, _ => .error err
    | _, .error err => .error err
end

/-- The decoding of the arguments of a list in order, the head of the first of them being
at `headPos`; offsets are relative to the start of the data buffer. -/
def unpackItems : List Argument → List Byte → Nat → Except Error (List Value)
  | [], _, _ => .ok []
  | a :: as, buf, headPos =>
    match decodeElement (decode a.Type_) a.Type_.isDynamic buf 0 headPos,
      unpackItems as buf (headPos + headSize a.Type_) with
    | .ok v, .ok vs => .ok (v :: vs)
    | .error err, _ => .error err
    | _, .error err => .error err

/-- Modelled from the spec: `Arguments.Unpack` (section 4.2; `argument.go` is not among
the sources): the data is expected to be a multiple of 32 bytes, and the values of the
arguments are produced in order; on failure no values are returned. -/
def Arguments.Unpack (arguments : Arguments) (data : List Byte) : Ret (Slice Value) :=
  if data.length % 32 ≠ 0 then
    ⟨Slice.nil, some (Error.decodeError "not a multiple of 32 bytes")⟩
  else
    match unpackItems arguments.toList data 0 with
    | .ok vs => ⟨Slice.mk vs, none⟩
    | .error err => ⟨Slice.nil, some err⟩

/-- The round trip of one type, at every position of every buffer: a value that `encode`
accepts has an encoding of a multiple of 32 bytes and of at least 32 bytes, of the static
size of the type when the type is static, and `decode` reads the value back from every
buffer of less than `2 ^ 256` bytes that holds the encoding, at the position where it
begins. -/
def RoundTrip (t : Type_) : Prop :=
  ∀ (v : Value) (enc : List Byte), encode t v = .ok enc →
    enc.length % 32 = 0 ∧ 32 ≤ enc.length ∧
    (t.isDynamic = false → enc.length = staticSize t) ∧
    ∀ pre post : List Byte, (pre ++ enc ++ post).length < 2 ^ 256 →
      decode t (pre ++ enc ++ post) pre.length = .ok v

/-! ## The test schema of `method_test.go` and stand-ins for the collaborators -/

/-- The type `tuple(uint256 x, uint256 y)` of the test schema. -/
def xyTuple : Type_ := Type_.tuple [("x", Type_.uint 256), ("y", Type_.uint 256)]

/-- A field of type "function", with the members of the schema that are absent from the
JSON object at their zero value. -/
def functionField (name : String) (inputs outputs : Arguments) (stateMutability : String) :
    Field :=
  { Type_ := "function", Name := name, Inputs := inputs, Outputs := outputs,
    StateMutability := stateMutability, Constant := false, Payable := false,
    Anonymous := false }

/-- The fields that `json.Unmarshal` decodes from the constant `mVBGoddata` of
`method_test.go`: a member that is absent from a JSON object leaves a nil slice, the JSON
array `[]` decodes to an empty slice that is not nil. -/
def mVBGoddata : List Field :=
  [ functionField "balance" Slice.nil Slice.nil "view",
    functionField "send" (Slice.mk [⟨"amount", Type_.uint 256, false⟩]) Slice.nil "",
    functionField "transfer"
      (Slice.mk [⟨"from", Type_.address, false⟩, ⟨"to", Type_.address, false⟩,
        ⟨"value", Type_.uint 256, false⟩])
      (Slice.mk [⟨"success", Type_.bool, false⟩]) "",
    functionField "tuple" (Slice.mk [⟨"a", xyTuple, false⟩]) (Slice.mk []) "nonpayable",
    functionField "tupleSlice" (Slice.mk [⟨"a", Type_.slice xyTuple, false⟩]) (Slice.mk [])
      "nonpayable",
    functionField "tupleArray" (Slice.mk [⟨"a", Type_.array 5 xyTuple, false⟩]) (Slice.mk [])
      "nonpayable",
    functionField "complexTuple"
      (Slice.mk [⟨"a", Type_.slice (Type_.array 5 xyTuple), false⟩]) (Slice.mk []) "nonpayable",
    { Type_ := "fallback", Name := "", Inputs := Slice.nil, Outputs := Slice.nil,
      StateMutability := "nonpayable", Constant := false, Payable := false,
      Anonymous := false },
    { Type_ := "receive", Name := "", Inputs := Slice.nil, Outputs := Slice.nil,
      StateMutability := "payable", Constant := false, Payable := false,
      Anonymous := false } ]

/-- A stand-in for the hash primitive, at which closed examples are evaluated: the first
32 bytes of the input padded with zeros. It has the type of the primitive and none of its
cryptographic properties. -/
def sampleKeccak256 (input : List Byte) : Digest :=
  ⟨(input ++ List.replicate 32 0).take 32, by simp [List.length_take]⟩

/-- A stand-in for `NewEvent`, at which closed examples are evaluated: it stores what it is
given, and the topic id is the stand-in hash of the signature of the event. -/
def sampleNewEvent (name rawName : String) (anonymous : Bool) (inputs : Arguments) : Event :=
  { Name := name, RawName := rawName, Anonymous := anonymous, Inputs := inputs,
    ID := sampleKeccak256 (stringBytes (rawName ++ "("
      ++ String.intercalate "," (inputs.toList.map fun a => a.Type_.String) ++ ")")) }

/-- A stand-in for `Arguments.Pack`, at which closed examples are evaluated: values are
bytes, each packed into one 32-byte word, and a wrong number of values is an error. -/
def samplePack (arguments : Arguments) (args : List Byte) : Ret (Slice Byte) :=
  if args.length ≠ arguments.len then ⟨Slice.nil, some (Error.engine "argument count mismatch")⟩
  else ⟨Slice.mk (args.flatMap fun b => List.replicate 31 0 ++ [b]), none⟩

/-- The registry ingested from the test schema `mVBGoddata`, with the stand-ins for the
collaborators; closed examples are evaluated at it. -/
def sampleABI : ABI :=
  match JSON sampleKeccak256 sampleNewEvent mVBGoddata with
  | some r => r.val
  | none => ABI.zero

/-- The method that the test schema declares as `send(uint256 amount)`. -/
def sampleSend : MVBGod :=
  NewMVBGod sampleKeccak256 "send" "send" FunctionType.Function "" false false
    (Slice.mk [⟨"amount", Type_.uint 256, false⟩]) Slice.nil

/-- A schema with two events, `received(address,uint256)` and `spent(uint256)`. -/
def sampleEvents : List Field :=
  [ { Type_ := "event", Name := "received",
      Inputs := Slice.mk [⟨"from", Type_.address, true⟩, ⟨"amount", Type_.uint 256, false⟩],
      Outputs := Slice.nil, StateMutability := "", Constant := false, Payable := false,
      Anonymous := false },
    { Type_ := "event", Name := "spent",
      Inputs := Slice.mk [⟨"amount", Type_.uint 256, false⟩],
      Outputs := Slice.nil, StateMutability := "", Constant := false, Payable := false,
      Anonymous := false } ]

/-- The registry ingested from `sampleEvents`, with the stand-ins for the collaborators. -/
def sampleEventABI : ABI :=
  match JSON sampleKeccak256 sampleNewEvent sampleEvents with
  | some r => r.val
  | none => ABI.zero

/-- A field with the keyword "Function", which is not the keyword "function". -/
def capitalizedField : Field :=
  { Type_ := "Function", Name := "mint", Inputs := Slice.nil, Outputs := Slice.nil,
    StateMutability := "", Constant := false, Payable := false, Anonymous := false }

/-- A field with the empty keyword. -/
def emptyKeywordField : Field :=
  { Type_ := "", Name := "mint", Inputs := Slice.nil, Outputs := Slice.nil,
    StateMutability := "", Constant := false, Payable := false, Anonymous := false }

/-- A fallback field with the given state mutability and legacy flags. -/
def fallbackField (stateMutability : String) (isConst isPayable : Bool) : Field :=
  { Type_ := "fallback", Name := "", Inputs := Slice.nil, Outputs := Slice.nil,
    StateMutability := stateMutability, Constant := isConst, Payable := isPayable,
    Anonymous := false }

/-- The argument list of the revert reason: one unnamed `string`. -/
def revertArguments : Arguments :=
  Slice.mk [{ Name := "", Type_ := Type_.string, Indexed := false }]

/-- The input list of `complexTuple` in the test schema: one argument `a` of type
`tuple(uint256,uint256)[5][]`. -/
def complexTupleArguments : Arguments :=
  Slice.mk [{ Name := "a", Type_ := Type_.slice (Type_.array 5 xyTuple), Indexed := false }]

/-- A value for `complexTuple`: two arrays of five tuples, with varying contents. -/
def complexTupleValue : List Value :=
  [ Value.slice
      [ Value.array
          [ Value.tuple [Value.uint 1, Value.uint 2], Value.tuple [Value.uint 3, Value.uint 4],
            Value.tuple [Value.uint 5, Value.uint 6], Value.tuple [Value.uint 7, Value.uint 8],
            Value.tuple [Value.uint 9, Value.uint 10] ],
        Value.array
          [ Value.tuple [Value.uint 11, Value.uint 12],
            Value.tuple [Value.uint 13, Value.uint 14],
            Value.tuple [Value.uint 15, Value.uint 16],
            Value.tuple [Value.uint 17, Value.uint 18],
            Value.tuple [Value.uint 19, Value.uint 20] ] ] ]

/-- A receive field with the given state mutability and legacy flags. -/
def receiveField (stateMutability : String) (isConst isPayable : Bool) : Field :=
  { Type_ := "receive", Name := "", Inputs := Slice.nil, Outputs := Slice.nil,
    StateMutability := stateMutability, Constant := isConst, Payable := isPayable,
    Anonymous := false }

/-- A constructor field with the given inputs and state mutability. -/
def constructorField (inputs : Arguments) (stateMutability : String) : Field :=
  { Type_ := "constructor", Name := "", Inputs := inputs, Outputs := Slice.nil,
    StateMutability := stateMutability, Constant := false, Payable := false,
    Anonymous := false }

/-- The key invariant of the function table, relative to the fields ingested so far: every
entry is the method built from one of the function fields, under a key that is the
declared name of the field or that name followed by a decimal number; the keys are
pairwise distinct; and there are as many entries as function fields. -/
def functionTableInvariant (keccak256 : List Byte → Digest) (abi : ABI)
    (done : List Field) : Prop :=
  (∀ e ∈ abi.MVBGods.entries, ∃ f ∈ done, f.Type_ = "function" ∧
    e.2 = NewMVBGod keccak256 e.1 f.Name FunctionType.Function f.StateMutability f.Constant
      f.Payable f.Inputs f.Outputs ∧
    (e.1 = f.Name ∨ ∃ i, e.1 = f.Name ++ decimal i)) ∧
  abi.MVBGods.keys.Nodup ∧
  abi.MVBGods.entries.length = (done.filter fun f => decide (f.Type_ = "function")).length

/-- A field of type "event", with the members of the schema that are absent from the JSON
object at their zero value. -/
def eventField (name : String) (inputs : Arguments) : Field :=
  { Type_ := "event", Name := name, Inputs := inputs, Outputs := Slice.nil,
    StateMutability := "", Constant := false, Payable := false, Anonymous := false }

/-- A schema that declares a function `transfer(address to) returns(bool success)` and an
event `transfer(address to, uint256 value)` of the same name. -/
def collisionFields : List Field :=
  [ functionField "transfer" (Slice.mk [⟨"to", Type_.address, false⟩])
      (Slice.mk [⟨"success", Type_.bool, false⟩]) "",
    eventField "transfer"
      (Slice.mk [⟨"to", Type_.address, true⟩, ⟨"value", Type_.uint 256, false⟩]) ]

/-- The registry ingested from `collisionFields`, with the stand-ins for the
collaborators. -/
def collisionABI : ABI :=
  match JSON sampleKeccak256 sampleNewEvent collisionFields with
  | some r => r.val
  | none => ABI.zero

/-- A schema that declares a function `transfer(address to) returns(bool success)` and an
event `transfer` whose JSON object has no "inputs" member, so that its input list is the
nil slice. -/
def bareEventFields : List Field :=
  [ functionField "transfer" (Slice.mk [⟨"to", Type_.address, false⟩])
      (Slice.mk [⟨"success", Type_.bool, false⟩]) "",
    eventField "transfer" Slice.nil ]

/-- The registry ingested from `bareEventFields`, with the stand-ins for the
collaborators. -/
def bareEventABI : ABI :=
  match JSON sampleKeccak256 sampleNewEvent bareEventFields with
  | some r => r.val
  | none => ABI.zero

/-! # Lemmas -/

/-! ## Helper lemmas on slices -/

theorem Slice.toList_append {α : Type} (s : Slice α) (xs : List α) :
    (s.append xs).toList = s.toList ++ xs := by
  cases xs with
  | nil => simp [Slice.append]
  | cons x rest => simp [Slice.append, Slice.toList]

theorem Slice.len_append {α : Type} (s : Slice α) (xs : List α) :
    (s.append xs).len = s.len + xs.length := by
  simp [Slice.len, Slice.toList_append]

theorem function_id_has_four_bytes (keccak256 : List Byte → Digest) (n r mu : String) (c p : Bool)
    (ins outs : Arguments) :
    (NewMVBGod keccak256 n r FunctionType.Function mu c p ins outs).ID.len = 4 := by
  simp [NewMVBGod, Slice.len, Slice.toList, (keccak256 _).size]

/-! ## The decimal form of an index -/

/-- The value of a digit character. -/
theorem digitChar_toNat (k : Nat) (hk : k < 10) : (Nat.digitChar k).toNat - 48 = k := by
  interval_cases k <;> rfl

/-- The digits are put in front of the accumulator. -/
theorem toDigitsCore_append (fuel n : Nat) (ds : List Char) :
    Nat.toDigitsCore 10 fuel n ds = Nat.toDigitsCore 10 fuel n [] ++ ds := by
  induction fuel generalizing n ds with
  | zero => simp [Nat.toDigitsCore]
  | succ fuel ih =>
    simp only [Nat.toDigitsCore]
    split
    · simp
    · rw [ih (n / 10) (Nat.digitChar (n % 10) :: ds), ih (n / 10) [Nat.digitChar (n % 10)]]
      simp

/-- Reading the digits of `n` back, from the most significant one, gives `n`. -/
theorem foldl_toDigitsCore (fuel n : Nat) (hfuel : n < fuel) :
    (Nat.toDigitsCore 10 fuel n []).foldl (fun acc c => 10 * acc + (c.toNat - 48)) 0 = n := by
  induction fuel generalizing n with
  | zero => omega
  | succ fuel ih =>
    simp only [Nat.toDigitsCore]
    split
    · rename_i h0
      have hlt : n < 10 := by omega
      simp only [List.foldl_cons, List.foldl_nil, Nat.mul_zero, Nat.zero_add]
      rw [Nat.mod_eq_of_lt hlt]
      exact digitChar_toNat n hlt
    · rename_i h0
      rw [toDigitsCore_append, List.foldl_append]
      have hdiv : n / 10 < fuel := by omega
      rw [ih (n / 10) hdiv]
      simp only [List.foldl_cons, List.foldl_nil]
      rw [digitChar_toNat (n % 10) (Nat.mod_lt _ (by decide))]
      omega

/-- Two indices with the same decimal form are equal. -/
theorem decimal_injective (i j : Nat) (h : decimal i = decimal j) : i = j := by
  have hd : Nat.toDigits 10 i = Nat.toDigits 10 j := by
    have h1 : (decimal i).data = (decimal j).data := by rw [h]
    simpa [decimal, toString, Nat.repr, List.asString] using h1
  have hi := foldl_toDigitsCore (i + 1) i (Nat.lt_succ_self i)
  have hj := foldl_toDigitsCore (j + 1) j (Nat.lt_succ_self j)
  unfold Nat.toDigits at hd
  rw [hd] at hi
  omega

/-- The candidate names `rawName0`, `rawName1`, ... are pairwise distinct. -/
theorem append_decimal_injective (rawName : String) (i j : Nat)
    (h : rawName ++ decimal i = rawName ++ decimal j) : i = j := by
  apply decimal_injective
  have h1 : (rawName ++ decimal i).data = (rawName ++ decimal j).data := by rw [h]
  simp only [String.data_append] at h1
  exact String.ext (List.append_cancel_left h1)

/-! ## Maps -/

theorem lookup_isSome_iff {V : Type} (k : String) (l : List (String × V)) :
    (List.lookup k l).isSome = true ↔ k ∈ l.map Prod.fst := by
  induction l with
  | nil => simp
  | cons e rest ih =>
    obtain ⟨a, b⟩ := e
    by_cases h : k = a
    · subst h
      simp [List.lookup_cons]
    · have hb : (k == a) = false := by simpa using h
      simp [List.lookup_cons, hb, ih, h]

theorem GoMap.has_iff {V : Type} (m : GoMap V) (k : String) :
    m.has k = true ↔ k ∈ m.keys :=
  lookup_isSome_iff k m.entries

theorem lookup_append_of_not_mem {V : Type} (k name : String) (v : V)
    (l : List (String × V)) (hfresh : name ∉ l.map Prod.fst) :
    List.lookup k (l ++ [(name, v)])
      = if k = name then some v else List.lookup k l := by
  induction l with
  | nil =>
    by_cases h : k = name
    · simp [List.lookup_cons, h]
    · have hb : (k == name) = false := by simpa using h
      simp [List.lookup_cons, h, hb]
  | cons e rest ih =>
    obtain ⟨a, b⟩ := e
    simp only [List.map_cons, List.mem_cons, not_or] at hfresh
    by_cases h : k = a
    · subst h
      have hne : ¬ k = name := fun h => hfresh.1 h.symm
      simp [List.lookup_cons, hne]
    · have hb : (k == a) = false := by simpa using h
      simp only [List.cons_append, List.lookup_cons, hb]
      exact ih hfresh.2

/-- Storing under a key that the map does not have adds one entry at the end, and leaves
the entries that the map has as they are. -/
theorem GoMap.store_fresh {V : Type} (m : GoMap V) (name : String) (v : V)
    (hfresh : m.has name = false) :
    (m.store name v).entries = m.entries ++ [(name, v)] ∧
    (m.store name v).lookup name = some v ∧
    (∀ (k : String) (w : V), m.lookup k = some w → (m.store name v).lookup k = some w) := by
  have hnot : name ∉ m.entries.map Prod.fst := by
    intro h
    have := (GoMap.has_iff m name).2 h
    rw [hfresh] at this
    exact Bool.noConfusion this
  have hst : m.store name v = ⟨m.entries ++ [(name, v)]⟩ := by
    simp [GoMap.store, hfresh]
  rw [hst]
  refine ⟨rfl, ?_, ?_⟩
  · simp [GoMap.lookup, lookup_append_of_not_mem name name v m.entries hnot]
  · intro k w hk
    have hne : ¬ k = name := by
      intro h
      subst h
      have : m.has k = true := by simp [GoMap.has, hk]
      rw [hfresh] at this
      exact Bool.noConfusion this
    simp only [GoMap.lookup] at hk ⊢
    rw [lookup_append_of_not_mem k name v m.entries hnot, if_neg hne, hk]

/-! ## The name loop -/

/-- Among the first `n + 1` candidate names, one is not among `n` keys. -/
theorem exists_fresh_index (keys : List String) (rawName : String) :
    ∃ i, i ≤ keys.length ∧ rawName ++ decimal i ∉ keys := by
  by_contra hall
  have hall : ∀ i, i ≤ keys.length → rawName ++ decimal i ∈ keys := by
    intro i hi
    by_contra hni
    exact hall ⟨i, hi, hni⟩
  let cand := (List.range (keys.length + 1)).map fun i => rawName ++ decimal i
  have hnodup : cand.Nodup :=
    List.Nodup.map (fun i j h => append_decimal_injective rawName i j h) (List.nodup_range _)
  have hsub : cand ⊆ keys := by
    intro x hx
    obtain ⟨i, hi, rfl⟩ := List.mem_map.1 hx
    exact hall i (Nat.le_of_lt_succ (List.mem_range.1 hi))
  have hlen := (List.subperm_of_subset hnodup hsub).length_le
  simp [cand] at hlen

/-- The loop, entered with `ok` true at index `idx`, leaves at the first index from `idx`
on whose candidate name is not a key, given the fuel for the tests up to there. -/
theorem overloadedNameLoop_run (isKey : String → Bool) (rawName : String) :
    ∀ (d idx fuel : Nat) (name : String),
      (∀ i, idx ≤ i → i < idx + d → isKey (rawName ++ decimal i) = true) →
      isKey (rawName ++ decimal (idx + d)) = false → d + 2 ≤ fuel →
      overloadedNameLoop isKey rawName fuel name true idx = some (rawName ++ decimal (idx + d)) := by
  intro d
  induction d with
  | zero =>
    intro idx fuel name _ hout hfuel
    obtain ⟨f, rfl⟩ : ∃ f, fuel = f + 2 := ⟨fuel - 2, by omega⟩
    simp only [Nat.add_zero] at hout
    simp [overloadedNameLoop, hout]
  | succ d ih =>
    intro idx fuel name hin hout hfuel
    obtain ⟨f, rfl⟩ : ∃ f, fuel = f + 1 := ⟨fuel - 1, by omega⟩
    have hidx : isKey (rawName ++ decimal idx) = true := hin idx (Nat.le_refl _) (by omega)
    simp only [overloadedNameLoop, if_true, hidx]
    have hrw : idx + (d + 1) = idx + 1 + d := by omega
    rw [hrw] at hout ⊢
    exact ih (idx + 1) f _ (fun i h1 h2 => hin i (by omega) (by omega)) hout (by omega)

/-- The name loop on a map is never out of fuel: it returns the raw name when that is not
a key, and otherwise the raw name followed by the smallest index whose candidate name is
not a key; that index is at most the number of entries. -/
theorem overloadedNameLoop_fuel {V : Type} (m : GoMap V) (rawName : String) :
    (m.has rawName = false →
      overloadedNameLoop m.has rawName (m.entries.length + 2) rawName (m.has rawName) 0
        = some rawName) ∧
    (m.has rawName = true →
      ∃ i, i ≤ m.entries.length ∧
        overloadedNameLoop m.has rawName (m.entries.length + 2) rawName (m.has rawName) 0
          = some (rawName ++ decimal i) ∧
        m.has (rawName ++ decimal i) = false ∧
        ∀ j, j < i → m.has (rawName ++ decimal j) = true) := by
  refine ⟨?_, ?_⟩
  · intro h
    simp [overloadedNameLoop, h]
  · intro h
    have hex : ∃ i, m.has (rawName ++ decimal i) = false := by
      obtain ⟨i, _, hi⟩ := exists_fresh_index m.keys rawName
      refine ⟨i, ?_⟩
      cases hh : m.has (rawName ++ decimal i) with
      | false => rfl
      | true => exact absurd ((GoMap.has_iff m _).1 hh) hi
    have hmin : ∀ j, j < Nat.find hex → m.has (rawName ++ decimal j) = true := by
      intro j hj
      have := Nat.find_min hex hj
      simpa using this
    have hle : Nat.find hex ≤ m.entries.length := by
      obtain ⟨i, hi, hni⟩ := exists_fresh_index m.keys rawName
      have hlen : m.keys.length = m.entries.length := by simp [GoMap.keys]
      rw [hlen] at hi
      refine Nat.le_trans (Nat.find_min' hex ?_) hi
      cases hh : m.has (rawName ++ decimal i) with
      | false => rfl
      | true => exact absurd ((GoMap.has_iff m _).1 hh) hni
    refine ⟨Nat.find hex, hle, ?_, Nat.find_spec hex, hmin⟩
    rw [h]
    have := overloadedNameLoop_run m.has rawName (Nat.find hex) 0 (m.entries.length + 2)
      rawName (fun i _ h2 => hmin i (by omega)) (by simpa using Nat.find_spec hex) (by omega)
    simpa using this

/-! ## Ingestion -/

/-- The name loop on a map always returns a name. -/
theorem overloadedNameLoop_some {V : Type} (m : GoMap V) (rawName : String) :
    ∃ name, overloadedNameLoop m.has rawName (m.entries.length + 2) rawName
      (m.has rawName) 0 = some name := by
  cases h : m.has rawName with
  | false => exact ⟨rawName, by simpa [h] using (overloadedNameLoop_fuel m rawName).1 h⟩
  | true =>
    obtain ⟨i, _, hi, _⟩ := (overloadedNameLoop_fuel m rawName).2 h
    exact ⟨_, by simpa [h] using hi⟩

/-- A property of all entries of a map, and of the entry that is stored, is a property of
all entries after the store. -/
theorem GoMap.store_entries {V : Type} (P : String × V → Prop) (m : GoMap V) (k : String)
    (v : V) (hall : ∀ e ∈ m.entries, P e) (hnew : P (k, v)) :
    ∀ e ∈ (m.store k v).entries, P e := by
  intro e he
  unfold GoMap.store at he
  split at he
  · obtain ⟨e0, he0, rfl⟩ := List.mem_map.1 he
    split
    · exact hnew
    · exact hall e0 he0
  · rcases List.mem_append.1 he with h | h
    · exact hall e h
    · simp only [List.mem_singleton] at h
      rw [h]
      exact hnew

/-- The ingestion of one field always returns: no name loop runs out of fuel. -/
theorem unmarshalField_total (keccak256 : List Byte → Digest)
    (newEvent : String → String → Bool → Arguments → Event) (abi : ABI) (field : Field) :
    ∃ r, abi.unmarshalField keccak256 newEvent field = some r := by
  obtain ⟨n1, h1⟩ := overloadedNameLoop_some abi.MVBGods field.Name
  obtain ⟨n2, h2⟩ := overloadedNameLoop_some abi.Events field.Name
  unfold ABI.unmarshalField ABI.overloadedMVBGodName ABI.overloadedEventName
  rw [h1, h2]
  split_ifs <;> simp

/-- The ingestion of a list of fields always returns. -/
theorem unmarshalFields_total (keccak256 : List Byte → Digest)
    (newEvent : String → String → Bool → Arguments → Event) (fields : List Field) :
    ∀ abi : ABI, ∃ r, ABI.unmarshalFields keccak256 newEvent abi fields = some r := by
  induction fields with
  | nil => exact fun abi => ⟨_, rfl⟩
  | cons field rest ih =>
    intro abi
    obtain ⟨⟨abi1, err⟩, h⟩ := unmarshalField_total keccak256 newEvent abi field
    cases err with
    | some e => exact ⟨(abi1, some e), by simp [ABI.unmarshalFields, h]⟩
    | none =>
      obtain ⟨r, hr⟩ := ih abi1
      exact ⟨r, by simp [ABI.unmarshalFields, h, hr]⟩

/-- `UnmarshalJSON` always returns. -/
theorem UnmarshalJSON_total (keccak256 : List Byte → Digest)
    (newEvent : String → String → Bool → Arguments → Event) (abi : ABI)
    (fields : List Field) : ∃ r, abi.UnmarshalJSON keccak256 newEvent fields = some r :=
  unmarshalFields_total keccak256 newEvent fields _

/-- The ingestion of one field keeps the function table a table of Function methods built
by `NewMVBGod`, each one under its own name. -/
theorem unmarshalField_entries (keccak256 : List Byte → Digest)
    (newEvent : String → String → Bool → Arguments → Event) (abi abi1 : ABI) (field : Field)
    (err : Option Error)
    (hstep : abi.unmarshalField keccak256 newEvent field = some (abi1, err))
    (hall : ∀ e ∈ abi.MVBGods.entries, ∃ (r mu : String) (c p : Bool) (ins outs : Arguments),
      e.2 = NewMVBGod keccak256 e.1 r FunctionType.Function mu c p ins outs) :
    ∀ e ∈ abi1.MVBGods.entries, ∃ (r mu : String) (c p : Bool) (ins outs : Arguments),
      e.2 = NewMVBGod keccak256 e.1 r FunctionType.Function mu c p ins outs := by
  unfold ABI.unmarshalField at hstep
  split at hstep
  · cases hstep
    exact hall
  · split at hstep
    · split at hstep
      · cases hstep
      · cases hstep
        exact GoMap.store_entries _ _ _ _ hall ⟨_, _, _, _, _, _, rfl⟩
    · split at hstep
      · split at hstep <;> cases hstep <;> exact hall
      · split at hstep
        · split at hstep
          · cases hstep
            exact hall
          · split at hstep <;> cases hstep <;> exact hall
        · split at hstep
          · split at hstep
            · cases hstep
            · cases hstep
              exact hall
          · cases hstep
            exact hall

/-- After `UnmarshalJSON`, with or without an error, every entry of the function table is
a Function method built by `NewMVBGod` under its own name. -/
theorem UnmarshalJSON_entries (keccak256 : List Byte → Digest)
    (newEvent : String → String → Bool → Arguments → Event) (abi0 abi1 : ABI)
    (fields : List Field) (err : Option Error)
    (hing : abi0.UnmarshalJSON keccak256 newEvent fields = some (abi1, err)) :
    ∀ e ∈ abi1.MVBGods.entries, ∃ (r mu : String) (c p : Bool) (ins outs : Arguments),
      e.2 = NewMVBGod keccak256 e.1 r FunctionType.Function mu c p ins outs := by
  have hloop : ∀ (fields : List Field) (abi : ABI),
      ABI.unmarshalFields keccak256 newEvent abi fields = some (abi1, err) →
      (∀ e ∈ abi.MVBGods.entries, ∃ (r mu : String) (c p : Bool) (ins outs : Arguments),
        e.2 = NewMVBGod keccak256 e.1 r FunctionType.Function mu c p ins outs) →
      ∀ e ∈ abi1.MVBGods.entries, ∃ (r mu : String) (c p : Bool) (ins outs : Arguments),
        e.2 = NewMVBGod keccak256 e.1 r FunctionType.Function mu c p ins outs := by
    intro fields
    induction fields with
    | nil =>
      intro abi h hall
      simp only [ABI.unmarshalFields, Option.some.injEq, Prod.mk.injEq] at h
      rw [← h.1]
      exact hall
    | cons field rest ih =>
      intro abi h hall
      obtain ⟨⟨abi2, err2⟩, hstep⟩ := unmarshalField_total keccak256 newEvent abi field
      have hall2 := unmarshalField_entries keccak256 newEvent abi abi2 field err2 hstep hall
      cases err2 with
      | some e2 =>
        simp only [ABI.unmarshalFields, hstep, Option.some.injEq, Prod.mk.injEq] at h
        rw [← h.1]
        exact hall2
      | none =>
        simp only [ABI.unmarshalFields, hstep] at h
        exact ih abi2 h hall2
  refine hloop fields _ hing ?_
  intro e he
  simp [GoMap.empty] at he

/-- A value that `lookup` reads is the value of an entry. -/
theorem GoMap.mem_of_lookup {V : Type} (m : GoMap V) (k : String) (v : V)
    (h : m.lookup k = some v) : (k, v) ∈ m.entries := by
  have hlist : ∀ l : List (String × V), List.lookup k l = some v → (k, v) ∈ l := by
    intro l
    induction l with
    | nil => intro h; simp at h
    | cons e rest ih =>
      intro h
      obtain ⟨a, b⟩ := e
      by_cases hk : k = a
      · subst hk
        simp only [List.lookup_cons, beq_self_eq_true, Option.some.injEq] at h
        simp [h]
      · have hb : (k == a) = false := by simpa using hk
        simp only [List.lookup_cons, hb] at h
        exact List.mem_cons_of_mem _ (ih h)
  exact hlist m.entries h

/-! ## Hash values -/

/-- Two hash values with the same bytes are equal. -/
theorem Digest.eq_of_bytes (a b : Digest) (h : a.bytes = b.bytes) : a = b := by
  cases a
  cases b
  cases h
  rfl

/-! ## Strings -/

/-- A string of length 0 is the empty string. -/
theorem string_eq_empty_of_length (s : String) (h : s.length = 0) : s = "" := by
  cases s with
  | mk data =>
    have hd : data = [] := List.length_eq_zero.1 h
    rw [hd]

/-! ## Ingestion of a sequence of fields -/

/-- Fields that are ingested without error can be ingested first: the rest is ingested
into the registry that they leave. -/
theorem unmarshalFields_append (keccak256 : List Byte → Digest)
    (newEvent : String → String → Bool → Arguments → Event) (before rest : List Field) :
    ∀ (abi abi1 : ABI), ABI.unmarshalFields keccak256 newEvent abi before = some (abi1, none) →
      ABI.unmarshalFields keccak256 newEvent abi (before ++ rest)
        = ABI.unmarshalFields keccak256 newEvent abi1 rest := by
  induction before with
  | nil =>
    intro abi abi1 h
    simp only [ABI.unmarshalFields, Option.some.injEq, Prod.mk.injEq, and_true] at h
    rw [h]
    rfl
  | cons field before ih =>
    intro abi abi1 h
    obtain ⟨⟨abi2, err2⟩, hstep⟩ := unmarshalField_total keccak256 newEvent abi field
    cases err2 with
    | some e =>
      simp [ABI.unmarshalFields, hstep] at h
    | none =>
      simp only [ABI.unmarshalFields, hstep] at h
      simp only [List.cons_append, ABI.unmarshalFields, hstep]
      exact ih abi2 abi1 h

/-- The ingestion of one field without error leaves a fallback in the registry exactly
when there was one, or the field is a fallback field. -/
theorem unmarshalField_HasFallback (keccak256 : List Byte → Digest)
    (newEvent : String → String → Bool → Arguments → Event) (abi abi1 : ABI) (field : Field)
    (hstep : abi.unmarshalField keccak256 newEvent field = some (abi1, none)) :
    abi1.HasFallback = true ↔ abi.HasFallback = true ∨ field.Type_ = "fallback" := by
  unfold ABI.unmarshalField at hstep
  split at hstep
  · rename_i h
    cases hstep
    simp [ABI.HasFallback, h]
  · split at hstep
    · rename_i h
      split at hstep
      · cases hstep
      · cases hstep
        simp [ABI.HasFallback, h]
    · split at hstep
      · rename_i h
        split at hstep
        · cases hstep
        · cases hstep
          simp [ABI.HasFallback, h, NewMVBGod]
      · rename_i h
        split at hstep
        · split at hstep
          · cases hstep
          · split at hstep
            · cases hstep
            · cases hstep
              simp [ABI.HasFallback, h]
        · split at hstep
          · split at hstep
            · cases hstep
            · cases hstep
              simp [ABI.HasFallback, h]
          · cases hstep

/-- After the ingestion of fields without error, the registry has a fallback exactly when
it had one, or one of the fields is a fallback field. -/
theorem unmarshalFields_HasFallback (keccak256 : List Byte → Digest)
    (newEvent : String → String → Bool → Arguments → Event) (fields : List Field) :
    ∀ (abi abi1 : ABI), ABI.unmarshalFields keccak256 newEvent abi fields = some (abi1, none) →
      (abi1.HasFallback = true ↔
        abi.HasFallback = true ∨ ∃ f ∈ fields, f.Type_ = "fallback") := by
  induction fields with
  | nil =>
    intro abi abi1 h
    simp only [ABI.unmarshalFields, Option.some.injEq, Prod.mk.injEq, and_true] at h
    rw [h]
    simp
  | cons field rest ih =>
    intro abi abi1 h
    obtain ⟨⟨abi2, err2⟩, hstep⟩ := unmarshalField_total keccak256 newEvent abi field
    cases err2 with
    | some e =>
      simp [ABI.unmarshalFields, hstep] at h
    | none =>
      simp only [ABI.unmarshalFields, hstep] at h
      rw [ih abi2 abi1 h, unmarshalField_HasFallback keccak256 newEvent abi abi2 field hstep]
      simp only [List.mem_cons, exists_eq_or_imp]
      tauto

/-! ## The type model -/

/-- One of the field types is dynamic exactly when some field has a dynamic type. -/
theorem anyDynamic_iff (fs : List (String × Type_)) :
    Type_.anyDynamic fs = true ↔ ∃ f ∈ fs, f.2.isDynamic = true := by
  induction fs with
  | nil => simp [Type_.anyDynamic]
  | cons f rest ih =>
    obtain ⟨n, t⟩ := f
    simp [Type_.anyDynamic, ih]

/-- The canonical strings of the fields of a tuple are those of the field types. -/
theorem fieldStrings_eq_map (fs : List (String × Type_)) :
    Type_.fieldStrings fs = fs.map fun f => f.2.String := by
  induction fs with
  | nil => simp [Type_.fieldStrings]
  | cons f rest ih =>
    obtain ⟨n, t⟩ := f
    simp [Type_.fieldStrings, ih]

/-! ## Words -/

/-- A word has 32 bytes. -/
theorem wordOfNat_length (n : Nat) : (wordOfNat n).length = 32 := by
  simp [wordOfNat]

/-- The padded bytes have a length that is a multiple of 32. -/
theorem padRight_length (bs : List Byte) : (padRight bs).length % 32 = 0 := by
  simp only [padRight, List.length_append, List.length_replicate]
  omega

/-- The word at position 0 of a buffer that begins with the word of 0 is 0. -/
theorem readWord_zero (rest : List Byte) : readWord (wordOfNat 0 ++ rest) 0 = .ok 0 := by
  have hlen : 0 + 32 ≤ (wordOfNat 0 ++ rest).length := by
    simp [wordOfNat_length]
  have htake : ((wordOfNat 0 ++ rest).drop 0).take 32 = wordOfNat 0 := by
    rw [List.drop_zero, List.take_append_of_le_length (by simp [wordOfNat_length]),
      List.take_of_length_le (by simp [wordOfNat_length])]
  unfold readWord
  rw [if_pos hlen, htake]
  rfl

/-- The revert selector has 4 bytes. -/
theorem revertSelector_length (keccak256 : List Byte → Digest) :
    (revertSelector keccak256).length = 4 := by
  simp [revertSelector, (keccak256 _).size]

/-- The type that `UnpackRevert` constructs, `NewType("string", "", nil)`, is the string
type, and its construction does not fail. -/
theorem NewType_string : NewType "string" "" [] = .ok Type_.string := rfl

/-! ## Ingestion: the receive and the constructor -/

/-- The ingestion of one field without error leaves a receive in the registry exactly
when there was one, or the field is a receive field. -/
theorem unmarshalField_HasReceive (keccak256 : List Byte → Digest)
    (newEvent : String → String → Bool → Arguments → Event) (abi abi1 : ABI) (field : Field)
    (hstep : abi.unmarshalField keccak256 newEvent field = some (abi1, none)) :
    abi1.HasReceive = true ↔ abi.HasReceive = true ∨ field.Type_ = "receive" := by
  unfold ABI.unmarshalField at hstep
  split at hstep
  · cases hstep
    simp_all [ABI.HasReceive]
  · split at hstep
    · split at hstep
      · cases hstep
      · cases hstep
        simp_all [ABI.HasReceive]
    · split at hstep
      · split at hstep
        · cases hstep
        · cases hstep
          simp_all [ABI.HasReceive]
      · split at hstep
        · split at hstep
          · cases hstep
          · split at hstep
            · cases hstep
            · cases hstep
              simp_all [ABI.HasReceive, NewMVBGod]
        · split at hstep
          · split at hstep
            · cases hstep
            · cases hstep
              simp_all [ABI.HasReceive]
          · cases hstep

/-- After the ingestion of fields without error, the registry has a receive exactly when
it had one, or one of the fields is a receive field. -/
theorem unmarshalFields_HasReceive (keccak256 : List Byte → Digest)
    (newEvent : String → String → Bool → Arguments → Event) (fields : List Field) :
    ∀ (abi abi1 : ABI), ABI.unmarshalFields keccak256 newEvent abi fields = some (abi1, none) →
      (abi1.HasReceive = true ↔
        abi.HasReceive = true ∨ ∃ f ∈ fields, f.Type_ = "receive") := by
  induction fields with
  | nil =>
    intro abi abi1 h
    simp only [ABI.unmarshalFields, Option.some.injEq, Prod.mk.injEq, and_true] at h
    rw [h]
    simp
  | cons field rest ih =>
    intro abi abi1 h
    obtain ⟨⟨abi2, err2⟩, hstep⟩ := unmarshalField_total keccak256 newEvent abi field
    cases err2 with
    | some e =>
      simp [ABI.unmarshalFields, hstep] at h
    | none =>
      simp only [ABI.unmarshalFields, hstep] at h
      rw [ih abi2 abi1 h, unmarshalField_HasReceive keccak256 newEvent abi abi2 field hstep]
      simp only [List.mem_cons, exists_eq_or_imp]
      tauto

/-- When a sequence of fields is ingested without error, so is every beginning of it, and
the rest is ingested into the registry that the beginning leaves. -/
theorem unmarshalFields_of_append (keccak256 : List Byte → Digest)
    (newEvent : String → String → Bool → Arguments → Event) (before rest : List Field) :
    ∀ (abi abi1 : ABI),
      ABI.unmarshalFields keccak256 newEvent abi (before ++ rest) = some (abi1, none) →
      ∃ abi2, ABI.unmarshalFields keccak256 newEvent abi before = some (abi2, none) ∧
        ABI.unmarshalFields keccak256 newEvent abi2 rest = some (abi1, none) := by
  induction before with
  | nil =>
    intro abi abi1 h
    exact ⟨abi, rfl, h⟩
  | cons field before ih =>
    intro abi abi1 h
    obtain ⟨⟨abi2, err2⟩, hstep⟩ := unmarshalField_total keccak256 newEvent abi field
    cases err2 with
    | some e =>
      simp [ABI.unmarshalFields, hstep] at h
    | none =>
      simp only [List.cons_append, ABI.unmarshalFields, hstep] at h
      obtain ⟨abi3, h3, h4⟩ := ih abi2 abi1 h
      exact ⟨abi3, by simp only [ABI.unmarshalFields, hstep]; exact h3, h4⟩

/-- A constructor field is ingested without error, and sets the constructor. -/
theorem unmarshalField_constructor (keccak256 : List Byte → Digest)
    (newEvent : String → String → Bool → Arguments → Event) (abi : ABI) (field : Field)
    (hfield : field.Type_ = "constructor") :
    abi.unmarshalField keccak256 newEvent field
      = some ({ abi with Constructor := (NewMVBGod keccak256 "" "" FunctionType.Constructor
          field.StateMutability field.Constant field.Payable field.Inputs Slice.nil) },
        none) := by
  simp [ABI.unmarshalField, hfield]

/-- The ingestion of a field that is not a constructor field keeps the constructor. -/
theorem unmarshalField_keeps_constructor (keccak256 : List Byte → Digest)
    (newEvent : String → String → Bool → Arguments → Event) (abi abi1 : ABI) (field : Field)
    (err : Option Error)
    (hstep : abi.unmarshalField keccak256 newEvent field = some (abi1, err))
    (hfield : field.Type_ ≠ "constructor") : abi1.Constructor = abi.Constructor := by
  unfold ABI.unmarshalField at hstep
  rw [if_neg hfield] at hstep
  split at hstep
  · split at hstep
    · cases hstep
    · cases hstep
      rfl
  · split at hstep
    · split at hstep <;> cases hstep <;> rfl
    · split at hstep
      · split at hstep
        · cases hstep
          rfl
        · split at hstep <;> cases hstep <;> rfl
      · split at hstep
        · split at hstep
          · cases hstep
          · cases hstep
            rfl
        · cases hstep
          rfl

/-- The ingestion of fields none of which is a constructor field keeps the constructor. -/
theorem unmarshalFields_keeps_constructor (keccak256 : List Byte → Digest)
    (newEvent : String → String → Bool → Arguments → Event) (fields : List Field) :
    ∀ (abi abi1 : ABI) (err : Option Error),
      ABI.unmarshalFields keccak256 newEvent abi fields = some (abi1, err) →
      (∀ f ∈ fields, f.Type_ ≠ "constructor") → abi1.Constructor = abi.Constructor := by
  induction fields with
  | nil =>
    intro abi abi1 err h _
    simp only [ABI.unmarshalFields, Option.some.injEq, Prod.mk.injEq] at h
    rw [← h.1]
  | cons field rest ih =>
    intro abi abi1 err h hno
    obtain ⟨⟨abi2, err2⟩, hstep⟩ := unmarshalField_total keccak256 newEvent abi field
    have hkeep := unmarshalField_keeps_constructor keccak256 newEvent abi abi2 field err2 hstep
      (hno field (List.mem_cons_self _ _))
    cases err2 with
    | some e =>
      simp only [ABI.unmarshalFields, hstep, Option.some.injEq, Prod.mk.injEq] at h
      rw [← h.1, hkeep]
    | none =>
      simp only [ABI.unmarshalFields, hstep] at h
      rw [ih abi2 abi1 err h (fun f hf => hno f (List.mem_cons_of_mem _ hf)), hkeep]

/-! ## The bound of the name loop -/

/-- The digits of a number are not the empty sequence. -/
theorem toDigitsCore_ne_nil (fuel n : Nat) (ds : List Char) :
    Nat.toDigitsCore 10 (fuel + 1) n ds ≠ [] := by
  simp only [Nat.toDigitsCore]
  split
  · simp
  · rw [toDigitsCore_append]
    simp

/-- The decimal form of an index is not the empty string. -/
theorem decimal_ne_empty (i : Nat) : decimal i ≠ "" := by
  intro h
  have h1 : (decimal i).data = [] := by rw [h]
  simp only [decimal, toString, Nat.repr, List.asString, Nat.toDigits] at h1
  exact toDigitsCore_ne_nil i i [] h1

/-- A candidate name `rawName0`, `rawName1`, ... is not the raw name. -/
theorem append_decimal_ne (rawName : String) (i : Nat) : rawName ++ decimal i ≠ rawName := by
  intro h
  have h1 : (rawName ++ decimal i).data = rawName.data := by rw [h]
  simp only [String.data_append] at h1
  have h2 : (decimal i).data = [] := by
    have := congrArg List.length h1
    simp only [List.length_append] at this
    exact List.length_eq_zero.1 (by omega)
  exact decimal_ne_empty i (String.ext h2)

/-- Among the first `n` candidate names, one is not among `n` keys of which the raw name is
one. -/
theorem exists_fresh_index_lt (keys : List String) (rawName : String)
    (hraw : rawName ∈ keys) :
    ∃ i, i < keys.length ∧ rawName ++ decimal i ∉ keys := by
  by_contra hall
  have hall : ∀ i, i < keys.length → rawName ++ decimal i ∈ keys := by
    intro i hi
    by_contra hni
    exact hall ⟨i, hi, hni⟩
  let cand := rawName :: (List.range keys.length).map fun i => rawName ++ decimal i
  have hnodup : cand.Nodup := by
    refine List.nodup_cons.2 ⟨?_, ?_⟩
    · intro hmem
      obtain ⟨i, _, hi⟩ := List.mem_map.1 hmem
      exact append_decimal_ne rawName i hi
    · exact List.Nodup.map (fun i j h => append_decimal_injective rawName i j h)
        (List.nodup_range _)
  have hsub : cand ⊆ keys := by
    intro x hx
    rcases List.mem_cons.1 hx with h | h
    · rw [h]
      exact hraw
    · obtain ⟨i, hi, rfl⟩ := List.mem_map.1 h
      exact hall i (List.mem_range.1 hi)
  have hlen := (List.subperm_of_subset hnodup hsub).length_le
  simp [cand] at hlen

/-- When the raw name is a key of a map of `n` entries, the name loop is left with a
suffix smaller than `n`, after at most `n` passes: `n + 1` tests of the loop condition are
enough, and more fuel gives the same name. -/
theorem overloadedNameLoop_bound {V : Type} (m : GoMap V) (rawName : String)
    (hraw : m.has rawName = true) :
    ∃ i, i < m.entries.length ∧
      m.has (rawName ++ decimal i) = false ∧
      (∀ j, j < i → m.has (rawName ++ decimal j) = true) ∧
      ∀ fuel, i + 2 ≤ fuel →
        overloadedNameLoop m.has rawName fuel rawName (m.has rawName) 0
          = some (rawName ++ decimal i) := by
  have hlen : m.keys.length = m.entries.length := by simp [GoMap.keys]
  have hex : ∃ i, m.has (rawName ++ decimal i) = false := by
    obtain ⟨i, _, hi⟩ := exists_fresh_index_lt m.keys rawName ((GoMap.has_iff m _).1 hraw)
    refine ⟨i, ?_⟩
    cases hh : m.has (rawName ++ decimal i) with
    | false => rfl
    | true => exact absurd ((GoMap.has_iff m _).1 hh) hi
  have hmin : ∀ j, j < Nat.find hex → m.has (rawName ++ decimal j) = true := by
    intro j hj
    have := Nat.find_min hex hj
    simpa using this
  have hlt : Nat.find hex < m.entries.length := by
    obtain ⟨i, hi, hni⟩ := exists_fresh_index_lt m.keys rawName ((GoMap.has_iff m _).1 hraw)
    rw [hlen] at hi
    refine Nat.lt_of_le_of_lt (Nat.find_min' hex ?_) hi
    cases hh : m.has (rawName ++ decimal i) with
    | false => rfl
    | true => exact absurd ((GoMap.has_iff m _).1 hh) hni
  refine ⟨Nat.find hex, hlt, Nat.find_spec hex, hmin, ?_⟩
  intro fuel hfuel
  rw [hraw]
  have := overloadedNameLoop_run m.has rawName (Nat.find hex) 0 fuel rawName
    (fun i _ h2 => hmin i (by omega)) (by simpa using Nat.find_spec hex) hfuel
  simpa using this

/-! ## The keys of the function table -/

/-- The ingestion of one field without error either is that of a function field, which
adds one entry to the function table, under a name that is not a key and is the declared
name or the declared name followed by a decimal number, or leaves the function table as it
is. -/
theorem unmarshalField_functions (keccak256 : List Byte → Digest)
    (newEvent : String → String → Bool → Arguments → Event) (abi abi1 : ABI) (field : Field)
    (hstep : abi.unmarshalField keccak256 newEvent field = some (abi1, none)) :
    (field.Type_ = "function" ∧
      ∃ name, name ∉ abi.MVBGods.keys ∧
        (name = field.Name ∨ ∃ i, name = field.Name ++ decimal i) ∧
        abi1.MVBGods.entries = abi.MVBGods.entries ++
          [(name, NewMVBGod keccak256 name field.Name FunctionType.Function
            field.StateMutability field.Constant field.Payable field.Inputs
            field.Outputs)]) ∨
    (field.Type_ ≠ "function" ∧ abi1.MVBGods = abi.MVBGods) := by
  by_cases hfun : field.Type_ = "function"
  · left
    refine ⟨hfun, ?_⟩
    have hspec := overloadedNameLoop_fuel abi.MVBGods field.Name
    have hname : ∃ name, abi.overloadedMVBGodName field.Name = some name ∧
        abi.MVBGods.has name = false ∧
        (name = field.Name ∨ ∃ i, name = field.Name ++ decimal i) := by
      cases h : abi.MVBGods.has field.Name with
      | false => exact ⟨field.Name, hspec.1 h, h, Or.inl rfl⟩
      | true =>
        obtain ⟨i, _, hi, hout, _⟩ := hspec.2 h
        exact ⟨_, hi, hout, Or.inr ⟨i, rfl⟩⟩
    obtain ⟨name, hn, hhas, hform⟩ := hname
    have hnot : name ∉ abi.MVBGods.keys := by
      intro hmem
      rw [(GoMap.has_iff _ _).2 hmem] at hhas
      exact Bool.noConfusion hhas
    have hst := GoMap.store_fresh abi.MVBGods name
      (NewMVBGod keccak256 name field.Name FunctionType.Function field.StateMutability
        field.Constant field.Payable field.Inputs field.Outputs) hhas
    have hstep1 : abi.unmarshalField keccak256 newEvent field
        = some ({ abi with MVBGods := (abi.MVBGods.store name
            (NewMVBGod keccak256 name field.Name FunctionType.Function field.StateMutability
              field.Constant field.Payable field.Inputs field.Outputs)) }, none) := by
      simp [ABI.unmarshalField, hfun, hn]
    rw [hstep1] at hstep
    simp only [Option.some.injEq, Prod.mk.injEq, and_true] at hstep
    refine ⟨name, hnot, hform, ?_⟩
    rw [← hstep]
    exact hst.1
  · right
    refine ⟨hfun, ?_⟩
    unfold ABI.unmarshalField at hstep
    rw [if_neg hfun] at hstep
    split at hstep
    · cases hstep
      rfl
    · split at hstep
      · split at hstep <;> cases hstep
        rfl
      · split at hstep
        · split at hstep
          · cases hstep
          · split at hstep <;> cases hstep
            rfl
        · split at hstep
          · split at hstep
            · cases hstep
            · cases hstep
              rfl
          · cases hstep

/-- The ingestion of one field without error keeps the key invariant of the function
table. -/
theorem unmarshalField_invariant (keccak256 : List Byte → Digest)
    (newEvent : String → String → Bool → Arguments → Event) (abi abi1 : ABI) (field : Field)
    (done : List Field)
    (hstep : abi.unmarshalField keccak256 newEvent field = some (abi1, none))
    (hinv : functionTableInvariant keccak256 abi done) :
    functionTableInvariant keccak256 abi1 (done ++ [field]) := by
  obtain ⟨hall, hnodup, hlen⟩ := hinv
  rcases unmarshalField_functions keccak256 newEvent abi abi1 field hstep with
    ⟨hfun, name, hnot, hform, hentries⟩ | ⟨hfun, hsame⟩
  · refine ⟨?_, ?_, ?_⟩
    · intro e he
      rw [hentries] at he
      rcases List.mem_append.1 he with h | h
      · obtain ⟨f, hf, hrest⟩ := hall e h
        exact ⟨f, List.mem_append_left _ hf, hrest⟩
      · simp only [List.mem_singleton] at h
        rw [h]
        exact ⟨field, by simp, hfun, rfl, hform⟩
    · have hkeys : abi1.MVBGods.keys = abi.MVBGods.keys ++ [name] := by
        simp [GoMap.keys, hentries]
      rw [hkeys]
      refine List.Nodup.append hnodup (List.nodup_singleton _) ?_
      intro k hk hk1
      simp only [List.mem_singleton] at hk1
      rw [hk1] at hk
      exact hnot hk
    · rw [hentries]
      simp [List.filter_append, hlen, hfun]
  · unfold functionTableInvariant
    rw [hsame]
    refine ⟨?_, hnodup, ?_⟩
    · intro e he
      obtain ⟨f, hf, hrest⟩ := hall e he
      exact ⟨f, List.mem_append_left _ hf, hrest⟩
    · simp [List.filter_append, hlen, hfun]

/-- The ingestion of fields without error keeps the key invariant of the function
table. -/
theorem unmarshalFields_invariant (keccak256 : List Byte → Digest)
    (newEvent : String → String → Bool → Arguments → Event) (fields : List Field) :
    ∀ (abi abi1 : ABI) (done : List Field),
      ABI.unmarshalFields keccak256 newEvent abi fields = some (abi1, none) →
      functionTableInvariant keccak256 abi done →
      functionTableInvariant keccak256 abi1 (done ++ fields) := by
  induction fields with
  | nil =>
    intro abi abi1 done h hinv
    simp only [ABI.unmarshalFields, Option.some.injEq, Prod.mk.injEq, and_true] at h
    rw [← h, List.append_nil]
    exact hinv
  | cons field rest ih =>
    intro abi abi1 done h hinv
    obtain ⟨⟨abi2, err2⟩, hstep⟩ := unmarshalField_total keccak256 newEvent abi field
    cases err2 with
    | some e =>
      simp [ABI.unmarshalFields, hstep] at h
    | none =>
      simp only [ABI.unmarshalFields, hstep] at h
      have h2 := unmarshalField_invariant keccak256 newEvent abi abi2 field done hstep hinv
      have h3 := ih abi2 abi1 (done ++ [field]) h h2
      simpa using h3

/-- In a map with pairwise distinct keys, the value that `lookup` reads under a key is
the value of the entry of that key. -/
theorem GoMap.lookup_of_mem {V : Type} (m : GoMap V) (k : String) (v : V)
    (hnodup : m.keys.Nodup) (hmem : (k, v) ∈ m.entries) : m.lookup k = some v := by
  have hlist : ∀ l : List (String × V), (l.map Prod.fst).Nodup → (k, v) ∈ l →
      List.lookup k l = some v := by
    intro l
    induction l with
    | nil => intro _ h; simp at h
    | cons e rest ih =>
      intro hnd h
      obtain ⟨a, b⟩ := e
      simp only [List.map_cons, List.nodup_cons] at hnd
      rcases List.mem_cons.1 h with h1 | h1
      · simp only [Prod.mk.injEq] at h1
        rw [← h1.1, ← h1.2]
        simp [List.lookup_cons]
      · have hne : ¬ k = a := by
          intro hka
          apply hnd.1
          rw [← hka]
          exact List.mem_map.2 ⟨(k, v), h1, rfl⟩
        have hb : (k == a) = false := by simpa using hne
        simp only [List.lookup_cons, hb]
        exact ih hnd.2 h1
  exact hlist m.entries hnodup hmem

/-! ## Words: reading back -/

/-- The number of a sequence of bytes followed by one byte. -/
theorem natOfBytes_append_singleton (bs : List Byte) (b : Byte) :
    natOfBytes (bs ++ [b]) = natOfBytes bs * 256 + b.toNat := by
  simp [natOfBytes, List.foldl_append]

/-- The big-endian bytes of the low `k` bytes of `n` stand for `n % 256 ^ k`. -/
theorem natOfBytes_digits (k : Nat) : ∀ n : Nat,
    natOfBytes ((List.range k).map fun i => UInt8.ofNat (n / 256 ^ (k - 1 - i) % 256))
      = n % 256 ^ k := by
  induction k with
  | zero => intro n; simp [natOfBytes, Nat.mod_one]
  | succ k ih =>
    intro n
    rw [List.range_succ, List.map_append, List.map_singleton, natOfBytes_append_singleton]
    have hmap : ((List.range k).map fun i => UInt8.ofNat (n / 256 ^ (k + 1 - 1 - i) % 256))
        = ((List.range k).map fun i => UInt8.ofNat (n / 256 / 256 ^ (k - 1 - i) % 256)) := by
      apply List.map_congr_left
      intro i hi
      have hik : i < k := List.mem_range.1 hi
      have hexp : k + 1 - 1 - i = (k - 1 - i) + 1 := by omega
      rw [hexp, pow_succ, Nat.div_div_eq_div_mul, Nat.mul_comm]
    rw [hmap, ih (n / 256)]
    have hlast : (UInt8.ofNat (n / 256 ^ (k + 1 - 1 - k) % 256)).toNat = n % 256 := by
      have h0 : k + 1 - 1 - k = 0 := by omega
      rw [h0, pow_zero, Nat.div_one]
      exact UInt8.toNat_ofNat_of_lt (Nat.mod_lt _ (by decide))
    rw [hlast, pow_succ]
    have h1 := Nat.mod_mul_right_div_self n 256 (256 ^ k)
    have h2 := Nat.div_add_mod (n % (256 * 256 ^ k)) 256
    have h3 : n % (256 * 256 ^ k) % 256 = n % 256 := Nat.mod_mul_right_mod n 256 (256 ^ k)
    rw [Nat.mul_comm (256 ^ k) 256]
    rw [← h1]
    omega

/-- A number below `2 ^ 256` is read back from its 32-byte word. -/
theorem natOfBytes_wordOfNat (n : Nat) (h : n < 2 ^ 256) : natOfBytes (wordOfNat n) = n := by
  have hd := natOfBytes_digits 32 n
  have hpow : (256 : Nat) ^ 32 = 2 ^ 256 := by norm_num
  rw [hpow, Nat.mod_eq_of_lt h] at hd
  exact hd

/-- The 32 bytes at a position of the buffer where a block of 32 bytes begins. -/
theorem take_drop_block (pre w post : List Byte) (hw : w.length = 32) :
    ((pre ++ w ++ post).drop pre.length).take 32 = w := by
  rw [List.append_assoc, List.drop_left, ← hw, List.take_left]

/-- The word read at a position of the buffer where a block of 32 bytes begins. -/
theorem readWord_block (pre w post : List Byte) (hw : w.length = 32) :
    readWord (pre ++ w ++ post) pre.length = .ok (natOfBytes w) := by
  have hle : pre.length + 32 ≤ (pre ++ w ++ post).length := by
    simp only [List.length_append, hw]
    omega
  simp only [readWord, hle, if_true, take_drop_block pre w post hw]

/-- The word read at a position of the buffer where the word of a number below `2 ^ 256`
begins. -/
theorem readWord_wordOfNat (pre post : List Byte) (n : Nat) (h : n < 2 ^ 256) :
    readWord (pre ++ wordOfNat n ++ post) pre.length = .ok n := by
  rw [readWord_block pre _ post (wordOfNat_length n), natOfBytes_wordOfNat n h]

/-! ## The head/tail protocol -/

/-- The output of the head/tail protocol is the heads written so far, the heads of the
encodings that remain, the tail buffer so far and the tails of the encodings that remain;
the remaining heads depend on the length of the tail buffer only. -/
theorem headTailFrom_split (headLen : Nat) (items : List (Bool × List Byte)) :
    ∀ n : Nat, ∃ H T : List Byte,
      H.length = headsLength items ∧
      ((∀ item ∈ items, item.1 = false) → T = []) ∧
      ((∀ item ∈ items, item.2.length % 32 = 0) → T.length % 32 = 0) ∧
      ∀ heads tail : List Byte, tail.length = n →
        headTailFrom headLen items heads tail = heads ++ H ++ (tail ++ T) := by
  induction items with
  | nil =>
    intro n
    exact ⟨[], [], rfl, fun _ => rfl, fun _ => rfl, fun heads tail _ => by
      simp [headTailFrom]⟩
  | cons item rest ih =>
    intro n
    obtain ⟨dynamic, enc⟩ := item
    cases dynamic with
    | false =>
      obtain ⟨H, T, hH, hstatic, hmod, hout⟩ := ih n
      refine ⟨enc ++ H, T, ?_, ?_, ?_, ?_⟩
      · simp [headsLength, hH]
      · intro hall
        exact hstatic fun item hitem => hall item (List.mem_cons_of_mem _ hitem)
      · intro hall
        exact hmod fun item hitem => hall item (List.mem_cons_of_mem _ hitem)
      · intro heads tail htail
        simp only [headTailFrom]
        rw [hout (heads ++ enc) tail htail]
        simp only [List.append_assoc]
    | true =>
      obtain ⟨H, T, hH, _, hmod, hout⟩ := ih (n + enc.length)
      refine ⟨wordOfNat (headLen + n) ++ H, enc ++ T, ?_, ?_, ?_, ?_⟩
      · simp [headsLength, hH, wordOfNat_length]
      · intro hall
        have := hall (true, enc) (List.mem_cons_self _ _)
        simp at this
      · intro hall
        have h1 := hall (true, enc) (List.mem_cons_self _ _)
        have h2 := hmod fun item hitem => hall item (List.mem_cons_of_mem _ hitem)
        simp only [List.length_append] at h1 ⊢
        omega
      · intro heads tail htail
        simp only [headTailFrom]
        rw [hout (heads ++ wordOfNat (headLen + tail.length)) (tail ++ enc)
          (by simp [htail]), htail]
        simp only [List.append_assoc]

/-- The head region of encodings of a multiple of 32 bytes has a multiple of 32 bytes. -/
theorem headsLength_mod (items : List (Bool × List Byte))
    (hall : ∀ item ∈ items, item.2.length % 32 = 0) : headsLength items % 32 = 0 := by
  induction items with
  | nil => rfl
  | cons item rest ih =>
    obtain ⟨dynamic, enc⟩ := item
    have h1 := hall (dynamic, enc) (List.mem_cons_self _ _)
    have h2 := ih fun item hitem => hall item (List.mem_cons_of_mem _ hitem)
    cases dynamic <;> simp only [headsLength] at h1 ⊢ <;> omega

/-- The head/tail encoding of encodings of a multiple of 32 bytes has a multiple of 32
bytes; when all of them are static it has the bytes of the head region. -/
theorem headTail_length (items : List (Bool × List Byte)) :
    ((∀ item ∈ items, item.2.length % 32 = 0) → (headTail items).length % 32 = 0) ∧
    ((∀ item ∈ items, item.1 = false) → (headTail items).length = headsLength items) := by
  obtain ⟨H, T, hH, hstatic, hmod, hout⟩ := headTailFrom_split (headsLength items) items 0
  have hsplit : headTail items = H ++ T := by
    have := hout [] [] rfl
    simpa [headTail] using this
  constructor
  · intro hall
    have h1 := headsLength_mod items hall
    have h2 := hmod hall
    rw [hsplit, List.length_append, hH]
    omega
  · intro hall
    rw [hsplit, hstatic hall, List.append_nil, hH]

/-! ## The fields of a tuple -/

/-- The encodings of a field and of the fields after it, when `encodeFields` succeeds. -/
theorem encodeFields_cons_ok (name : String) (t : Type_) (fs : List (String × Type_))
    (v : Value) (vs : List Value) (items : List (Bool × List Byte))
    (h : encodeFields ((name, t) :: fs) (v :: vs) = .ok items) :
    ∃ enc rest, encode t v = .ok enc ∧ encodeFields fs vs = .ok rest ∧
      items = (t.isDynamic, enc) :: rest := by
  rw [encodeFields] at h
  cases he : encode t v with
  | error err => rw [he] at h; simp at h
  | ok enc =>
    cases hr : encodeFields fs vs with
    | error err => rw [he, hr] at h; simp at h
    | ok rest =>
      rw [he, hr] at h
      simp only [Except.ok.injEq] at h
      exact ⟨enc, rest, rfl, rfl, h.symm⟩

/-- The encodings of the fields of a tuple: as many as values, each of a multiple of 32
bytes; when no field is dynamic, all are static and the head region has the static size of
the fields. -/
theorem encodeFields_items (fs : List (String × Type_)) (hP : ∀ f ∈ fs, RoundTrip f.2) :
    ∀ (vs : List Value) (items : List (Bool × List Byte)), encodeFields fs vs = .ok items →
      (∀ item ∈ items, item.2.length % 32 = 0) ∧
      (Type_.anyDynamic fs = false →
        (∀ item ∈ items, item.1 = false) ∧ headsLength items = staticSizeFields fs) := by
  induction fs with
  | nil =>
    intro vs items h
    cases vs with
    | nil =>
      simp only [encodeFields, Except.ok.injEq] at h
      subst h
      simp [headsLength, staticSizeFields]
    | cons v vs => simp [encodeFields] at h
  | cons f fs ih =>
    intro vs items h
    obtain ⟨name, t⟩ := f
    cases vs with
    | nil => simp [encodeFields] at h
    | cons v vs =>
      obtain ⟨enc, rest, he, hr, hitems⟩ := encodeFields_cons_ok name t fs v vs items h
      obtain ⟨hmod, _, hstatic, _⟩ := hP (name, t) (List.mem_cons_self _ _) v enc he
      obtain ⟨ihmod, ihstatic⟩ :=
        ih (fun f hf => hP f (List.mem_cons_of_mem _ hf)) vs rest hr
      subst hitems
      constructor
      · intro item hitem
        rcases List.mem_cons.1 hitem with h1 | h1
        · rw [h1]; exact hmod
        · exact ihmod item h1
      · intro hdyn
        simp only [Type_.anyDynamic, Bool.or_eq_false_iff] at hdyn
        obtain ⟨hall, hlen⟩ := ihstatic hdyn.2
        constructor
        · intro item hitem
          rcases List.mem_cons.1 hitem with h1 | h1
          · rw [h1]; exact hdyn.1
          · exact hall item h1
        · rw [hdyn.1]
          simp only [headsLength, staticSizeFields, hlen, hstatic hdyn.1]

/-- The fields of a tuple are read back from the output of the head/tail protocol, in
every buffer of less than `2 ^ 256` bytes that holds it: the heads of the fields that
remain begin after the heads written so far, and an offset is counted from the start of
the region. -/
theorem decodeFields_headTailFrom (fs : List (String × Type_))
    (hP : ∀ f ∈ fs, RoundTrip f.2) :
    ∀ (vs : List Value) (items : List (Bool × List Byte)), encodeFields fs vs = .ok items →
      ∀ (headLen : Nat) (heads tail pre post : List Byte),
        headLen = heads.length + headsLength items →
        (pre ++ headTailFrom headLen items heads tail ++ post).length < 2 ^ 256 →
        decodeFields fs (pre ++ headTailFrom headLen items heads tail ++ post) pre.length
          (pre.length + heads.length) = .ok vs := by
  induction fs with
  | nil =>
    intro vs items h
    cases vs with
    | nil => intros; simp [decodeFields]
    | cons v vs => simp [encodeFields] at h
  | cons f fs ih =>
    intro vs items h headLen heads tail pre post hhead hlt
    obtain ⟨name, t⟩ := f
    cases vs with
    | nil => simp [encodeFields] at h
    | cons v vs =>
      obtain ⟨enc, rest, he, hr, hitems⟩ := encodeFields_cons_ok name t fs v vs items h
      have hPt : RoundTrip t := hP (name, t) (List.mem_cons_self _ _)
      obtain ⟨_, _, hstatic, hdec⟩ := hPt v enc he
      have ih1 := ih (fun f hf => hP f (List.mem_cons_of_mem _ hf)) vs rest hr
      subst hitems
      cases hdyn : t.isDynamic with
      | false =>
        rw [hdyn] at hlt hhead
        have hstep : headTailFrom headLen ((false, enc) :: rest) heads tail
            = headTailFrom headLen rest (heads ++ enc) tail := rfl
        rw [hstep] at hlt ⊢
        have hrest := ih1 headLen (heads ++ enc) tail pre post
          (by simp only [headsLength, List.length_append] at hhead ⊢; omega) hlt
        obtain ⟨H, T, _, _, _, hout⟩ := headTailFrom_split headLen rest tail.length
        have hE : pre ++ headTailFrom headLen rest (heads ++ enc) tail ++ post
            = (pre ++ heads) ++ enc ++ (H ++ (tail ++ T) ++ post) := by
          rw [hout (heads ++ enc) tail rfl]
          simp only [List.append_assoc]
        have hel : decode t (pre ++ headTailFrom headLen rest (heads ++ enc) tail ++ post)
            (pre.length + heads.length) = .ok v := by
          have := hdec (pre ++ heads) (H ++ (tail ++ T) ++ post) (by rw [← hE]; exact hlt)
          rw [← hE, List.length_append] at this
          exact this
        have hsize : headSize t = enc.length := by
          simp only [headSize, hdyn, hstatic hdyn]
          rfl
        have hde : decodeElement (decode t) false
            (pre ++ headTailFrom headLen rest (heads ++ enc) tail ++ post) pre.length
            (pre.length + heads.length) = .ok v := by
          unfold decodeElement
          rw [if_neg Bool.false_ne_true]
          exact hel
        have hpos : pre.length + heads.length + enc.length
            = pre.length + (heads ++ enc).length := by
          simp only [List.length_append]; omega
        rw [decodeFields, hdyn, hde, hsize, hpos, hrest]
      | true =>
        rw [hdyn] at hlt hhead
        have hstep : headTailFrom headLen ((true, enc) :: rest) heads tail
            = headTailFrom headLen rest (heads ++ wordOfNat (headLen + tail.length))
                (tail ++ enc) := rfl
        rw [hstep] at hlt ⊢
        have hrest := ih1 headLen (heads ++ wordOfNat (headLen + tail.length)) (tail ++ enc)
          pre post
          (by simp only [headsLength, List.length_append, wordOfNat_length] at hhead ⊢; omega)
          hlt
        obtain ⟨H, T, hH, _, _, hout⟩ :=
          headTailFrom_split headLen rest (tail ++ enc).length
        have hE1 : pre ++ headTailFrom headLen rest
              (heads ++ wordOfNat (headLen + tail.length)) (tail ++ enc) ++ post
            = (pre ++ heads) ++ wordOfNat (headLen + tail.length)
                ++ (H ++ (tail ++ enc ++ T) ++ post) := by
          rw [hout _ (tail ++ enc) rfl]
          simp only [List.append_assoc]
        have hE2 : pre ++ headTailFrom headLen rest
              (heads ++ wordOfNat (headLen + tail.length)) (tail ++ enc) ++ post
            = (pre ++ heads ++ wordOfNat (headLen + tail.length) ++ H ++ tail) ++ enc
                ++ (T ++ post) := by
          rw [hout _ (tail ++ enc) rfl]
          simp only [List.append_assoc]
        have hlen2 : (pre ++ heads ++ wordOfNat (headLen + tail.length) ++ H ++ tail).length
            = pre.length + (headLen + tail.length) := by
          simp only [headsLength] at hhead
          simp only [List.length_append, wordOfNat_length, hH]
          omega
        have hbound : pre.length + (headLen + tail.length)
            ≤ (pre ++ headTailFrom headLen rest
                (heads ++ wordOfNat (headLen + tail.length)) (tail ++ enc) ++ post).length := by
          rw [hE2, List.length_append, List.length_append, hlen2]
          omega
        have hword : readWord (pre ++ headTailFrom headLen rest
              (heads ++ wordOfNat (headLen + tail.length)) (tail ++ enc) ++ post)
            (pre.length + heads.length) = .ok (headLen + tail.length) := by
          have := readWord_wordOfNat (pre ++ heads) (H ++ (tail ++ enc ++ T) ++ post)
            (headLen + tail.length) (by omega)
          rw [← hE1, List.length_append] at this
          exact this
        have hel : decode t (pre ++ headTailFrom headLen rest
              (heads ++ wordOfNat (headLen + tail.length)) (tail ++ enc) ++ post)
            (pre.length + (headLen + tail.length)) = .ok v := by
          have := hdec (pre ++ heads ++ wordOfNat (headLen + tail.length) ++ H ++ tail)
            (T ++ post) (by rw [← hE2]; exact hlt)
          rw [← hE2, hlen2] at this
          exact this
        have hsize : headSize t = 32 := by simp [headSize, hdyn]
        have hde : decodeElement (decode t) true
            (pre ++ headTailFrom headLen rest
              (heads ++ wordOfNat (headLen + tail.length)) (tail ++ enc) ++ post) pre.length
            (pre.length + heads.length) = .ok v := by
          unfold decodeElement
          rw [if_pos rfl, hword]
          simp only
          rw [if_pos hbound, hel]
        have hpos : pre.length + heads.length + 32
            = pre.length + (heads ++ wordOfNat (headLen + tail.length)).length := by
          simp only [List.length_append, wordOfNat_length]; omega
        rw [decodeFields, hdyn, hde, hsize, hpos, hrest]

/-! ## Arrays and argument lists as sequences of fields -/

/-- The encodings of the elements of an array are the encodings of as many fields of the
type of the elements. -/
theorem mapM_encode_eq_encodeFields (e : Type_) : ∀ vs : List Value,
    (vs.mapM fun v => (encode e v).map fun enc => (e.isDynamic, enc))
      = encodeFields (List.replicate vs.length ("", e)) vs := by
  intro vs
  induction vs with
  | nil => rfl
  | cons v vs ih =>
    rw [List.mapM_cons, ih, List.length_cons, List.replicate_succ, encodeFields]
    cases encode e v <;> cases encodeFields (List.replicate vs.length ("", e)) vs <;> rfl

/-- The monadic map over a mapped list. -/
theorem mapM_map_except {α β γ : Type} (f : α → β) (g : β → Except Error γ) :
    ∀ l : List α, (l.map f).mapM g = l.mapM fun a => g (f a) := by
  intro l
  induction l with
  | nil => rfl
  | cons a l ih => rw [List.map_cons, List.mapM_cons, List.mapM_cons, ih]

/-- The decoding of the elements of an array is the decoding of as many fields of the
type of the elements. -/
theorem mapM_decode_eq_decodeFields (e : Type_) (buf : List Byte) (start : Nat) :
    ∀ n headPos : Nat,
      ((List.range n).mapM fun i =>
          decodeElement (decode e) e.isDynamic buf start (headPos + i * headSize e))
        = decodeFields (List.replicate n ("", e)) buf start headPos := by
  intro n
  induction n with
  | zero => intro headPos; rfl
  | succ n ih =>
    intro headPos
    rw [List.range_succ_eq_map, List.mapM_cons, mapM_map_except, List.replicate_succ,
      decodeFields]
    have hfun : (fun i => decodeElement (decode e) e.isDynamic buf start
          (headPos + Nat.succ i * headSize e))
        = fun i => decodeElement (decode e) e.isDynamic buf start
          (headPos + headSize e + i * headSize e) := by
      funext i
      rw [Nat.succ_mul]
      congr 1
      omega
    rw [hfun, ih (headPos + headSize e), Nat.zero_mul, Nat.add_zero]
    cases decodeElement (decode e) e.isDynamic buf start headPos <;>
      cases decodeFields (List.replicate n ("", e)) buf start (headPos + headSize e) <;> rfl

/-- The encodings of the values of an argument list are the encodings of the fields that
the arguments name. -/
theorem packItems_eq_encodeFields : ∀ (arguments : List Argument) (vs : List Value),
    packItems arguments vs = encodeFields (arguments.map fun a => (a.Name, a.Type_)) vs := by
  intro arguments
  induction arguments with
  | nil => intro vs; cases vs <;> rfl
  | cons a rest ih =>
    intro vs
    cases vs with
    | nil => rfl
    | cons v vs => rw [packItems, List.map_cons, encodeFields, ih vs]

/-- The decoding of the arguments of a list is the decoding of the fields that the
arguments name, in a region that starts with the data. -/
theorem unpackItems_eq_decodeFields (buf : List Byte) :
    ∀ (arguments : List Argument) (headPos : Nat),
      unpackItems arguments buf headPos
        = decodeFields (arguments.map fun a => (a.Name, a.Type_)) buf 0 headPos := by
  intro arguments
  induction arguments with
  | nil => intro headPos; rfl
  | cons a rest ih =>
    intro headPos
    rw [unpackItems, List.map_cons, decodeFields, ih]

/-- The static size of as many fields of one type. -/
theorem staticSizeFields_replicate (e : Type_) (n : Nat) :
    staticSizeFields (List.replicate n ("", e)) = n * staticSize e := by
  induction n with
  | zero => simp [staticSizeFields]
  | succ n ih => rw [List.replicate_succ, staticSizeFields, ih, Nat.succ_mul, Nat.add_comm]

/-- Fields of one type are dynamic when there is one and the type is. -/
theorem anyDynamic_replicate (e : Type_) (n : Nat) (h : e.isDynamic = false) :
    Type_.anyDynamic (List.replicate n ("", e)) = false := by
  induction n with
  | zero => rfl
  | succ n ih => rw [List.replicate_succ, Type_.anyDynamic, h, ih]; rfl

/-! ## The round trip of the elementary types -/

/-- The round trip of an unsigned integer of at most 256 bits. -/
theorem roundTrip_uint (bits : Nat) (hbits : bits ≤ 256) : RoundTrip (Type_.uint bits) := by
  intro v enc h
  cases v with
  | uint n =>
    simp only [encode] at h
    split at h
    · rename_i hn
      simp only [Except.ok.injEq] at h
      subst h
      have hn256 : n < 2 ^ 256 :=
        Nat.lt_of_lt_of_le hn (Nat.pow_le_pow_right (by decide) hbits)
      refine ⟨by simp [wordOfNat_length], by simp [wordOfNat_length], ?_, ?_⟩
      · intro _
        simp [wordOfNat_length, staticSize]
      · intro pre post _
        simp only [decode, readWord_wordOfNat pre post n hn256]
        rfl
    · simp at h
  | _ => simp [encode] at h

/-- The two-complement form of an integer `i` with `-P ≤ i < P`, and the reading back. -/
theorem twos_complement (P i : Int) (hlo : -P ≤ i) (hhi : i < P) :
    0 ≤ i % (2 * P) ∧ i % (2 * P) < 2 * P ∧
    (if i % (2 * P) < P then i % (2 * P) else i % (2 * P) - 2 * P) = i := by
  have hP : 0 < P := by omega
  by_cases hneg : 0 ≤ i
  · have hval : i % (2 * P) = i := Int.emod_eq_of_lt hneg (by omega)
    rw [hval, if_pos hhi]
    omega
  · have hval : i % (2 * P) = i + 2 * P := by
      rw [← Int.add_emod_self]
      exact Int.emod_eq_of_lt (by omega) (by omega)
    rw [hval, if_neg (by omega)]
    omega

/-- The round trip of a signed integer of at most 256 bits, in two-complement form. -/
theorem roundTrip_int (bits : Nat) (hbits : bits ≤ 256) : RoundTrip (Type_.int bits) := by
  intro v enc h
  cases v with
  | int i =>
    simp only [encode] at h
    split at h
    · rename_i hi
      simp only [Except.ok.injEq] at h
      subst h
      have hpow : (2 : Int) ^ (bits - 1) ≤ 2 ^ 255 :=
        pow_le_pow_right₀ (by norm_num) (by omega)
      have h256 : (2 : Int) ^ 256 = 2 * 2 ^ 255 := by norm_num
      have hnat : (((2 : Nat) ^ 255 : Nat) : Int) = (2 : Int) ^ 255 := by norm_cast
      have hnat256 : (((2 : Nat) ^ 256 : Nat) : Int) = 2 * (2 : Int) ^ 255 := by
        rw [← h256]; norm_cast
      have hlo : -(2 : Int) ^ 255 ≤ i := le_trans (neg_le_neg hpow) hi.1
      have hhi : i < (2 : Int) ^ 255 := lt_of_lt_of_le hi.2 hpow
      obtain ⟨hmod0, hmodlt, hback⟩ := twos_complement ((2 : Int) ^ 255) i hlo hhi
      rw [h256]
      have hm : (i % (2 * (2 : Int) ^ 255)).toNat < 2 ^ 256 := by
        rw [Int.toNat_lt hmod0, hnat256]
        exact hmodlt
      refine ⟨by simp [wordOfNat_length], by simp [wordOfNat_length], ?_, ?_⟩
      · intro _
        simp [wordOfNat_length, staticSize]
      · intro pre post _
        rw [decode, readWord_wordOfNat pre post _ hm]
        simp only [Except.map, bind, Except.bind, pure, Except.pure]
        rw [h256, Int.toNat_of_nonneg hmod0, hback]
    · simp at h
  | _ => simp [encode] at h

/-- The round trip of a boolean. -/
theorem roundTrip_bool : RoundTrip Type_.bool := by
  intro v enc h
  cases v with
  | bool b =>
    simp only [encode, Except.ok.injEq] at h
    subst h
    refine ⟨by simp [wordOfNat_length], by simp [wordOfNat_length], ?_, ?_⟩
    · intro _
      simp [wordOfNat_length, staticSize]
    · intro pre post _
      cases b with
      | false =>
        simp only [decode, Bool.false_eq_true, if_false,
          readWord_wordOfNat pre post 0 (by norm_num)]
      | true =>
        simp only [decode, if_true, readWord_wordOfNat pre post 1 (by norm_num)]
  | _ => simp [encode] at h

/-- The round trip of an address. -/
theorem roundTrip_address : RoundTrip Type_.address := by
  intro v enc h
  cases v with
  | address bs =>
    simp only [encode] at h
    split at h
    · rename_i hlen
      simp only [Except.ok.injEq] at h
      subst h
      have hw : (List.replicate 12 (0 : Byte) ++ bs).length = 32 := by simp [hlen]
      refine ⟨by rw [hw], by rw [hw], ?_, ?_⟩
      · intro _
        rw [hw]; rfl
      · intro pre post _
        simp only [decode, readWord_block pre _ post hw, take_drop_block pre _ post hw]
        have hdrop : (List.replicate 12 (0 : Byte) ++ bs).drop 12 = bs :=
          List.drop_left' (by simp)
        rw [hdrop]
        rfl
    · simp at h
  | _ => simp [encode] at h

/-- The round trip of fixed bytes. -/
theorem roundTrip_fixedBytes (n : Nat) : RoundTrip (Type_.fixedBytes n) := by
  intro v enc h
  cases v with
  | fixedBytes bs =>
    simp only [encode] at h
    split at h
    · rename_i hlen
      simp only [Except.ok.injEq] at h
      subst h
      have hw : (bs ++ List.replicate (32 - n) (0 : Byte)).length = 32 := by
        simp only [List.length_append, List.length_replicate]
        omega
      refine ⟨by rw [hw], by rw [hw], ?_, ?_⟩
      · intro _
        rw [hw]; rfl
      · intro pre post _
        simp only [decode, readWord_block pre _ post hw, take_drop_block pre _ post hw]
        have htake : (bs ++ List.replicate (32 - n) (0 : Byte)).take n = bs :=
          List.take_left' hlen.1
        rw [htake]
        rfl
    · simp at h
  | _ => simp [encode] at h

/-- The round trip of a function selector. -/
theorem roundTrip_function : RoundTrip Type_.function := by
  intro v enc h
  cases v with
  | function bs =>
    simp only [encode] at h
    split at h
    · rename_i hlen
      simp only [Except.ok.injEq] at h
      subst h
      have hw : (bs ++ List.replicate 8 (0 : Byte)).length = 32 := by
        simp only [List.length_append, List.length_replicate]
        omega
      refine ⟨by rw [hw], by rw [hw], ?_, ?_⟩
      · intro _
        rw [hw]; rfl
      · intro pre post _
        simp only [decode, readWord_block pre _ post hw, take_drop_block pre _ post hw]
        have htake : (bs ++ List.replicate 8 (0 : Byte)).take 24 = bs :=
          List.take_left' hlen
        rw [htake]
        rfl
    · simp at h
  | _ => simp [encode] at h

/-- The bytes of a length word followed by padded content are read back, when there are
less than `2 ^ 256` of them. -/
theorem decode_content (bs pre post : List Byte) (hbs : bs.length < 2 ^ 256) :
    readWord (pre ++ (wordOfNat bs.length ++ padRight bs) ++ post) pre.length
      = .ok bs.length ∧
    pre.length + 32 + bs.length
      ≤ (pre ++ (wordOfNat bs.length ++ padRight bs) ++ post).length ∧
    ((pre ++ (wordOfNat bs.length ++ padRight bs) ++ post).drop (pre.length + 32)).take
      bs.length = bs := by
  have hlen : (pre ++ (wordOfNat bs.length ++ padRight bs) ++ post).length
      = pre.length + 32 + (padRight bs).length + post.length := by
    simp only [List.length_append, wordOfNat_length]
    omega
  have hpad : bs.length ≤ (padRight bs).length := by
    simp [padRight]
  refine ⟨?_, by omega, ?_⟩
  · have hE : pre ++ (wordOfNat bs.length ++ padRight bs) ++ post
        = pre ++ wordOfNat bs.length ++ (padRight bs ++ post) := by
      simp only [List.append_assoc]
    rw [hE]
    exact readWord_wordOfNat pre _ bs.length hbs
  · have hE : pre ++ (wordOfNat bs.length ++ padRight bs) ++ post
        = (pre ++ wordOfNat bs.length) ++ (bs ++
            (List.replicate ((32 - bs.length % 32) % 32) 0 ++ post)) := by
      simp only [padRight, List.append_assoc]
    rw [hE, List.drop_left' (by simp [wordOfNat_length]), List.take_left]

/-- The content of `bytes` or `string` is shorter than a buffer that holds its encoding. -/
theorem content_length_lt (bs pre post : List Byte)
    (hlt : (pre ++ (wordOfNat bs.length ++ padRight bs) ++ post).length < 2 ^ 256) :
    bs.length < 2 ^ 256 := by
  have hpad : bs.length ≤ (padRight bs).length := by
    simp [padRight]
  simp only [List.length_append, wordOfNat_length] at hlt
  omega

/-- The round trip of `bytes`. -/
theorem roundTrip_bytes : RoundTrip Type_.bytes := by
  intro v enc h
  cases v with
  | bytes bs =>
    simp only [encode, Except.ok.injEq] at h
    subst h
    have hpad := padRight_length bs
    refine ⟨?_, ?_, ?_, ?_⟩
    · simp only [List.length_append, wordOfNat_length]; omega
    · simp only [List.length_append, wordOfNat_length]; omega
    · intro hdyn
      simp [Type_.isDynamic] at hdyn
    · intro pre post hlt
      obtain ⟨hword, hbound, htake⟩ :=
        decode_content bs pre post (content_length_lt bs pre post hlt)
      simp only [decode, hword]
      rw [if_pos hbound, htake]
  | _ => simp [encode] at h

/-- The round trip of `string`. -/
theorem roundTrip_string : RoundTrip Type_.string := by
  intro v enc h
  cases v with
  | string bs =>
    simp only [encode, Except.ok.injEq] at h
    subst h
    have hpad := padRight_length bs
    refine ⟨?_, ?_, ?_, ?_⟩
    · simp only [List.length_append, wordOfNat_length]; omega
    · simp only [List.length_append, wordOfNat_length]; omega
    · intro hdyn
      simp [Type_.isDynamic] at hdyn
    · intro pre post hlt
      obtain ⟨hword, hbound, htake⟩ :=
        decode_content bs pre post (content_length_lt bs pre post hlt)
      simp only [decode, hword]
      rw [if_pos hbound, htake]
  | _ => simp [encode] at h

/-! ## The round trip of the composite types -/

/-- The head region of encodings of at least 32 bytes has at least 32 bytes for each. -/
theorem headsLength_ge (items : List (Bool × List Byte))
    (hall : ∀ item ∈ items, 32 ≤ item.2.length) : 32 * items.length ≤ headsLength items := by
  induction items with
  | nil => simp [headsLength]
  | cons item rest ih =>
    obtain ⟨dynamic, enc⟩ := item
    have h1 := hall (dynamic, enc) (List.mem_cons_self _ _)
    have h2 := ih fun item hitem => hall item (List.mem_cons_of_mem _ hitem)
    cases dynamic <;> simp only [headsLength, List.length_cons] at h1 ⊢ <;> omega

/-- The head/tail encoding holds the head region. -/
theorem headsLength_le_headTail (items : List (Bool × List Byte)) :
    headsLength items ≤ (headTail items).length := by
  obtain ⟨H, T, hH, _, _, hout⟩ := headTailFrom_split (headsLength items) items 0
  have hsplit : headTail items = H ++ T := by
    have := hout [] [] rfl
    simpa [headTail] using this
  rw [hsplit, List.length_append, hH]
  omega

/-- The encodings of the fields of a tuple have at least 32 bytes each, and there are as
many as fields. -/
theorem encodeFields_lengths (fs : List (String × Type_)) (hP : ∀ f ∈ fs, RoundTrip f.2) :
    ∀ (vs : List Value) (items : List (Bool × List Byte)), encodeFields fs vs = .ok items →
      (∀ item ∈ items, 32 ≤ item.2.length) ∧ items.length = fs.length ∧
      vs.length = fs.length := by
  induction fs with
  | nil =>
    intro vs items h
    cases vs with
    | nil =>
      simp only [encodeFields, Except.ok.injEq] at h
      subst h
      simp
    | cons v vs => simp [encodeFields] at h
  | cons f fs ih =>
    intro vs items h
    obtain ⟨name, t⟩ := f
    cases vs with
    | nil => simp [encodeFields] at h
    | cons v vs =>
      obtain ⟨enc, rest, he, hr, hitems⟩ := encodeFields_cons_ok name t fs v vs items h
      have hPt : RoundTrip t := hP (name, t) (List.mem_cons_self _ _)
      obtain ⟨_, hge, _, _⟩ := hPt v enc he
      obtain ⟨ihge, ihlen, ihvs⟩ :=
        ih (fun f hf => hP f (List.mem_cons_of_mem _ hf)) vs rest hr
      subst hitems
      refine ⟨?_, by simp [ihlen], by simp [ihvs]⟩
      intro item hitem
      rcases List.mem_cons.1 hitem with h1 | h1
      · rw [h1]; exact hge
      · exact ihge item h1

/-- The head region of the encodings of the elements of an array has the head size of the
element type for each element. -/
theorem encodeFields_replicate_heads (e : Type_) (hP : RoundTrip e) :
    ∀ (vs : List Value) (items : List (Bool × List Byte)),
      encodeFields (List.replicate vs.length ("", e)) vs = .ok items →
      headsLength items = vs.length * headSize e := by
  intro vs
  induction vs with
  | nil =>
    intro items h
    simp only [List.length_nil, List.replicate_zero, encodeFields, Except.ok.injEq] at h
    subst h
    simp [headsLength]
  | cons v vs ih =>
    intro items h
    rw [List.length_cons, List.replicate_succ] at h
    obtain ⟨enc, rest, he, hr, hitems⟩ := encodeFields_cons_ok "" e _ v vs items h
    obtain ⟨_, _, hstatic, _⟩ := hP v enc he
    have hrest := ih rest hr
    subst hitems
    cases hdyn : e.isDynamic with
    | false =>
      simp only [headsLength, hrest, headSize, hdyn, hstatic hdyn, List.length_cons,
        Bool.false_eq_true, if_false]
      rw [Nat.succ_mul]
      omega
    | true =>
      simp only [headsLength, hrest, headSize, hdyn, List.length_cons, if_true]
      rw [Nat.succ_mul]
      omega

/-- The round trip of a sequence of fields whose types have the round trip: the head/tail
encoding of the fields has a multiple of 32 bytes, the static size of the fields when none
is dynamic, and the fields are read back from every buffer of less than `2 ^ 256` bytes
that holds it. -/
theorem roundTrip_fields (fs : List (String × Type_)) (hP : ∀ f ∈ fs, RoundTrip f.2)
    (vs : List Value) (items : List (Bool × List Byte))
    (h : encodeFields fs vs = .ok items) :
    (headTail items).length % 32 = 0 ∧
    32 * fs.length ≤ (headTail items).length ∧
    (Type_.anyDynamic fs = false → (headTail items).length = staticSizeFields fs) ∧
    ∀ pre post : List Byte, (pre ++ headTail items ++ post).length < 2 ^ 256 →
      decodeFields fs (pre ++ headTail items ++ post) pre.length pre.length = .ok vs := by
  obtain ⟨hmod, hstatic⟩ := encodeFields_items fs hP vs items h
  obtain ⟨hge, hlen, _⟩ := encodeFields_lengths fs hP vs items h
  refine ⟨(headTail_length items).1 hmod, ?_, ?_, ?_⟩
  · have h1 := headsLength_ge items hge
    have h2 := headsLength_le_headTail items
    rw [hlen] at h1
    omega
  · intro hdyn
    obtain ⟨hall, hsize⟩ := hstatic hdyn
    rw [(headTail_length items).2 hall, hsize]
  · intro pre post hlt
    have := decodeFields_headTailFrom fs hP vs items h (headsLength items) [] [] pre post
      (by simp) hlt
    simpa using this

/-- The round trip of a tuple with at least one field, all of whose field types have the
round trip. -/
theorem roundTrip_tuple (fs : List (String × Type_)) (hne : fs ≠ [])
    (hP : ∀ f ∈ fs, RoundTrip f.2) : RoundTrip (Type_.tuple fs) := by
  intro v enc h
  cases v with
  | tuple vs =>
    simp only [encode] at h
    cases hitems : encodeFields fs vs with
    | error err => rw [hitems] at h; simp at h
    | ok items =>
      rw [hitems] at h
      simp only [Except.ok.injEq] at h
      subst h
      obtain ⟨hmod, hge, hstatic, hdec⟩ := roundTrip_fields fs hP vs items hitems
      have hpos : 0 < fs.length := List.length_pos.2 hne
      refine ⟨hmod, by omega, ?_, ?_⟩
      · intro hdyn
        simp only [Type_.isDynamic] at hdyn
        rw [hstatic hdyn]
        simp [staticSize]
      · intro pre post hlt
        simp only [decode, hdec pre post hlt]
  | _ => simp [encode] at h

/-- The round trip of a fixed array with at least one element, whose element type has the
round trip. -/
theorem roundTrip_array (n : Nat) (e : Type_) (hn : 1 ≤ n) (hP : RoundTrip e) :
    RoundTrip (Type_.array n e) := by
  intro v enc h
  cases v with
  | array vs =>
    simp only [encode] at h
    split at h
    · rename_i hlen
      rw [mapM_encode_eq_encodeFields] at h
      cases hitems : encodeFields (List.replicate vs.length ("", e)) vs with
      | error err => rw [hitems] at h; simp at h
      | ok items =>
        rw [hitems] at h
        simp only [Except.ok.injEq] at h
        subst h
        have hPs : ∀ f ∈ List.replicate vs.length ("", e), RoundTrip f.2 := by
          intro f hf
          rw [List.eq_of_mem_replicate hf]
          exact hP
        obtain ⟨hmod, hge, hstatic, hdec⟩ := roundTrip_fields _ hPs vs items hitems
        rw [List.length_replicate] at hge
        refine ⟨hmod, by omega, ?_, ?_⟩
        · intro hdyn
          simp only [Type_.isDynamic] at hdyn
          rw [hstatic (anyDynamic_replicate e _ hdyn), staticSizeFields_replicate, hlen]
          simp [staticSize]
        · intro pre post hlt
          have := hdec pre post hlt
          rw [hlen] at this
          simp only [decode, mapM_decode_eq_decodeFields, this]
    · simp at h
  | _ => simp [encode] at h

/-- The round trip of a dynamic array whose element type has the round trip. -/
theorem roundTrip_slice (e : Type_) (hP : RoundTrip e) : RoundTrip (Type_.slice e) := by
  intro v enc h
  cases v with
  | slice vs =>
    simp only [encode] at h
    rw [mapM_encode_eq_encodeFields] at h
    cases hitems : encodeFields (List.replicate vs.length ("", e)) vs with
    | error err => rw [hitems] at h; simp at h
    | ok items =>
      rw [hitems] at h
      simp only [Except.ok.injEq] at h
      subst h
      have hPs : ∀ f ∈ List.replicate vs.length ("", e), RoundTrip f.2 := by
        intro f hf
        rw [List.eq_of_mem_replicate hf]
        exact hP
      obtain ⟨hmod, hge, _, hdec⟩ := roundTrip_fields _ hPs vs items hitems
      rw [List.length_replicate] at hge
      have hheads := encodeFields_replicate_heads e hP vs items hitems
      have hle := headsLength_le_headTail items
      refine ⟨?_, ?_, ?_, ?_⟩
      · simp only [List.length_append, wordOfNat_length]; omega
      · simp only [List.length_append, wordOfNat_length]; omega
      · intro hdyn
        simp [Type_.isDynamic] at hdyn
      · intro pre post hlt
        have hbuf : (pre ++ (wordOfNat vs.length ++ headTail items) ++ post).length
            = pre.length + 32 + (headTail items).length + post.length := by
          simp only [List.length_append, wordOfNat_length]
          omega
        have hE1 : pre ++ (wordOfNat vs.length ++ headTail items) ++ post
            = pre ++ wordOfNat vs.length ++ (headTail items ++ post) := by
          simp only [List.append_assoc]
        have hE2 : pre ++ (wordOfNat vs.length ++ headTail items) ++ post
            = (pre ++ wordOfNat vs.length) ++ headTail items ++ post := by
          simp only [List.append_assoc]
        have hword : readWord (pre ++ (wordOfNat vs.length ++ headTail items) ++ post)
            pre.length = .ok vs.length := by
          rw [hE1]
          exact readWord_wordOfNat pre _ vs.length (by omega)
        have hbound : pre.length + 32 + vs.length * headSize e
            ≤ (pre ++ (wordOfNat vs.length ++ headTail items) ++ post).length := by
          rw [hbuf, ← hheads]
          omega
        have hfields : decodeFields (List.replicate vs.length ("", e))
            (pre ++ (wordOfNat vs.length ++ headTail items) ++ post)
            (pre.length + 32) (pre.length + 32) = .ok vs := by
          have := hdec (pre ++ wordOfNat vs.length) post (by rw [← hE2]; exact hlt)
          rw [← hE2, List.length_append, wordOfNat_length] at this
          exact this
        simp only [decode, hword]
        rw [if_pos hbound, mapM_decode_eq_decodeFields, hfields]
  | _ => simp [encode] at h

/-! ## The round trip of every supported type -/

mutual
/-- Every supported type has the round trip. -/
theorem roundTrip_of_supported : ∀ t : Type_, t.supported = true → RoundTrip t
  | .uint bits, h => by
    simp only [Type_.supported, decide_eq_true_eq] at h
    exact roundTrip_uint bits h.2.2
  | .int bits, h => by
    simp only [Type_.supported, decide_eq_true_eq] at h
    exact roundTrip_int bits h.2.2
  | .bool, _ => roundTrip_bool
  | .address, _ => roundTrip_address
  | .fixedBytes n, _ => roundTrip_fixedBytes n
  | .bytes, _ => roundTrip_bytes
  | .string, _ => roundTrip_string
  | .function, _ => roundTrip_function
  | .array n e, h => by
    simp only [Type_.supported, Bool.and_eq_true, decide_eq_true_eq] at h
    exact roundTrip_array n e h.1 (roundTrip_of_supported e h.2)
  | .slice e, h => by
    simp only [Type_.supported] at h
    exact roundTrip_slice e (roundTrip_of_supported e h)
  | .tuple fs, h => by
    simp only [Type_.supported, Bool.and_eq_true, Bool.not_eq_true', List.isEmpty_eq_false]
      at h
    exact roundTrip_tuple fs h.1 (roundTrip_of_allSupported fs h.2)
/-- The field types of a tuple of supported field types have the round trip. -/
theorem roundTrip_of_allSupported :
    ∀ fs : List (String × Type_), Type_.allSupported fs = true → ∀ f ∈ fs, RoundTrip f.2
  | [], _ => by
    intro f hf
    simp at hf
  | (name, t) :: fs, h => by
    simp only [Type_.allSupported, Bool.and_eq_true] at h
    intro f hf
    rcases List.mem_cons.1 hf with h1 | h1
    · rw [h1]
      exact roundTrip_of_supported t h.1
    · exact roundTrip_of_allSupported fs h.2 f h1
end

/-- The round trip of an argument list of supported types: when `Pack` accepts the values
and returns less than `2 ^ 256` bytes, `Unpack` reads the values back from these bytes. -/
theorem Unpack_Pack_of_supported (arguments : Arguments) (vs : List Value)
    (packed : Slice Byte)
    (hsup : ∀ a ∈ arguments.toList, a.Type_.supported = true)
    (hpack : Arguments.Pack arguments vs = ⟨packed, none⟩)
    (hlen : packed.len < 2 ^ 256) :
    Arguments.Unpack arguments packed.toList = ⟨Slice.mk vs, none⟩ := by
  unfold Arguments.Pack at hpack
  rw [packItems_eq_encodeFields] at hpack
  cases hitems : encodeFields (arguments.toList.map fun a => (a.Name, a.Type_)) vs with
  | error err => rw [hitems] at hpack; simp at hpack
  | ok items =>
    rw [hitems] at hpack
    simp only [Ret.mk.injEq, and_true] at hpack
    subst hpack
    have hP : ∀ f ∈ arguments.toList.map (fun a => (a.Name, a.Type_)), RoundTrip f.2 := by
      intro f hf
      obtain ⟨a, ha, rfl⟩ := List.mem_map.1 hf
      exact roundTrip_of_supported a.Type_ (hsup a ha)
    obtain ⟨hmod, _, _, hdec⟩ := roundTrip_fields _ hP vs items hitems
    have hlt : (([] : List Byte) ++ headTail items ++ []).length < 2 ^ 256 := by
      simpa [Slice.len, Slice.toList] using hlen
    have hfields := hdec [] [] hlt
    simp only [List.nil_append, List.append_nil, List.length_nil] at hfields
    have htl : (Slice.mk (headTail items)).toList = headTail items := rfl
    unfold Arguments.Unpack
    rw [htl, if_neg (by omega), unpackItems_eq_decodeFields, hfields]

/-! ## The revert reason -/

/-- The packing of one string: the offset 32 of the string from the start of the data,
the length, and the padded bytes. -/
theorem Pack_string (s : List Byte) :
    Arguments.Pack revertArguments [Value.string s]
      = ⟨Slice.mk (wordOfNat 32 ++ (wordOfNat s.length ++ padRight s)), none⟩ := by
  simp [Arguments.Pack, revertArguments, packItems, encode, headTail, headTailFrom,
    headsLength, Slice.toList, Type_.isDynamic]

/-- The unpacking of a packed string of less than `2 ^ 256` bytes returns the string. -/
theorem Unpack_Pack_string (s : List Byte) (hs : s.length < 2 ^ 256) :
    Arguments.Unpack revertArguments (Arguments.Pack revertArguments [Value.string s]).val.toList
      = ⟨Slice.mk [Value.string s], none⟩ := by
  rw [Pack_string]
  have htl : (Slice.mk (wordOfNat 32 ++ (wordOfNat s.length ++ padRight s))).toList
      = wordOfNat 32 ++ (wordOfNat s.length ++ padRight s) := rfl
  have hargs : revertArguments.toList
      = [{ Name := "", Type_ := Type_.string, Indexed := false }] := rfl
  have hpad := padRight_length s
  have hlen : (wordOfNat 32 ++ (wordOfNat s.length ++ padRight s)).length
      = 64 + (padRight s).length := by
    simp only [List.length_append, wordOfNat_length]
    omega
  have hoff : readWord (wordOfNat 32 ++ (wordOfNat s.length ++ padRight s)) 0 = .ok 32 := by
    have := readWord_wordOfNat [] (wordOfNat s.length ++ padRight s) 32 (by norm_num)
    simpa using this
  obtain ⟨hword, hbound, htake⟩ := decode_content s (wordOfNat 32) [] hs
  simp only [List.append_nil, wordOfNat_length] at hword hbound htake
  have hdec : decode Type_.string (wordOfNat 32 ++ (wordOfNat s.length ++ padRight s)) 32
      = .ok (Value.string s) := by
    simp only [decode, hword]
    rw [if_pos hbound, htake]
  unfold Arguments.Unpack
  rw [htl, hargs, if_neg (by omega)]
  simp only [unpackItems, decodeElement, Type_.isDynamic, if_true, hoff]
  rw [if_pos (by omega)]
  simp only [Nat.zero_add, hdec]

/-! # The claims -/

/-! ## Pack -/

/-- C1: `Pack` with the empty name is the packing of the constructor inputs with no
selector in front; with a name of the function table whose inputs pack without error it is
`append(ID, packed...)`, the id of the method followed by the packed inputs; and when the
id has 4 bytes, as the id of every function built by `NewMVBGod` and of every entry of an
ingested registry has, the first 4 bytes of the call data are the id and its length is 4
plus the length of the packed inputs. -/
theorem Pack_layout {V : Type} (pack : Arguments → List V → Ret (Slice Byte)) (abi : ABI)
    (args : List V) :
    ((abi.Pack pack "" args).err = (pack abi.Constructor.Inputs args).err ∧
      ((pack abi.Constructor.Inputs args).err = none →
        abi.Pack pack "" args = pack abi.Constructor.Inputs args)) ∧
    (∀ (name : String) (mVBGod : MVBGod), name ≠ "" →
      abi.MVBGods.lookup name = some mVBGod → (pack mVBGod.Inputs args).err = none →
      abi.Pack pack name args
        = ⟨mVBGod.ID.append (pack mVBGod.Inputs args).val.toList, none⟩ ∧
      (abi.Pack pack name args).val.toList
        = mVBGod.ID.toList ++ (pack mVBGod.Inputs args).val.toList ∧
      (mVBGod.ID.len = 4 →
        (abi.Pack pack name args).val.toList.take 4 = mVBGod.ID.toList ∧
        (abi.Pack pack name args).val.toList.drop 4 = (pack mVBGod.Inputs args).val.toList ∧
        (abi.Pack pack name args).val.len = 4 + (pack mVBGod.Inputs args).val.len) ∧
      (∀ (keccak256 : List Byte → Digest) (n r mu : String) (c p : Bool)
          (ins outs : Arguments),
        mVBGod = NewMVBGod keccak256 n r FunctionType.Function mu c p ins outs →
        (abi.Pack pack name args).val.toList.take 4 = mVBGod.ID.toList ∧
        (abi.Pack pack name args).val.len = 4 + (pack mVBGod.Inputs args).val.len) ∧
      (∀ (keccak256 : List Byte → Digest)
          (newEvent : String → String → Bool → Arguments → Event) (abi0 : ABI)
          (fields : List Field) (err : Option Error),
        abi0.UnmarshalJSON keccak256 newEvent fields = some (abi, err) →
        (abi.Pack pack name args).val.toList.take 4 = mVBGod.ID.toList ∧
        (abi.Pack pack name args).val.len = 4 + (pack mVBGod.Inputs args).val.len)) := by
  refine ⟨⟨?_, ?_⟩, ?_⟩
  · unfold ABI.Pack
    simp only [if_true]
    cases h : (pack abi.Constructor.Inputs args).err <;> simp
  · intro h
    unfold ABI.Pack
    simp only [if_true, h]
    cases hr : pack abi.Constructor.Inputs args with
    | mk v e =>
      rw [hr] at h
      simp at h
      simp [h]
  · intro name mVBGod hname hkey hpack
    have hfun : abi.Pack pack name args
        = ⟨mVBGod.ID.append (pack mVBGod.Inputs args).val.toList, none⟩ := by
      simp [ABI.Pack, hname, hkey, hpack]
    have hlen4 : mVBGod.ID.len = 4 →
        (abi.Pack pack name args).val.toList.take 4 = mVBGod.ID.toList ∧
        (abi.Pack pack name args).val.toList.drop 4 = (pack mVBGod.Inputs args).val.toList ∧
        (abi.Pack pack name args).val.len = 4 + (pack mVBGod.Inputs args).val.len := by
      intro h4
      have h4l : mVBGod.ID.toList.length = 4 := h4
      rw [hfun]
      refine ⟨?_, ?_, ?_⟩
      · simp only [Slice.toList_append]
        rw [List.take_append_of_le_length (by omega), List.take_of_length_le (by omega)]
      · simp only [Slice.toList_append]
        rw [List.drop_append_of_le_length (by omega), List.drop_of_length_le (by omega)]
        simp
      · simp only [Slice.len_append, h4]
        rfl
    refine ⟨hfun, ?_, hlen4, ?_, ?_⟩
    · rw [hfun]
      exact Slice.toList_append _ _
    · intro keccak256 n r mu c p ins outs hm
      have h4 : mVBGod.ID.len = 4 := by
        rw [hm]
        exact function_id_has_four_bytes keccak256 n r mu c p ins outs
      exact ⟨(hlen4 h4).1, (hlen4 h4).2.2⟩
    · intro keccak256 newEvent abi0 fields err hing
      obtain ⟨r, mu, c, p, ins, outs, hm⟩ :=
        UnmarshalJSON_entries keccak256 newEvent abi0 abi fields err hing (name, mVBGod)
          (GoMap.mem_of_lookup _ _ _ hkey)
      have hm1 : mVBGod = NewMVBGod keccak256 name r FunctionType.Function mu c p ins outs :=
        hm
      have h4 : mVBGod.ID.len = 4 := by
        rw [hm1]
        exact function_id_has_four_bytes keccak256 name r mu c p ins outs
      exact ⟨(hlen4 h4).1, (hlen4 h4).2.2⟩

/-- C1, at the test schema: packing `send` with one value gives 36 bytes of call data, the
4 bytes of the id of `send` followed by the 32 bytes of the packed value. -/
theorem Pack_layout_witness :
    "send" ≠ "" ∧ sampleABI.MVBGods.lookup "send" = some sampleSend ∧
    (samplePack sampleSend.Inputs [7]).err = none ∧
    sampleSend.ID.len = 4 ∧
    (sampleABI.Pack samplePack "send" [7]).val.toList.take 4 = sampleSend.ID.toList ∧
    (sampleABI.Pack samplePack "send" [7]).val.toList.drop 4
      = (samplePack sampleSend.Inputs [7]).val.toList ∧
    (sampleABI.Pack samplePack "send" [7]).val.len
      = 4 + (samplePack sampleSend.Inputs [7]).val.len :=
  ⟨by decide, rfl, rfl, rfl,
    ((Pack_layout samplePack sampleABI [7]).2 "send" sampleSend (by decide) rfl rfl).2.2.1 rfl⟩

/-- C2: for a non-empty name, `Pack` fails with the not-found error exactly when the name
is not a key of the function table (the packer, which has no such error of its own, is not
consulted: the result is the same for every packer and all arguments); and whenever `Pack`
returns an error, for any name, the bytes it returns are the nil slice. -/
theorem Pack_not_found {V : Type} (pack : Arguments → List V → Ret (Slice Byte)) (abi : ABI)
    (name : String) (args : List V) (hname : name ≠ "")
    (hengine : ∀ ins : Arguments, (pack ins args).err ≠ some (Error.mVBGodNotFound name)) :
    ((abi.Pack pack name args).err = some (Error.mVBGodNotFound name)
      ↔ abi.MVBGods.lookup name = none) ∧
    (abi.MVBGods.lookup name = none →
      ∀ (W : Type) (pack1 : Arguments → List W → Ret (Slice Byte)) (args1 : List W),
        abi.Pack pack1 name args1 = ⟨Slice.nil, some (Error.mVBGodNotFound name)⟩) ∧
    (∀ (name1 : String) (args1 : List V),
      (abi.Pack pack name1 args1).err ≠ none → (abi.Pack pack name1 args1).val = Slice.nil) := by
  refine ⟨⟨?_, ?_⟩, ?_, ?_⟩
  · intro h
    cases hk : abi.MVBGods.lookup name with
    | none => rfl
    | some m =>
      exfalso
      apply hengine m.Inputs
      cases hp : (pack m.Inputs args).err with
      | none => simp [ABI.Pack, hname, hk, hp] at h
      | some e =>
        simp [ABI.Pack, hname, hk, hp] at h
        rw [h]
  · intro hk
    simp [ABI.Pack, hname, hk]
  · intro hk W pack1 args1
    simp [ABI.Pack, hname, hk]
  · intro name1 args1 herr
    unfold ABI.Pack at herr ⊢
    by_cases hn : name1 = ""
    · simp only [hn, if_true] at herr ⊢
      cases hp : (pack abi.Constructor.Inputs args1).err with
      | none => simp [hp] at herr
      | some e => simp [hp]
    · simp only [hn, if_false] at herr ⊢
      cases hk : abi.MVBGods.lookup name1 with
      | none => simp
      | some m =>
        simp only [hk] at herr ⊢
        cases hp : (pack m.Inputs args1).err with
        | none => simp [hp] at herr
        | some e => simp [hp]

/-- C2, at the test schema: `missing` is not a key of the function table, and packing it
fails with the not-found error and the nil slice. -/
theorem Pack_not_found_witness :
    "missing" ≠ "" ∧
    (∀ ins : Arguments, (samplePack ins [7]).err ≠ some (Error.mVBGodNotFound "missing")) ∧
    sampleABI.MVBGods.lookup "missing" = none ∧
    (sampleABI.Pack samplePack "missing" [7]).err = some (Error.mVBGodNotFound "missing") ∧
    (sampleABI.Pack samplePack "missing" [7]).val = Slice.nil :=
  have hengine : ∀ ins : Arguments,
      (samplePack ins [7]).err ≠ some (Error.mVBGodNotFound "missing") := by
    intro ins
    unfold samplePack
    split <;> simp
  have h := Pack_not_found samplePack sampleABI "missing" [7] (by decide) hengine
  ⟨by decide, hengine, rfl, h.1.2 rfl, h.2.2 "missing" [7] (by rw [h.1.2 rfl]; simp)⟩

/-! ## getArguments and the unpackers -/

/-- C4: for a name that is a key of neither table, `getArguments` returns the
could-not-locate error and the nil argument list, whatever the data is; `Unpack` returns
the same error and no values, and `UnpackIntoInterface` and `UnpackIntoMap` return it and
leave their destination as it was, without calling into the argument list engine. -/
theorem getArguments_could_not_locate (abi : ABI) (name : String) (data : List Byte)
    (hfun : abi.MVBGods.lookup name = none) (hev : abi.Events.lookup name = none) :
    abi.getArguments name data = ⟨Slice.nil, some Error.couldNotLocate⟩ ∧
    (∀ (V : Type) (unpack : Arguments → List Byte → Ret (Slice V)),
      abi.Unpack unpack name data = ⟨Slice.nil, some Error.couldNotLocate⟩) ∧
    (∀ (V D : Type) (unpack : Arguments → List Byte → Ret (Slice V))
        (copy : Arguments → D → Slice V → D × Option Error) (v : D),
      abi.UnpackIntoInterface unpack copy v name data = (v, some Error.couldNotLocate)) ∧
    (∀ (M : Type) (unpackIntoMap : Arguments → M → List Byte → M × Option Error) (v : M),
      abi.UnpackIntoMap unpackIntoMap v name data = (v, some Error.couldNotLocate)) := by
  have h : abi.getArguments name data = ⟨Slice.nil, some Error.couldNotLocate⟩ := by
    simp [ABI.getArguments, ABI.getArgumentsEvent, hfun, hev, Slice.isNil]
  refine ⟨h, ?_, ?_, ?_⟩
  · intro V unpack
    simp [ABI.Unpack, h]
  · intro V D unpack copy v
    simp [ABI.UnpackIntoInterface, h]
  · intro M unpackIntoMap v
    simp [ABI.UnpackIntoMap, h]

/-- C4, at the test schema: `missing` is a key of neither table. -/
theorem getArguments_could_not_locate_witness :
    sampleABI.MVBGods.lookup "missing" = none ∧ sampleABI.Events.lookup "missing" = none ∧
    sampleABI.getArguments "missing" [1, 2, 3] = ⟨Slice.nil, some Error.couldNotLocate⟩ :=
  ⟨rfl, rfl, (getArguments_could_not_locate sampleABI "missing" [1, 2, 3] rfl rfl).1⟩

/-! ## A function without outputs -/

/-- For a name that is a function and not an event, and data whose length is a multiple of
32, `getArguments` returns the outputs of the function when they are not the nil slice,
and the could-not-locate error when they are. -/
theorem getArguments_function (abi : ABI) (name : String) (mVBGod : MVBGod)
    (data : List Byte) (hfun : abi.MVBGods.lookup name = some mVBGod)
    (hev : abi.Events.lookup name = none) (hlen : data.length % 32 = 0) :
    abi.getArguments name data
      = if mVBGod.Outputs.isNil then ⟨Slice.nil, some Error.couldNotLocate⟩
        else ⟨mVBGod.Outputs, none⟩ := by
  simp [ABI.getArguments, ABI.getArgumentsEvent, hfun, hev, hlen]

/-- C3: the test schema is ingested without error, `balance` is then a key of the function
table and not of the event table, and the empty data has a length that is a multiple of
32; yet `getArguments` does not return the (nil) output list of `balance`: it returns the
could-not-locate error, and so does `Unpack`, without calling the decoder. A function
declared with the empty output list, such as `tuple`, is resolved. -/
theorem getArguments_balance :
    JSON sampleKeccak256 sampleNewEvent mVBGoddata = some ⟨sampleABI, none⟩ ∧
    sampleABI.MVBGods.has "balance" = true ∧ sampleABI.Events.has "balance" = false ∧
    ([] : List Byte).length % 32 = 0 ∧
    (∀ m, sampleABI.MVBGods.lookup "balance" = some m → m.Outputs = Slice.nil) ∧
    sampleABI.getArguments "balance" [] = ⟨Slice.nil, some Error.couldNotLocate⟩ ∧
    (∀ (V : Type) (unpack : Arguments → List Byte → Ret (Slice V)),
      sampleABI.Unpack unpack "balance" [] = ⟨Slice.nil, some Error.couldNotLocate⟩) ∧
    sampleABI.getArguments "tuple" [] = ⟨Slice.mk [], none⟩ := by
  have hget : sampleABI.getArguments "balance" []
      = ⟨Slice.nil, some Error.couldNotLocate⟩ := rfl
  refine ⟨rfl, rfl, rfl, rfl, ?_, hget, ?_, rfl⟩
  · intro m hm
    cases hm
    rfl
  · intro V unpack
    simp [ABI.Unpack, hget]

/-- C5: for a name of the function table and data whose length is not a multiple of 32,
`getArguments` returns the improperly-formatted-output error, whatever the event table
holds, and `Unpack` returns it without calling the decoder; with a length that is a
multiple of 32 it does not return that error; for a name that is not in the
function table the result of `getArguments` is the same for all data, and when the name is
an event it is decided by the inputs of the event alone. -/
theorem getArguments_length_check (abi : ABI) (name : String) :
    (∀ (mVBGod : MVBGod) (data : List Byte), abi.MVBGods.lookup name = some mVBGod →
      data.length % 32 ≠ 0 →
      abi.getArguments name data = ⟨Slice.nil, some (Error.improperlyFormattedOutput data)⟩ ∧
      ∀ (V : Type) (unpack : Arguments → List Byte → Ret (Slice V)),
        abi.Unpack unpack name data
          = ⟨Slice.nil, some (Error.improperlyFormattedOutput data)⟩) ∧
    (∀ (mVBGod : MVBGod) (data : List Byte), abi.MVBGods.lookup name = some mVBGod →
      data.length % 32 = 0 →
      abi.getArguments name data = abi.getArgumentsEvent name mVBGod.Outputs ∧
      (abi.getArguments name data).err ≠ some (Error.improperlyFormattedOutput data)) ∧
    (abi.MVBGods.lookup name = none →
      (∀ data1 data2 : List Byte, abi.getArguments name data1 = abi.getArguments name data2) ∧
      ∀ (event : Event) (data : List Byte), abi.Events.lookup name = some event →
        abi.getArguments name data
          = if event.Inputs.isNil then ⟨Slice.nil, some Error.couldNotLocate⟩
            else ⟨event.Inputs, none⟩) := by
  refine ⟨?_, ?_, ?_⟩
  · intro mVBGod data hkey hlen
    have h : abi.getArguments name data
        = ⟨Slice.nil, some (Error.improperlyFormattedOutput data)⟩ := by
      simp [ABI.getArguments, hkey, hlen]
    refine ⟨h, ?_⟩
    intro V unpack
    simp [ABI.Unpack, h]
  · intro mVBGod data hkey hlen
    have h : abi.getArguments name data = abi.getArgumentsEvent name mVBGod.Outputs := by
      simp [ABI.getArguments, hkey, hlen]
    refine ⟨h, ?_⟩
    rw [h]
    simp only [ABI.getArgumentsEvent]
    split_ifs <;> simp
  · intro hkey
    refine ⟨?_, ?_⟩
    · intro data1 data2
      simp [ABI.getArguments, hkey]
    · intro event data hev
      simp [ABI.getArguments, ABI.getArgumentsEvent, hkey, hev]

/-- C5, at the test schema: `transfer` is a function, and 3 bytes of data are rejected. -/
theorem getArguments_length_check_witness :
    (∃ m, sampleABI.MVBGods.lookup "transfer" = some m) ∧ [1, 2, 3].length % 32 ≠ 0 ∧
    sampleABI.getArguments "transfer" [1, 2, 3]
      = ⟨Slice.nil, some (Error.improperlyFormattedOutput [1, 2, 3])⟩ :=
  ⟨⟨_, rfl⟩, by decide,
    ((getArguments_length_check sampleABI "transfer").1 _ [1, 2, 3] rfl (by decide)).1⟩

/-! ## Signature and id -/

/-- C6: the signature of a method built by `NewMVBGod` with kind Function is the raw name,
"(", the canonical strings of the input types joined by "," and ")", whatever the
disambiguated name, the names of the inputs, the outputs and the flags are; for the kinds
Constructor, Fallback and Receive the signature is the empty string. -/
theorem NewMVBGod_Sig (keccak256 : List Byte → Digest) (name rawName mutability : String)
    (isConst isPayable : Bool) (inputs outputs : Arguments) :
    (NewMVBGod keccak256 name rawName FunctionType.Function mutability isConst isPayable
        inputs outputs).Sig
      = rawName ++ "(" ++ String.intercalate "," (inputs.toList.map fun a => a.Type_.String)
          ++ ")" ∧
    (NewMVBGod keccak256 name rawName FunctionType.Constructor mutability isConst isPayable
        inputs outputs).Sig = "" ∧
    (NewMVBGod keccak256 name rawName FunctionType.Fallback mutability isConst isPayable
        inputs outputs).Sig = "" ∧
    (NewMVBGod keccak256 name rawName FunctionType.Receive mutability isConst isPayable
        inputs outputs).Sig = "" ∧
    (NewMVBGod keccak256 "transfer0" "transfer" FunctionType.Function mutability isConst
        isPayable
        (Slice.mk [⟨"from", Type_.address, false⟩, ⟨"to", Type_.address, false⟩,
          ⟨"value", Type_.uint 256, false⟩]) outputs).Sig
      = "transfer(address,address,uint256)" :=
  ⟨rfl, rfl, rfl, rfl, rfl⟩

/-- C7: the id of a method built by `NewMVBGod` with kind Function has exactly 4 bytes, the
first 4 bytes of the hash of the bytes of its signature; for the kinds Constructor,
Fallback and Receive the id is the nil slice, of length 0. -/
theorem NewMVBGod_ID (keccak256 : List Byte → Digest) (name rawName mutability : String)
    (isConst isPayable : Bool) (inputs outputs : Arguments) :
    ((NewMVBGod keccak256 name rawName FunctionType.Function mutability isConst isPayable
        inputs outputs).ID
      = Slice.mk ((keccak256 (stringBytes
          (NewMVBGod keccak256 name rawName FunctionType.Function mutability isConst
            isPayable inputs outputs).Sig)).bytes.take 4) ∧
     (NewMVBGod keccak256 name rawName FunctionType.Function mutability isConst isPayable
        inputs outputs).ID.len = 4) ∧
    ((NewMVBGod keccak256 name rawName FunctionType.Constructor mutability isConst isPayable
        inputs outputs).ID = Slice.nil ∧
     (NewMVBGod keccak256 name rawName FunctionType.Fallback mutability isConst isPayable
        inputs outputs).ID = Slice.nil ∧
     (NewMVBGod keccak256 name rawName FunctionType.Receive mutability isConst isPayable
        inputs outputs).ID = Slice.nil) ∧
    (Slice.nil : Slice Byte).len = 0 :=
  ⟨⟨rfl, function_id_has_four_bytes keccak256 name rawName mutability isConst isPayable inputs outputs⟩,
    ⟨rfl, rfl, rfl⟩, rfl⟩

/-- C8: two methods built by `NewMVBGod` with kind Function from the same raw name and the
same sequence of input types have the same signature and the same id, whatever the names
of the inputs, the outputs, the state mutability, the legacy flags and the disambiguated
names are. -/
theorem NewMVBGod_selector_deterministic (keccak256 : List Byte → Digest)
    (name1 name2 rawName mutability1 mutability2 : String)
    (isConst1 isConst2 isPayable1 isPayable2 : Bool)
    (inputs1 inputs2 outputs1 outputs2 : Arguments)
    (htypes : inputs1.toList.map (fun a => a.Type_) = inputs2.toList.map (fun a => a.Type_)) :
    (NewMVBGod keccak256 name1 rawName FunctionType.Function mutability1 isConst1 isPayable1
        inputs1 outputs1).Sig
      = (NewMVBGod keccak256 name2 rawName FunctionType.Function mutability2 isConst2
          isPayable2 inputs2 outputs2).Sig ∧
    (NewMVBGod keccak256 name1 rawName FunctionType.Function mutability1 isConst1 isPayable1
        inputs1 outputs1).ID
      = (NewMVBGod keccak256 name2 rawName FunctionType.Function mutability2 isConst2
          isPayable2 inputs2 outputs2).ID := by
  have hstr : inputs1.toList.map (fun a => a.Type_.String)
      = inputs2.toList.map (fun a => a.Type_.String) := by
    have h := congrArg (List.map Type_.String) htypes
    simpa [List.map_map, Function.comp] using h
  simp only [NewMVBGod, if_true, hstr, and_self]

/-- C8, at the signature `transfer(address,address,uint256)`: two declarations that differ
in the names of the inputs, the outputs, the mutability, the flags and the disambiguated
name. -/
theorem NewMVBGod_selector_deterministic_witness :
    (Slice.mk [(⟨"from", Type_.address, false⟩ : Argument), ⟨"to", Type_.address, false⟩,
        ⟨"value", Type_.uint 256, false⟩]).toList.map (fun a => a.Type_)
      = (Slice.mk [(⟨"src", Type_.address, false⟩ : Argument), ⟨"", Type_.address, true⟩,
          ⟨"wad", Type_.uint 256, false⟩]).toList.map (fun a => a.Type_) ∧
    (NewMVBGod sampleKeccak256 "transfer" "transfer" FunctionType.Function "" false false
        (Slice.mk [⟨"from", Type_.address, false⟩, ⟨"to", Type_.address, false⟩,
          ⟨"value", Type_.uint 256, false⟩])
        (Slice.mk [⟨"success", Type_.bool, false⟩])).Sig
      = (NewMVBGod sampleKeccak256 "transfer0" "transfer" FunctionType.Function "payable" true
          true
          (Slice.mk [⟨"src", Type_.address, false⟩, ⟨"", Type_.address, true⟩,
            ⟨"wad", Type_.uint 256, false⟩]) Slice.nil).Sig ∧
    (NewMVBGod sampleKeccak256 "transfer" "transfer" FunctionType.Function "" false false
        (Slice.mk [⟨"from", Type_.address, false⟩, ⟨"to", Type_.address, false⟩,
          ⟨"value", Type_.uint 256, false⟩])
        (Slice.mk [⟨"success", Type_.bool, false⟩])).ID
      = (NewMVBGod sampleKeccak256 "transfer0" "transfer" FunctionType.Function "payable" true
          true
          (Slice.mk [⟨"src", Type_.address, false⟩, ⟨"", Type_.address, true⟩,
            ⟨"wad", Type_.uint 256, false⟩]) Slice.nil).ID :=
  ⟨rfl,
    NewMVBGod_selector_deterministic sampleKeccak256 "transfer" "transfer0" "transfer" ""
      "payable" false true false true
      (Slice.mk [⟨"from", Type_.address, false⟩, ⟨"to", Type_.address, false⟩,
        ⟨"value", Type_.uint 256, false⟩])
      (Slice.mk [⟨"src", Type_.address, false⟩, ⟨"", Type_.address, true⟩,
        ⟨"wad", Type_.uint 256, false⟩])
      (Slice.mk [⟨"success", Type_.bool, false⟩]) Slice.nil rfl⟩

/-! ## Overload names -/

/-- C9: `overloadedMVBGodName` returns the raw name when it is not a key of the function
table, and otherwise the raw name followed by the decimal form of the smallest index `i`
for which that name is not a key; the name it returns is never a key, so that the
ingestion of a function field adds an entry and keeps every entry that was there; and two
function fields named `send`, ingested into a registry whose tables are made anew, give
exactly the keys `send` and `send0`, each one retrievable, with the undecorated name in
both signatures. -/
theorem overloadedMVBGodName_spec (abi : ABI) (rawName : String) :
    (abi.MVBGods.has rawName = false → abi.overloadedMVBGodName rawName = some rawName) ∧
    (abi.MVBGods.has rawName = true →
      ∃ i, abi.overloadedMVBGodName rawName = some (rawName ++ decimal i) ∧
        abi.MVBGods.has (rawName ++ decimal i) = false ∧
        ∀ j, j < i → abi.MVBGods.has (rawName ++ decimal j) = true) ∧
    (∃ name, abi.overloadedMVBGodName rawName = some name ∧
      abi.MVBGods.has name = false ∧ name ∉ abi.MVBGods.keys) ∧
    (∀ (keccak256 : List Byte → Digest)
        (newEvent : String → String → Bool → Arguments → Event) (field : Field),
      field.Type_ = "function" → field.Name = rawName →
      ∃ (name : String) (abi1 : ABI),
        abi.overloadedMVBGodName rawName = some name ∧
        abi.unmarshalField keccak256 newEvent field = some (abi1, none) ∧
        abi1.MVBGods.entries = abi.MVBGods.entries ++
          [(name, NewMVBGod keccak256 name rawName FunctionType.Function
            field.StateMutability field.Constant field.Payable field.Inputs field.Outputs)] ∧
        ∀ (k : String) (m : MVBGod), abi.MVBGods.lookup k = some m →
          abi1.MVBGods.lookup k = some m) ∧
    (∀ (keccak256 : List Byte → Digest)
        (newEvent : String → String → Bool → Arguments → Event)
        (mu1 mu2 : String) (c1 c2 p1 p2 : Bool) (ins1 ins2 outs1 outs2 : Arguments),
      ∃ abi1 : ABI,
        abi.UnmarshalJSON keccak256 newEvent
            [ { Type_ := "function", Name := "send", Inputs := ins1, Outputs := outs1,
                StateMutability := mu1, Constant := c1, Payable := p1, Anonymous := false },
              { Type_ := "function", Name := "send", Inputs := ins2, Outputs := outs2,
                StateMutability := mu2, Constant := c2, Payable := p2, Anonymous := false } ]
          = some (abi1, none) ∧
        abi1.MVBGods.keys = ["send", "send0"] ∧
        abi1.MVBGods.lookup "send"
          = some (NewMVBGod keccak256 "send" "send" FunctionType.Function mu1 c1 p1 ins1
              outs1) ∧
        abi1.MVBGods.lookup "send0"
          = some (NewMVBGod keccak256 "send0" "send" FunctionType.Function mu2 c2 p2 ins2
              outs2) ∧
        (∀ m, abi1.MVBGods.lookup "send" = some m →
          m.Sig = "send(" ++ String.intercalate "," (ins1.toList.map fun a => a.Type_.String)
            ++ ")") ∧
        (∀ m, abi1.MVBGods.lookup "send0" = some m →
          m.Sig = "send(" ++ String.intercalate "," (ins2.toList.map fun a => a.Type_.String)
            ++ ")")) := by
  have hspec := overloadedNameLoop_fuel abi.MVBGods rawName
  have hfresh : ∃ name, abi.overloadedMVBGodName rawName = some name ∧
      abi.MVBGods.has name = false ∧ name ∉ abi.MVBGods.keys := by
    have hnot : ∀ name, abi.MVBGods.has name = false → name ∉ abi.MVBGods.keys := by
      intro name h hmem
      rw [(GoMap.has_iff _ _).2 hmem] at h
      exact Bool.noConfusion h
    cases h : abi.MVBGods.has rawName with
    | false => exact ⟨rawName, hspec.1 h, h, hnot _ h⟩
    | true =>
      obtain ⟨i, _, hi, hout, _⟩ := hspec.2 h
      exact ⟨_, hi, hout, hnot _ hout⟩
  refine ⟨hspec.1, ?_, hfresh, ?_, ?_⟩
  · intro h
    obtain ⟨i, _, hi, hout, hmin⟩ := hspec.2 h
    exact ⟨i, hi, hout, hmin⟩
  · intro keccak256 newEvent field htype hname
    obtain ⟨name, hn, hhas, _⟩ := hfresh
    have hst := GoMap.store_fresh abi.MVBGods name
      (NewMVBGod keccak256 name rawName FunctionType.Function field.StateMutability
        field.Constant field.Payable field.Inputs field.Outputs) hhas
    have hstep : abi.unmarshalField keccak256 newEvent field
        = some ({ abi with MVBGods := (abi.MVBGods.store name
            (NewMVBGod keccak256 name rawName FunctionType.Function field.StateMutability
              field.Constant field.Payable field.Inputs field.Outputs)) }, none) := by
      simp [ABI.unmarshalField, htype, hname, hn]
    exact ⟨name, _, hn, hstep, hst.1, hst.2.2⟩
  · intro keccak256 newEvent mu1 mu2 c1 c2 p1 p2 ins1 ins2 outs1 outs2
    refine ⟨_, rfl, rfl, rfl, rfl, ?_, ?_⟩
    · intro m hm
      cases hm
      rfl
    · intro m hm
      cases hm
      rfl

/-- C9, at the test schema: `send` is a key of the function table and `send0` is not, so
the next name for `send` is `send0`; `mint` is not a key and is returned as it is. -/
theorem overloadedMVBGodName_spec_witness :
    sampleABI.MVBGods.has "send" = true ∧ sampleABI.MVBGods.has "mint" = false ∧
    sampleABI.overloadedMVBGodName "mint" = some "mint" ∧
    ∃ i, sampleABI.overloadedMVBGodName "send" = some ("send" ++ decimal i) ∧
      sampleABI.MVBGods.has ("send" ++ decimal i) = false ∧
      ∀ j, j < i → sampleABI.MVBGods.has ("send" ++ decimal j) = true :=
  ⟨rfl, rfl, (overloadedMVBGodName_spec sampleABI "mint").1 rfl,
    (overloadedMVBGodName_spec sampleABI "send").2.1 rfl⟩

/-! ## Lookup by id -/

/-- C10: `MVBGodById` succeeds exactly when the data has at least 4 bytes and some entry
of the function table has an id equal to the first 4 bytes; the method it returns is an
entry of the table with that id; with an error it returns no method; and two inputs of at
least 4 bytes with the same first 4 bytes have the same result. -/
theorem MVBGodById_spec (abi : ABI) (sigdata : List Byte) :
    ((abi.MVBGodById sigdata).err = none ↔
      4 ≤ sigdata.length ∧ ∃ e ∈ abi.MVBGods.entries, e.2.ID.toList = sigdata.take 4) ∧
    ((abi.MVBGodById sigdata).err = none → ∃ m, (abi.MVBGodById sigdata).val = some m) ∧
    (∀ m, (abi.MVBGodById sigdata).val = some m →
      (abi.MVBGodById sigdata).err = none ∧ (∃ k, (k, m) ∈ abi.MVBGods.entries) ∧
      m.ID.toList = sigdata.take 4) ∧
    ((abi.MVBGodById sigdata).err ≠ none → (abi.MVBGodById sigdata).val = none) ∧
    (∀ other : List Byte, 4 ≤ sigdata.length → 4 ≤ other.length →
      other.take 4 = sigdata.take 4 → abi.MVBGodById other = abi.MVBGodById sigdata) := by
  by_cases hlen : sigdata.length < 4
  · have hres : abi.MVBGodById sigdata = ⟨none, some (Error.dataTooShort sigdata.length)⟩ := by
      simp [ABI.MVBGodById, hlen]
    rw [hres]
    refine ⟨⟨?_, ?_⟩, ?_, ?_, ?_, ?_⟩
    · intro h
      simp at h
    · intro h
      omega
    · intro h
      simp at h
    · intro m h
      simp at h
    · intro _
      rfl
    · intro other h
      omega
  · cases hfind : abi.MVBGods.entries.find?
        (fun e => decide (e.2.ID.toList = sigdata.take 4)) with
    | none =>
      have hres : abi.MVBGodById sigdata
          = ⟨none, some (Error.noMVBGodWithId (sigdata.take 4))⟩ := by
        simp [ABI.MVBGodById, hlen, hfind]
      have hnone := List.find?_eq_none.1 hfind
      refine ⟨⟨?_, ?_⟩, ?_, ?_, ?_, ?_⟩
      · intro h
        rw [hres] at h
        simp at h
      · rintro ⟨_, e, he, hid⟩
        have := hnone e he
        simp [hid] at this
      · intro h
        rw [hres] at h
        simp at h
      · intro m h
        rw [hres] at h
        simp at h
      · intro _
        rw [hres]
      · intro other _ hother htake
        have hl : ¬ other.length < 4 := by omega
        simp [ABI.MVBGodById, hlen, hl, htake]
    | some e =>
      have hres : abi.MVBGodById sigdata = ⟨some e.2, none⟩ := by
        simp [ABI.MVBGodById, hlen, hfind]
      have hmem : e ∈ abi.MVBGods.entries := List.mem_of_find?_eq_some hfind
      have hid : e.2.ID.toList = sigdata.take 4 := by
        have := List.find?_some hfind
        simpa using this
      refine ⟨⟨?_, ?_⟩, ?_, ?_, ?_, ?_⟩
      · intro _
        exact ⟨by omega, e, hmem, hid⟩
      · intro _
        rw [hres]
      · intro _
        exact ⟨e.2, by rw [hres]⟩
      · intro m h
        rw [hres] at h ⊢
        simp only [Option.some.injEq] at h
        subst h
        exact ⟨rfl, ⟨e.1, hmem⟩, hid⟩
      · intro h
        rw [hres] at h
        simp at h
      · intro other _ hother htake
        have hl : ¬ other.length < 4 := by omega
        simp [ABI.MVBGodById, hlen, hl, htake]

/-- C10, at the test schema: the id of `send` followed by two more bytes finds a method
with that id, and 3 bytes find none. -/
theorem MVBGodById_spec_witness :
    (sampleABI.MVBGodById (sampleSend.ID.toList ++ [1, 2])).err = none ∧
    (∃ m, (sampleABI.MVBGodById (sampleSend.ID.toList ++ [1, 2])).val = some m ∧
      m.ID.toList = sampleSend.ID.toList) ∧
    (sampleABI.MVBGodById [1, 2, 3]).err ≠ none ∧
    (sampleABI.MVBGodById [1, 2, 3]).val = none :=
  have h := MVBGodById_spec sampleABI (sampleSend.ID.toList ++ [1, 2])
  have herr : (sampleABI.MVBGodById (sampleSend.ID.toList ++ [1, 2])).err = none :=
    h.1.2 ⟨by decide, ("send", sampleSend), List.Mem.tail _ (List.Mem.head _), rfl⟩
  have h3 : (sampleABI.MVBGodById [1, 2, 3]).err ≠ none := by decide
  ⟨herr, (h.2.1 herr).elim fun m hm => ⟨m, hm, (h.2.2.1 m hm).2.2⟩, h3,
    (MVBGodById_spec sampleABI [1, 2, 3]).2.2.2.1 h3⟩

/-! ## Lookup by topic -/

/-- C11: `EventByID` succeeds exactly when some entry of the event table has an id equal to
the topic; the event it returns is an entry of the table with that id; and with an error
it returns no event. -/
theorem EventByID_spec (abi : ABI) (topic : Digest) :
    ((abi.EventByID topic).err = none ↔ ∃ e ∈ abi.Events.entries, e.2.ID = topic) ∧
    ((abi.EventByID topic).err = none → ∃ ev, (abi.EventByID topic).val = some ev) ∧
    (∀ ev, (abi.EventByID topic).val = some ev →
      (abi.EventByID topic).err = none ∧ (∃ k, (k, ev) ∈ abi.Events.entries) ∧
      ev.ID = topic) ∧
    ((abi.EventByID topic).err ≠ none → (abi.EventByID topic).val = none) := by
  cases hfind : abi.Events.entries.find? (fun e => decide (e.2.ID.bytes = topic.bytes)) with
  | none =>
    have hres : abi.EventByID topic = ⟨none, some (Error.noEventWithId topic.bytes)⟩ := by
      simp [ABI.EventByID, hfind]
    have hnone := List.find?_eq_none.1 hfind
    rw [hres]
    refine ⟨⟨?_, ?_⟩, ?_, ?_, ?_⟩
    · intro h
      simp at h
    · rintro ⟨e, he, hid⟩
      have := hnone e he
      simp [hid] at this
    · intro h
      simp at h
    · intro ev h
      simp at h
    · intro _
      rfl
  | some e =>
    have hres : abi.EventByID topic = ⟨some e.2, none⟩ := by
      simp [ABI.EventByID, hfind]
    have hmem : e ∈ abi.Events.entries := List.mem_of_find?_eq_some hfind
    have hid : e.2.ID = topic := by
      apply Digest.eq_of_bytes
      have := List.find?_some hfind
      simpa using this
    rw [hres]
    refine ⟨⟨?_, ?_⟩, ?_, ?_, ?_⟩
    · intro _
      exact ⟨e, hmem, hid⟩
    · intro _
      rfl
    · intro _
      exact ⟨e.2, rfl⟩
    · intro ev h
      simp only [Option.some.injEq] at h
      subst h
      exact ⟨rfl, ⟨e.1, hmem⟩, hid⟩
    · intro h
      simp at h

/-- C11, at a registry with the events `received` and `spent`: the topic of `spent` finds
an event with that id, and the topic of another signature finds none. -/
theorem EventByID_spec_witness :
    (sampleEventABI.EventByID (sampleKeccak256 (stringBytes "spent(uint256)"))).err = none ∧
    (∃ ev, (sampleEventABI.EventByID (sampleKeccak256 (stringBytes "spent(uint256)"))).val
        = some ev ∧ ev.ID = sampleKeccak256 (stringBytes "spent(uint256)")) ∧
    (sampleEventABI.EventByID (sampleKeccak256 (stringBytes "lost(uint256)"))).err ≠ none ∧
    (sampleEventABI.EventByID (sampleKeccak256 (stringBytes "lost(uint256)"))).val = none :=
  have h := EventByID_spec sampleEventABI (sampleKeccak256 (stringBytes "spent(uint256)"))
  have herr :
      (sampleEventABI.EventByID (sampleKeccak256 (stringBytes "spent(uint256)"))).err = none :=
    rfl
  have hlost :
      (sampleEventABI.EventByID (sampleKeccak256 (stringBytes "lost(uint256)"))).err ≠ none := by
    decide
  ⟨herr, (h.2.1 herr).elim fun ev hev => ⟨ev, hev, (h.2.2.1 ev hev).2.2⟩, hlost,
    (EventByID_spec sampleEventABI (sampleKeccak256 (stringBytes "lost(uint256)"))).2.2.2 hlost⟩

/-! ## The revert decoder -/

/-- C12: when the data has fewer than 4 bytes, or its first 4 bytes are not the selector of
`Error(string)`, `UnpackRevert` returns the empty string and the invalid-data error; the
decoder is not called, so the result is the same for every decoder. -/
theorem UnpackRevert_invalid (keccak256 : List Byte → Digest)
    (unpack : Arguments → List Byte → Ret (Slice Value)) (data : List Byte)
    (hbad : data.length < 4 ∨ data.take 4 ≠ revertSelector keccak256) :
    UnpackRevert keccak256 unpack data = some ⟨[], some Error.invalidDataForUnpacking⟩ ∧
    (∀ unpack1 : Arguments → List Byte → Ret (Slice Value),
      UnpackRevert keccak256 unpack1 data = UnpackRevert keccak256 unpack data) := by
  have hall : ∀ u : Arguments → List Byte → Ret (Slice Value),
      UnpackRevert keccak256 u data = some ⟨[], some Error.invalidDataForUnpacking⟩ := by
    intro u
    unfold UnpackRevert
    by_cases hlen : data.length < 4
    · simp [hlen]
    · have hsel : data.take 4 ≠ revertSelector keccak256 := by
        rcases hbad with h | h
        · exact absurd h hlen
        · exact h
      simp [hlen, hsel]
  exact ⟨hall unpack, fun u => by rw [hall u, hall unpack]⟩

/-- C12, at 3 bytes of data, and at 8 bytes that begin with another selector. -/
theorem UnpackRevert_invalid_witness :
    (([1, 2, 3] : List Byte).length < 4 ∨
      ([1, 2, 3] : List Byte).take 4 ≠ revertSelector sampleKeccak256) ∧
    UnpackRevert sampleKeccak256 (fun _ _ => ⟨Slice.mk [Value.string [111, 107]], none⟩)
        [1, 2, 3]
      = some ⟨[], some Error.invalidDataForUnpacking⟩ ∧
    UnpackRevert sampleKeccak256 (fun _ _ => ⟨Slice.mk [Value.string [111, 107]], none⟩)
        [1, 2, 3, 4, 0, 0, 0, 0]
      = some ⟨[], some Error.invalidDataForUnpacking⟩ :=
  ⟨Or.inl (by decide),
    (UnpackRevert_invalid sampleKeccak256 _ [1, 2, 3] (Or.inl (by decide))).1,
    (UnpackRevert_invalid sampleKeccak256 _ [1, 2, 3, 4, 0, 0, 0, 0]
      (Or.inr (by decide))).1⟩

/-! ## The string representation -/

/-- C17: the string representation of a method built by `NewMVBGod` with kind Function is
"function ", the raw name, "(", the inputs rendered as type, space, name and joined by
", ", ") ", the state mutability followed by a space unless it is "nonpayable" or empty,
"returns(", the outputs rendered as the type alone when unnamed and as type, space, name
when named, joined by ", ", and ")"; the `balance` function of the test schema renders as
"function balance() view returns()". -/
theorem String_function (keccak256 : List Byte → Digest) (name rawName mutability : String)
    (isConst isPayable : Bool) (inputs outputs : Arguments) :
    (NewMVBGod keccak256 name rawName FunctionType.Function mutability isConst isPayable
        inputs outputs).String
      = "function " ++ rawName ++ "("
          ++ String.intercalate ", "
              (inputs.toList.map fun a => a.Type_.String ++ " " ++ a.Name)
          ++ ") "
          ++ (if mutability = "nonpayable" ∨ mutability = "" then "" else mutability ++ " ")
          ++ "returns("
          ++ String.intercalate ", "
              (outputs.toList.map fun a =>
                if a.Name = "" then a.Type_.String else a.Type_.String ++ " " ++ a.Name)
          ++ ")" ∧
    (NewMVBGod keccak256 "balance" "balance" FunctionType.Function "view" isConst isPayable
        Slice.nil Slice.nil).String = "function balance() view returns()" ∧
    (∀ m, sampleABI.MVBGods.lookup "balance" = some m →
      m.String = "function balance() view returns()") := by
  refine ⟨?_, rfl, ?_⟩
  · have hstate : (if (if mutability = "nonpayable" then "" else mutability) ≠ ""
          then (if mutability = "nonpayable" then "" else mutability) ++ " "
          else (if mutability = "nonpayable" then "" else mutability))
        = (if mutability = "nonpayable" ∨ mutability = "" then "" else mutability ++ " ") := by
      by_cases h1 : mutability = "nonpayable"
      · simp [h1]
      · by_cases h2 : mutability = ""
        · simp [h2]
        · simp [h1, h2]
    have hout : (outputs.toList.map fun output : Argument =>
          if output.Name.length > 0 then output.Type_.String ++ (" " ++ output.Name)
          else output.Type_.String)
        = (outputs.toList.map fun a : Argument =>
          if a.Name = "" then a.Type_.String else a.Type_.String ++ " " ++ a.Name) := by
      apply List.map_congr_left
      intro a _
      by_cases h : a.Name = ""
      · simp [h]
      · have hlen : a.Name.length > 0 := by
          rcases Nat.eq_zero_or_pos a.Name.length with h0 | h0
          · exact absurd (string_eq_empty_of_length a.Name h0) h
          · exact h0
        simp [h, hlen, String.append_assoc]
    simp only [MVBGod.String, NewMVBGod, hstate, hout]
    simp
  · intro m hm
    cases hm
    rfl

/-- C18: the string representation of a method built by `NewMVBGod` with kind Fallback,
Receive or Constructor begins with the kind word and "(", and is the same for every raw
name; the fallback and the receive of the test schema render as "fallback() returns()"
and "receive() payable returns()". -/
theorem String_special (keccak256 : List Byte → Digest) (name rawName mutability : String)
    (isConst isPayable : Bool) (inputs outputs : Arguments) :
    (∃ rest, (NewMVBGod keccak256 name rawName FunctionType.Fallback mutability isConst
        isPayable inputs outputs).String = "fallback(" ++ rest) ∧
    (∃ rest, (NewMVBGod keccak256 name rawName FunctionType.Receive mutability isConst
        isPayable inputs outputs).String = "receive(" ++ rest) ∧
    (∃ rest, (NewMVBGod keccak256 name rawName FunctionType.Constructor mutability isConst
        isPayable inputs outputs).String = "constructor(" ++ rest) ∧
    (∀ (kind : FunctionType) (rawName1 : String), kind ≠ FunctionType.Function →
      (NewMVBGod keccak256 name rawName1 kind mutability isConst isPayable inputs
          outputs).String
        = (NewMVBGod keccak256 name rawName kind mutability isConst isPayable inputs
            outputs).String) ∧
    (NewMVBGod keccak256 "" "" FunctionType.Fallback "nonpayable" false false Slice.nil
        Slice.nil).String = "fallback() returns()" ∧
    (NewMVBGod keccak256 "" "" FunctionType.Receive "payable" false false Slice.nil
        Slice.nil).String = "receive() payable returns()" ∧
    sampleABI.Fallback.String = "fallback() returns()" ∧
    sampleABI.Receive.String = "receive() payable returns()" := by
  refine ⟨?_, ?_, ?_, ?_, rfl, rfl, rfl, rfl⟩
  · simp only [MVBGod.String, NewMVBGod, if_true, String.append_assoc]
    exact ⟨_, (String.append_assoc "fallback" "(" _).symm⟩
  · simp only [MVBGod.String, NewMVBGod, String.append_assoc]
    exact ⟨_, (String.append_assoc "receive" "(" _).symm⟩
  · simp only [MVBGod.String, NewMVBGod, String.append_assoc]
    exact ⟨_, (String.append_assoc "constructor" "(" _).symm⟩
  · intro kind rawName1 hkind
    cases kind with
    | Function => exact absurd rfl hkind
    | Constructor => rfl
    | Fallback => rfl
    | Receive => rfl

/-- C18, at a fallback built with a raw name. -/
theorem String_special_witness :
    FunctionType.Fallback ≠ FunctionType.Function ∧
    (NewMVBGod sampleKeccak256 "" "ignored" FunctionType.Fallback "nonpayable" false false
        Slice.nil Slice.nil).String
      = (NewMVBGod sampleKeccak256 "" "" FunctionType.Fallback "nonpayable" false false
          Slice.nil Slice.nil).String :=
  ⟨by decide,
    (String_special sampleKeccak256 "" "" "nonpayable" false false Slice.nil Slice.nil).2.2.2.1
      FunctionType.Fallback "ignored" (by decide)⟩

/-! ## Ingestion: unknown keywords and the fallback -/

/-- C19: when the fields before it are ingested without error, a field whose type keyword
is none of "constructor", "function", "fallback", "receive" and "event" ends `UnmarshalJSON`
with the could-not-recognize-type error of its keyword and name; the registry is the one
that the fields before it left and the fields after it play no part; `JSON` returns the
error with the zero registry. -/
theorem UnmarshalJSON_unknown_type (keccak256 : List Byte → Digest)
    (newEvent : String → String → Bool → Arguments → Event) (abi abi1 : ABI)
    (before after : List Field) (field : Field)
    (hbefore : abi.UnmarshalJSON keccak256 newEvent before = some (abi1, none))
    (h1 : field.Type_ ≠ "constructor") (h2 : field.Type_ ≠ "function")
    (h3 : field.Type_ ≠ "fallback") (h4 : field.Type_ ≠ "receive")
    (h5 : field.Type_ ≠ "event") :
    abi.UnmarshalJSON keccak256 newEvent (before ++ field :: after)
      = some (abi1, some (Error.couldNotRecognizeType field.Type_ field.Name)) ∧
    (abi = ABI.zero →
      JSON keccak256 newEvent (before ++ field :: after)
        = some ⟨ABI.zero, some (Error.couldNotRecognizeType field.Type_ field.Name)⟩) := by
  have hstep : abi1.unmarshalField keccak256 newEvent field
      = some (abi1, some (Error.couldNotRecognizeType field.Type_ field.Name)) := by
    simp [ABI.unmarshalField, h1, h2, h3, h4, h5]
  have hres : abi.UnmarshalJSON keccak256 newEvent (before ++ field :: after)
      = some (abi1, some (Error.couldNotRecognizeType field.Type_ field.Name)) := by
    unfold ABI.UnmarshalJSON at hbefore ⊢
    rw [unmarshalFields_append keccak256 newEvent before (field :: after) _ abi1 hbefore]
    simp [ABI.unmarshalFields, hstep]
  refine ⟨hres, ?_⟩
  intro hzero
  subst hzero
  simp [JSON, hres]

/-- C19, at the test schema followed by a field with the keyword "Function", or by a field
with the empty keyword, and then by a function field. -/
theorem UnmarshalJSON_unknown_type_witness :
    ABI.zero.UnmarshalJSON sampleKeccak256 sampleNewEvent mVBGoddata = some (sampleABI, none) ∧
    capitalizedField.Type_ ≠ "function" ∧
    ABI.zero.UnmarshalJSON sampleKeccak256 sampleNewEvent
        (mVBGoddata ++ capitalizedField :: [functionField "burn" Slice.nil Slice.nil ""])
      = some (sampleABI, some (Error.couldNotRecognizeType "Function" "mint")) ∧
    ABI.zero.UnmarshalJSON sampleKeccak256 sampleNewEvent
        (mVBGoddata ++ emptyKeywordField :: [functionField "burn" Slice.nil Slice.nil ""])
      = some (sampleABI, some (Error.couldNotRecognizeType "" "mint")) :=
  ⟨rfl, by decide,
    (UnmarshalJSON_unknown_type sampleKeccak256 sampleNewEvent ABI.zero sampleABI mVBGoddata
      [functionField "burn" Slice.nil Slice.nil ""] capitalizedField rfl
      (by decide) (by decide) (by decide) (by decide) (by decide)).1,
    (UnmarshalJSON_unknown_type sampleKeccak256 sampleNewEvent ABI.zero sampleABI mVBGoddata
      [functionField "burn" Slice.nil Slice.nil ""] emptyKeywordField rfl
      (by decide) (by decide) (by decide) (by decide) (by decide)).1⟩

/-- C20: in an ingestion that starts without a fallback, when the fields before it are
ingested without error, a fallback field is accepted exactly when none of the fields
before it is a fallback field; when it is accepted the fallback of the registry is the
method built from its state mutability and legacy flags, whatever they are, and when it
is not accepted `UnmarshalJSON` ends with the only-single-fallback error. -/
theorem UnmarshalJSON_fallback (keccak256 : List Byte → Digest)
    (newEvent : String → String → Bool → Arguments → Event) (abi abi1 : ABI)
    (before after : List Field) (field : Field)
    (hfresh : abi.HasFallback = false)
    (hbefore : abi.UnmarshalJSON keccak256 newEvent before = some (abi1, none))
    (hfield : field.Type_ = "fallback") :
    ((∃ abi2, abi1.unmarshalField keccak256 newEvent field = some (abi2, none))
      ↔ ∀ f ∈ before, f.Type_ ≠ "fallback") ∧
    ((∀ f ∈ before, f.Type_ ≠ "fallback") →
      abi.UnmarshalJSON keccak256 newEvent (before ++ [field])
        = some ({ abi1 with Fallback := (NewMVBGod keccak256 "" "" FunctionType.Fallback
            field.StateMutability field.Constant field.Payable Slice.nil Slice.nil) },
          none)) ∧
    ((∃ f ∈ before, f.Type_ = "fallback") →
      abi.UnmarshalJSON keccak256 newEvent (before ++ field :: after)
        = some (abi1, some Error.onlySingleFallback)) := by
  have hinv : abi1.HasFallback = true ↔ ∃ f ∈ before, f.Type_ = "fallback" := by
    have h := unmarshalFields_HasFallback keccak256 newEvent before _ abi1 hbefore
    have h0 : ({ abi with MVBGods := GoMap.empty, Events := GoMap.empty } : ABI).HasFallback
        = false := hfresh
    rw [h0] at h
    simpa using h
  have haccept : (∀ f ∈ before, f.Type_ ≠ "fallback") →
      abi1.unmarshalField keccak256 newEvent field
        = some ({ abi1 with Fallback := (NewMVBGod keccak256 "" "" FunctionType.Fallback
            field.StateMutability field.Constant field.Payable Slice.nil Slice.nil) },
          none) := by
    intro hno
    have hf : abi1.HasFallback = false := by
      cases h : abi1.HasFallback with
      | false => rfl
      | true =>
        obtain ⟨f, hf, ht⟩ := hinv.1 h
        exact absurd ht (hno f hf)
    simp [ABI.unmarshalField, hfield, hf]
  have hreject : (∃ f ∈ before, f.Type_ = "fallback") →
      abi1.unmarshalField keccak256 newEvent field
        = some (abi1, some Error.onlySingleFallback) := by
    intro hex
    have hf : abi1.HasFallback = true := hinv.2 hex
    simp [ABI.unmarshalField, hfield, hf]
  refine ⟨⟨?_, ?_⟩, ?_, ?_⟩
  · rintro ⟨abi2, h2⟩ f hf ht
    rw [hreject ⟨f, hf, ht⟩] at h2
    simp at h2
  · intro hno
    exact ⟨_, haccept hno⟩
  · intro hno
    unfold ABI.UnmarshalJSON at hbefore ⊢
    rw [unmarshalFields_append keccak256 newEvent before [field] _ abi1 hbefore]
    simp [ABI.unmarshalFields, haccept hno]
  · intro hex
    unfold ABI.UnmarshalJSON at hbefore ⊢
    rw [unmarshalFields_append keccak256 newEvent before (field :: after) _ abi1 hbefore]
    simp [ABI.unmarshalFields, hreject hex]

/-- C20, at the test schema: its fallback field, the eighth, is accepted after the seven
function fields, and a second fallback field after the schema, payable and with both
legacy flags set, ends the ingestion with the only-single-fallback error. -/
theorem UnmarshalJSON_fallback_witness :
    ABI.zero.HasFallback = false ∧
    ABI.zero.UnmarshalJSON sampleKeccak256 sampleNewEvent mVBGoddata = some (sampleABI, none) ∧
    (fallbackField "payable" true true).Type_ = "fallback" ∧
    (∃ f ∈ mVBGoddata, f.Type_ = "fallback") ∧
    ABI.zero.UnmarshalJSON sampleKeccak256 sampleNewEvent
        (mVBGoddata ++ fallbackField "payable" true true ::
          [functionField "burn" Slice.nil Slice.nil ""])
      = some (sampleABI, some Error.onlySingleFallback) ∧
    (∃ abi1 abi2, ABI.zero.UnmarshalJSON sampleKeccak256 sampleNewEvent (mVBGoddata.take 7)
        = some (abi1, none) ∧
      abi1.unmarshalField sampleKeccak256 sampleNewEvent (fallbackField "payable" true true)
        = some (abi2, none)) :=
  have hex : ∃ f ∈ mVBGoddata, f.Type_ = "fallback" :=
    ⟨fallbackField "nonpayable" false false, by simp [mVBGoddata, fallbackField], rfl⟩
  have hno : ∀ f ∈ mVBGoddata.take 7, f.Type_ ≠ "fallback" := by
    intro f hf
    simp [mVBGoddata, functionField] at hf
    rcases hf with h | h | h | h | h | h | h <;> rw [h] <;> decide
  ⟨rfl, rfl, rfl, hex,
    (UnmarshalJSON_fallback sampleKeccak256 sampleNewEvent ABI.zero sampleABI mVBGoddata
      [functionField "burn" Slice.nil Slice.nil ""] (fallbackField "payable" true true)
      rfl rfl rfl).2.2 hex,
    ⟨_, (UnmarshalJSON_fallback sampleKeccak256 sampleNewEvent ABI.zero _ (mVBGoddata.take 7)
      [] (fallbackField "payable" true true) rfl rfl rfl).1.2 hno |>.choose, rfl,
      (UnmarshalJSON_fallback sampleKeccak256 sampleNewEvent ABI.zero _ (mVBGoddata.take 7)
      [] (fallbackField "payable" true true) rfl rfl rfl).1.2 hno |>.choose_spec⟩⟩

/-! ## The type model -/

/-- C15: the classification is the bottom-up rule: `uint`, `int`, `bool`, `address`,
fixed bytes and the function selector are static, `bytes` and `string` are dynamic, a
dynamic array is dynamic, a fixed array is dynamic exactly when its element type is, and a
tuple exactly when at least one field type is; `uint256[3]` and `(uint256,bool)` are
static, `string[3]` and `(uint256,string)` are dynamic. -/
theorem isDynamic_rule :
    (∀ n, (Type_.uint n).isDynamic = false) ∧ (∀ n, (Type_.int n).isDynamic = false) ∧
    Type_.bool.isDynamic = false ∧ Type_.address.isDynamic = false ∧
    (∀ n, (Type_.fixedBytes n).isDynamic = false) ∧ Type_.function.isDynamic = false ∧
    Type_.bytes.isDynamic = true ∧ Type_.string.isDynamic = true ∧
    (∀ e, (Type_.slice e).isDynamic = true) ∧
    (∀ n e, (Type_.array n e).isDynamic = e.isDynamic) ∧
    (∀ fs, (Type_.tuple fs).isDynamic = true ↔ ∃ f ∈ fs, f.2.isDynamic = true) ∧
    (Type_.array 3 (Type_.uint 256)).isDynamic = false ∧
    (Type_.tuple [("", Type_.uint 256), ("", Type_.bool)]).isDynamic = false ∧
    (Type_.array 3 Type_.string).isDynamic = true ∧
    (Type_.tuple [("", Type_.uint 256), ("", Type_.string)]).isDynamic = true := by
  refine ⟨fun _ => rfl, fun _ => rfl, rfl, rfl, fun _ => rfl, rfl, rfl, rfl, fun _ => rfl,
    fun _ _ => ?_, fun fs => ?_, rfl, rfl, rfl, rfl⟩
  · simp [Type_.isDynamic]
  · rw [← anyDynamic_iff]
    simp [Type_.isDynamic]

/-- C16: the declared types `int` and `uint` are the types `int256` and `uint256`, and
render so; a tuple renders as the canonical strings of its field types joined by ","
inside parentheses, with no field name; an array appends `[N]` and a dynamic array `[]` to
the canonical string of its element, once per array level; the functions `tuple`,
`tupleArray`, `tupleSlice` and `complexTuple` of the test schema have the signatures of
`TestMVBGodSig`, and `foo(uint32 a, int b)` has the signature "foo(uint32,int256)". -/
theorem canonical_string_rule (keccak256 : List Byte → Digest) :
    (NewType "int" "" [] = .ok (Type_.int 256) ∧ (Type_.int 256).String = "int256") ∧
    (NewType "uint" "" [] = .ok (Type_.uint 256) ∧ (Type_.uint 256).String = "uint256") ∧
    (∀ fs : List (String × Type_),
      (Type_.tuple fs).String
        = "(" ++ String.intercalate "," (fs.map fun f => f.2.String) ++ ")") ∧
    (∀ (n : Nat) (e : Type_), (Type_.array n e).String = e.String ++ "[" ++ decimal n ++ "]") ∧
    (∀ e : Type_, (Type_.slice e).String = e.String ++ "[]") ∧
    (NewType "tuple[5][]" "" [.mk "x" "uint256" [] false, .mk "y" "uint256" [] false]
        = .ok (Type_.slice (Type_.array 5 xyTuple)) ∧
      (Type_.slice (Type_.array 5 xyTuple)).String = "(uint256,uint256)[5][]") ∧
    ((sampleABI.MVBGods.lookup "tuple").map (fun m => m.Sig)
        = some "tuple((uint256,uint256))" ∧
      (sampleABI.MVBGods.lookup "tupleArray").map (fun m => m.Sig)
        = some "tupleArray((uint256,uint256)[5])" ∧
      (sampleABI.MVBGods.lookup "tupleSlice").map (fun m => m.Sig)
        = some "tupleSlice((uint256,uint256)[])" ∧
      (sampleABI.MVBGods.lookup "complexTuple").map (fun m => m.Sig)
        = some "complexTuple((uint256,uint256)[5][])") ∧
    (∃ t1 t2, NewType "uint32" "" [] = .ok t1 ∧ NewType "int" "" [] = .ok t2 ∧
      (NewMVBGod keccak256 "foo" "foo" FunctionType.Function "" false false
        (Slice.mk [⟨"a", t1, false⟩, ⟨"b", t2, false⟩]) Slice.nil).Sig
        = "foo(uint32,int256)") := by
  refine ⟨⟨rfl, rfl⟩, ⟨rfl, rfl⟩, ?_, ?_, ?_, ⟨rfl, rfl⟩, ⟨rfl, rfl, rfl, rfl⟩,
    ⟨_, _, rfl, rfl, rfl⟩⟩
  · intro fs
    rw [← fieldStrings_eq_map]
    simp [Type_.String]
  · intro n e
    simp [Type_.String]
  · intro e
    simp [Type_.String]

/-! ## Round trips through the argument list engine of the spec -/

/-- C13: with `Pack` and `Unpack` as section 4.2 describes them, a string `s` of less than
`2 ^ 256` bytes (the length of a Go string is below `2 ^ 63`) is packed without error into
the offset 32, the length and the padded bytes, and `UnpackRevert`, applied to the selector
of `Error(string)` followed by the packed string, returns `s` without error, for every
hash primitive. -/
theorem UnpackRevert_Pack (keccak256 : List Byte → Digest) (s : List Byte)
    (hs : s.length < 2 ^ 256) :
    Arguments.Pack revertArguments [Value.string s]
      = ⟨Slice.mk (wordOfNat 32 ++ (wordOfNat s.length ++ padRight s)), none⟩ ∧
    UnpackRevert keccak256 Arguments.Unpack
        (revertSelector keccak256
          ++ (Arguments.Pack revertArguments [Value.string s]).val.toList)
      = some ⟨s, none⟩ := by
  refine ⟨Pack_string s, ?_⟩
  have hsel := revertSelector_length keccak256
  have hlen : ¬ (revertSelector keccak256
      ++ (Arguments.Pack revertArguments [Value.string s]).val.toList).length < 4 := by
    simp only [List.length_append, hsel]
    omega
  have htake : (revertSelector keccak256
      ++ (Arguments.Pack revertArguments [Value.string s]).val.toList).take 4
      = revertSelector keccak256 := by
    rw [List.take_append_of_le_length (by omega), List.take_of_length_le (by omega)]
  have hdrop : (revertSelector keccak256
      ++ (Arguments.Pack revertArguments [Value.string s]).val.toList).drop 4
      = (Arguments.Pack revertArguments [Value.string s]).val.toList := by
    rw [List.drop_append_of_le_length (by omega), List.drop_of_length_le (by omega)]
    simp
  have hun := Unpack_Pack_string s hs
  unfold UnpackRevert
  rw [if_neg hlen, htake, hdrop]
  simp only [ne_eq, not_true_eq_false, if_false]
  have hargs : (Slice.mk [{ Name := "", Type_ := Type_.string, Indexed := false }] : Arguments)
      = revertArguments := rfl
  rw [hargs, hun]
  rfl

/-- C13, at the string "out of gas": `UnpackRevert` returns it from the selector followed
by its packing. -/
theorem UnpackRevert_Pack_witness :
    (stringBytes "out of gas").length < 2 ^ 256 ∧
    UnpackRevert sampleKeccak256 Arguments.Unpack
        (revertSelector sampleKeccak256
          ++ (Arguments.Pack revertArguments
                [Value.string (stringBytes "out of gas")]).val.toList)
      = some ⟨stringBytes "out of gas", none⟩ :=
  ⟨by decide,
    (UnpackRevert_Pack sampleKeccak256 (stringBytes "out of gas") (by decide)).2⟩

set_option maxRecDepth 100000 in
/-- C14: with `Pack` and `Unpack` as section 4.2 describes them, for every argument list
of supported types and all values that `Pack` accepts and packs into less than `2 ^ 256`
bytes (the length of a Go slice is below `2 ^ 63`), `Unpack` returns, from the bytes
packed, the values, without error. So it is for the value of type
`tuple(uint256,uint256)[5][]` with two arrays of five tuples, which is packed into 704
bytes, also when `ABI.Pack` packs it as the input of `complexTuple` in the registry of the
test schema, after the 4 bytes of the id. -/
theorem Unpack_Pack_roundTrip (arguments : Arguments) (vs : List Value)
    (packed : Slice Byte)
    (hsup : ∀ a ∈ arguments.toList, a.Type_.supported = true)
    (hpack : Arguments.Pack arguments vs = ⟨packed, none⟩)
    (hlen : packed.len < 2 ^ 256) :
    Arguments.Unpack arguments packed.toList = ⟨Slice.mk vs, none⟩ ∧
    (Arguments.Pack complexTupleArguments complexTupleValue).err = none ∧
    (Arguments.Pack complexTupleArguments complexTupleValue).val.len = 704 ∧
    Arguments.Unpack complexTupleArguments
        (Arguments.Pack complexTupleArguments complexTupleValue).val.toList
      = ⟨Slice.mk complexTupleValue, none⟩ ∧
    (ABI.Pack Arguments.Pack sampleABI "complexTuple" complexTupleValue).err = none ∧
    Arguments.Unpack complexTupleArguments
        ((ABI.Pack Arguments.Pack sampleABI "complexTuple" complexTupleValue).val.toList.drop 4)
      = ⟨Slice.mk complexTupleValue, none⟩ := by
  refine ⟨Unpack_Pack_of_supported arguments vs packed hsup hpack hlen, rfl, ?_, rfl, rfl,
    rfl⟩
  exact (by decide :
    (Arguments.Pack complexTupleArguments complexTupleValue).val.toList.length = 704)

set_option maxRecDepth 100000 in
/-- C14, at the input list of `complexTuple` and a value of two arrays of five tuples. -/
theorem Unpack_Pack_roundTrip_witness :
    (∀ a ∈ complexTupleArguments.toList, a.Type_.supported = true) ∧
    (Arguments.Pack complexTupleArguments complexTupleValue).err = none ∧
    (Arguments.Pack complexTupleArguments complexTupleValue).val.len < 2 ^ 256 ∧
    Arguments.Unpack complexTupleArguments
        (Arguments.Pack complexTupleArguments complexTupleValue).val.toList
      = ⟨Slice.mk complexTupleValue, none⟩ :=
  have hsup : ∀ a ∈ complexTupleArguments.toList, a.Type_.supported = true := by
    intro a ha
    simp only [complexTupleArguments, Slice.toList, List.mem_singleton] at ha
    rw [ha]
    rfl
  have hlen : (Arguments.Pack complexTupleArguments complexTupleValue).val.len < 2 ^ 256 := by
    have h704 : (Arguments.Pack complexTupleArguments complexTupleValue).val.len = 704 := by
      exact (by decide :
        (Arguments.Pack complexTupleArguments complexTupleValue).val.toList.length = 704)
    rw [h704]
    norm_num
  ⟨hsup, rfl, hlen,
    (Unpack_Pack_roundTrip complexTupleArguments complexTupleValue
      (Arguments.Pack complexTupleArguments complexTupleValue).val hsup rfl hlen).1⟩

/-! ## Ingestion: the receive, the constructor and the indicators -/

/-- C21: in an ingestion that starts without a receive, when the fields before it are
ingested without error, a receive field is accepted exactly when none of the fields before
it is a receive field and its state mutability is "payable"; when it is the first receive
field and its state mutability is anything else, the ingestion ends with the
receive-can-only-be-payable error, whatever its legacy flags are; and when a receive field
comes before it, the ingestion ends with the only-single-receive error, whatever its state
mutability is. -/
theorem UnmarshalJSON_receive (keccak256 : List Byte → Digest)
    (newEvent : String → String → Bool → Arguments → Event) (abi abi1 : ABI)
    (before after : List Field) (field : Field)
    (hfresh : abi.HasReceive = false)
    (hbefore : abi.UnmarshalJSON keccak256 newEvent before = some (abi1, none))
    (hfield : field.Type_ = "receive") :
    ((∃ abi2, abi1.unmarshalField keccak256 newEvent field = some (abi2, none))
      ↔ (∀ f ∈ before, f.Type_ ≠ "receive") ∧ field.StateMutability = "payable") ∧
    ((∀ f ∈ before, f.Type_ ≠ "receive") → field.StateMutability = "payable" →
      abi.UnmarshalJSON keccak256 newEvent (before ++ [field])
        = some ({ abi1 with Receive := (NewMVBGod keccak256 "" "" FunctionType.Receive
            field.StateMutability field.Constant field.Payable Slice.nil Slice.nil) },
          none)) ∧
    ((∀ f ∈ before, f.Type_ ≠ "receive") → field.StateMutability ≠ "payable" →
      abi.UnmarshalJSON keccak256 newEvent (before ++ field :: after)
        = some (abi1, some Error.receiveNotPayable)) ∧
    ((∃ f ∈ before, f.Type_ = "receive") →
      abi.UnmarshalJSON keccak256 newEvent (before ++ field :: after)
        = some (abi1, some Error.onlySingleReceive)) := by
  have hinv : abi1.HasReceive = true ↔ ∃ f ∈ before, f.Type_ = "receive" := by
    have h := unmarshalFields_HasReceive keccak256 newEvent before _ abi1 hbefore
    have h0 : ({ abi with MVBGods := GoMap.empty, Events := GoMap.empty } : ABI).HasReceive
        = false := hfresh
    rw [h0] at h
    simpa using h
  have hnone : (∀ f ∈ before, f.Type_ ≠ "receive") → abi1.HasReceive = false := by
    intro hno
    cases h : abi1.HasReceive with
    | false => rfl
    | true =>
      obtain ⟨f, hf, ht⟩ := hinv.1 h
      exact absurd ht (hno f hf)
  have haccept : (∀ f ∈ before, f.Type_ ≠ "receive") → field.StateMutability = "payable" →
      abi1.unmarshalField keccak256 newEvent field
        = some ({ abi1 with Receive := (NewMVBGod keccak256 "" "" FunctionType.Receive
            field.StateMutability field.Constant field.Payable Slice.nil Slice.nil) },
          none) := by
    intro hno hpay
    simp [ABI.unmarshalField, hfield, hnone hno, hpay]
  have hmut : (∀ f ∈ before, f.Type_ ≠ "receive") → field.StateMutability ≠ "payable" →
      abi1.unmarshalField keccak256 newEvent field
        = some (abi1, some Error.receiveNotPayable) := by
    intro hno hpay
    simp [ABI.unmarshalField, hfield, hnone hno, hpay]
  have hdup : (∃ f ∈ before, f.Type_ = "receive") →
      abi1.unmarshalField keccak256 newEvent field
        = some (abi1, some Error.onlySingleReceive) := by
    intro hex
    simp [ABI.unmarshalField, hfield, hinv.2 hex]
  refine ⟨⟨?_, ?_⟩, ?_, ?_, ?_⟩
  · rintro ⟨abi2, h2⟩
    by_cases hex : ∃ f ∈ before, f.Type_ = "receive"
    · rw [hdup hex] at h2
      simp at h2
    · have hno : ∀ f ∈ before, f.Type_ ≠ "receive" := fun f hf ht => hex ⟨f, hf, ht⟩
      refine ⟨hno, ?_⟩
      by_contra hpay
      rw [hmut hno hpay] at h2
      simp at h2
  · rintro ⟨hno, hpay⟩
    exact ⟨_, haccept hno hpay⟩
  · intro hno hpay
    unfold ABI.UnmarshalJSON at hbefore ⊢
    rw [unmarshalFields_append keccak256 newEvent before [field] _ abi1 hbefore]
    simp [ABI.unmarshalFields, haccept hno hpay]
  · intro hno hpay
    unfold ABI.UnmarshalJSON at hbefore ⊢
    rw [unmarshalFields_append keccak256 newEvent before (field :: after) _ abi1 hbefore]
    simp [ABI.unmarshalFields, hmut hno hpay]
  · intro hex
    unfold ABI.UnmarshalJSON at hbefore ⊢
    rw [unmarshalFields_append keccak256 newEvent before (field :: after) _ abi1 hbefore]
    simp [ABI.unmarshalFields, hdup hex]

/-- C21, at the test schema: after its receive field a second one is rejected with the
only-single-receive error although it is payable; and as the first receive field, after the
eight fields before the receive field of the schema, a field without state mutability is
rejected although its legacy payable flag is set. -/
theorem UnmarshalJSON_receive_witness :
    ABI.zero.HasReceive = false ∧
    ABI.zero.UnmarshalJSON sampleKeccak256 sampleNewEvent mVBGoddata = some (sampleABI, none) ∧
    (∃ f ∈ mVBGoddata, f.Type_ = "receive") ∧
    ABI.zero.UnmarshalJSON sampleKeccak256 sampleNewEvent
        (mVBGoddata ++ receiveField "payable" false true ::
          [functionField "burn" Slice.nil Slice.nil ""])
      = some (sampleABI, some Error.onlySingleReceive) ∧
    (∃ abi1, ABI.zero.UnmarshalJSON sampleKeccak256 sampleNewEvent (mVBGoddata.take 8)
        = some (abi1, none) ∧
      ABI.zero.UnmarshalJSON sampleKeccak256 sampleNewEvent
          (mVBGoddata.take 8 ++ receiveField "" false true ::
            [functionField "burn" Slice.nil Slice.nil ""])
        = some (abi1, some Error.receiveNotPayable)) :=
  have hex : ∃ f ∈ mVBGoddata, f.Type_ = "receive" :=
    ⟨receiveField "payable" false false, by simp [mVBGoddata, receiveField], rfl⟩
  have hno : ∀ f ∈ mVBGoddata.take 8, f.Type_ ≠ "receive" := by
    intro f hf
    simp [mVBGoddata, functionField] at hf
    rcases hf with h | h | h | h | h | h | h | h <;> rw [h] <;> decide
  ⟨rfl, rfl, hex,
    (UnmarshalJSON_receive sampleKeccak256 sampleNewEvent ABI.zero sampleABI mVBGoddata
      [functionField "burn" Slice.nil Slice.nil ""] (receiveField "payable" false true)
      rfl rfl rfl).2.2.2 hex,
    ⟨_, rfl,
      (UnmarshalJSON_receive sampleKeccak256 sampleNewEvent ABI.zero _ (mVBGoddata.take 8)
        [functionField "burn" Slice.nil Slice.nil ""] (receiveField "" false true)
        rfl rfl rfl).2.2.1 hno (by decide)⟩⟩

/-- C22: a constructor field is ingested without error, into every registry; and when a
sequence of fields is ingested without error, the constructor of the registry is the
method built from the last constructor field of the sequence: its kind is Constructor, its
inputs, state mutability and legacy flags are those of the field, it has no outputs, and
its name, raw name and signature are empty and its id is nil. -/
theorem UnmarshalJSON_constructor (keccak256 : List Byte → Digest)
    (newEvent : String → String → Bool → Arguments → Event) (abi abi1 : ABI)
    (before after : List Field) (field : Field)
    (hfield : field.Type_ = "constructor")
    (hlast : ∀ f ∈ after, f.Type_ ≠ "constructor")
    (hing : abi.UnmarshalJSON keccak256 newEvent (before ++ field :: after)
      = some (abi1, none)) :
    (∀ abi0 : ABI, ∃ abi2, abi0.unmarshalField keccak256 newEvent field = some (abi2, none)) ∧
    abi1.Constructor
      = NewMVBGod keccak256 "" "" FunctionType.Constructor field.StateMutability
          field.Constant field.Payable field.Inputs Slice.nil ∧
    abi1.Constructor.Type_ = FunctionType.Constructor ∧
    abi1.Constructor.Inputs = field.Inputs ∧
    abi1.Constructor.StateMutability = field.StateMutability ∧
    abi1.Constructor.Constant = field.Constant ∧
    abi1.Constructor.Payable = field.Payable ∧
    abi1.Constructor.Outputs = Slice.nil ∧
    abi1.Constructor.Name = "" ∧ abi1.Constructor.RawName = "" ∧
    abi1.Constructor.Sig = "" ∧ abi1.Constructor.ID = Slice.nil := by
  have hctor : abi1.Constructor
      = NewMVBGod keccak256 "" "" FunctionType.Constructor field.StateMutability
          field.Constant field.Payable field.Inputs Slice.nil := by
    unfold ABI.UnmarshalJSON at hing
    obtain ⟨abi2, _, hrest⟩ :=
      unmarshalFields_of_append keccak256 newEvent before (field :: after) _ abi1 hing
    have hstep := unmarshalField_constructor keccak256 newEvent abi2 field hfield
    simp only [ABI.unmarshalFields, hstep] at hrest
    rw [unmarshalFields_keeps_constructor keccak256 newEvent after _ abi1 none hrest hlast]
  refine ⟨fun abi0 => ⟨_, unmarshalField_constructor keccak256 newEvent abi0 field hfield⟩,
    hctor, ?_⟩
  rw [hctor]
  exact ⟨rfl, rfl, rfl, rfl, rfl, rfl, rfl, rfl, rfl, rfl⟩

/-- C22, at a schema with two constructor fields and a function field after them: the
constructor is built from the second constructor field. -/
theorem UnmarshalJSON_constructor_witness :
    (constructorField (Slice.mk [⟨"owner", Type_.address, false⟩]) "payable").Type_
      = "constructor" ∧
    (∃ abi1, ABI.zero.UnmarshalJSON sampleKeccak256 sampleNewEvent
        ([constructorField (Slice.mk [⟨"supply", Type_.uint 256, false⟩]) "nonpayable"]
          ++ constructorField (Slice.mk [⟨"owner", Type_.address, false⟩]) "payable"
            :: [functionField "burn" Slice.nil Slice.nil ""])
        = some (abi1, none) ∧
      abi1.Constructor.Inputs = Slice.mk [⟨"owner", Type_.address, false⟩] ∧
      abi1.Constructor.StateMutability = "payable") :=
  ⟨rfl, _, rfl,
    (UnmarshalJSON_constructor sampleKeccak256 sampleNewEvent ABI.zero _
      [constructorField (Slice.mk [⟨"supply", Type_.uint 256, false⟩]) "nonpayable"]
      [functionField "burn" Slice.nil Slice.nil ""]
      (constructorField (Slice.mk [⟨"owner", Type_.address, false⟩]) "payable") rfl
      (by intro f hf; simp [functionField] at hf; rw [hf]; decide) rfl).2.2.2.1,
    (UnmarshalJSON_constructor sampleKeccak256 sampleNewEvent ABI.zero _
      [constructorField (Slice.mk [⟨"supply", Type_.uint 256, false⟩]) "nonpayable"]
      [functionField "burn" Slice.nil Slice.nil ""]
      (constructorField (Slice.mk [⟨"owner", Type_.address, false⟩]) "payable") rfl
      (by intro f hf; simp [functionField] at hf; rw [hf]; decide) rfl).2.2.2.2.1⟩

/-- C23: the zero-valued registry has neither a fallback nor a receive; and after an
ingestion without error into the zero-valued registry, `HasFallback` is true exactly when
one of the fields is a fallback field and `HasReceive` exactly when one of the fields is a
receive field. -/
theorem HasFallback_HasReceive (keccak256 : List Byte → Digest)
    (newEvent : String → String → Bool → Arguments → Event) (abi1 : ABI)
    (fields : List Field)
    (hing : ABI.zero.UnmarshalJSON keccak256 newEvent fields = some (abi1, none)) :
    ABI.zero.HasFallback = false ∧ ABI.zero.HasReceive = false ∧
    (abi1.HasFallback = true ↔ ∃ f ∈ fields, f.Type_ = "fallback") ∧
    (abi1.HasReceive = true ↔ ∃ f ∈ fields, f.Type_ = "receive") ∧
    JSON keccak256 newEvent fields = some ⟨abi1, none⟩ := by
  have hf := unmarshalFields_HasFallback keccak256 newEvent fields _ abi1 hing
  have hr := unmarshalFields_HasReceive keccak256 newEvent fields _ abi1 hing
  have h0f : ({ ABI.zero with MVBGods := GoMap.empty, Events := GoMap.empty } : ABI).HasFallback
      = false := rfl
  have h0r : ({ ABI.zero with MVBGods := GoMap.empty, Events := GoMap.empty } : ABI).HasReceive
      = false := rfl
  rw [h0f] at hf
  rw [h0r] at hr
  refine ⟨rfl, rfl, by simpa using hf, by simpa using hr, ?_⟩
  simp [JSON, hing]

/-- C23, at the test schema, which has a fallback field and a receive field, and at its
seven function fields, which have neither. -/
theorem HasFallback_HasReceive_witness :
    ABI.zero.UnmarshalJSON sampleKeccak256 sampleNewEvent mVBGoddata = some (sampleABI, none) ∧
    sampleABI.HasFallback = true ∧ sampleABI.HasReceive = true ∧
    (∃ f ∈ mVBGoddata, f.Type_ = "fallback") ∧ (∃ f ∈ mVBGoddata, f.Type_ = "receive") :=
  have h := HasFallback_HasReceive sampleKeccak256 sampleNewEvent sampleABI mVBGoddata rfl
  ⟨rfl, rfl, rfl, h.2.2.1.1 rfl, h.2.2.2.1.1 rfl⟩

/-! ## The legacy flags -/

/-- C24: `IsConstant` is true exactly when the state mutability is "view" or "pure" or the
legacy constant flag is set, and `IsPayable` exactly when the state mutability is
"payable" or the legacy payable flag is set; with the empty state mutability they are the
legacy flags. -/
theorem IsConstant_IsPayable (mVBGod : MVBGod) :
    (mVBGod.IsConstant = true ↔
      mVBGod.StateMutability = "view" ∨ mVBGod.StateMutability = "pure" ∨
        mVBGod.Constant = true) ∧
    (mVBGod.IsPayable = true ↔
      mVBGod.StateMutability = "payable" ∨ mVBGod.Payable = true) ∧
    (mVBGod.StateMutability = "" →
      mVBGod.IsConstant = mVBGod.Constant ∧ mVBGod.IsPayable = mVBGod.Payable) := by
  refine ⟨?_, ?_, ?_⟩
  · simp [MVBGod.IsConstant, or_assoc]
  · simp [MVBGod.IsPayable]
  · intro h
    simp [MVBGod.IsConstant, MVBGod.IsPayable, h]

/-- C24, at a method without state mutability whose legacy flags are set. -/
theorem IsConstant_IsPayable_witness :
    (NewMVBGod sampleKeccak256 "get" "get" FunctionType.Function "" true true Slice.nil
        Slice.nil).StateMutability = "" ∧
    (NewMVBGod sampleKeccak256 "get" "get" FunctionType.Function "" true true Slice.nil
        Slice.nil).IsConstant = true ∧
    (NewMVBGod sampleKeccak256 "get" "get" FunctionType.Function "" true true Slice.nil
        Slice.nil).IsPayable = true :=
  ⟨rfl,
    ((IsConstant_IsPayable (NewMVBGod sampleKeccak256 "get" "get" FunctionType.Function ""
      true true Slice.nil Slice.nil)).2.2 rfl).1,
    ((IsConstant_IsPayable (NewMVBGod sampleKeccak256 "get" "get" FunctionType.Function ""
      true true Slice.nil Slice.nil)).2.2 rfl).2⟩

/-! ## Overload names: the examples of the doc comments and the bound -/

/-- C25: with exactly the keys `send` and `send1` in the function table, in either order,
`overloadedMVBGodName` returns `send0` for `send`, the first candidate that is not a key,
and not the `send2` of its doc comment; and with exactly the keys `received` and
`received1` in the event table `overloadedEventName` returns `received0` for `received`.
The same table comes out of the ingestion of function fields named `send` and `send1`,
and a third field named `send` is then stored under `send0`. -/
theorem overloadedMVBGodName_send1 (keccak256 : List Byte → Digest)
    (newEvent : String → String → Bool → Arguments → Event) (abi : ABI)
    (m1 m2 : MVBGod) (e1 e2 : Event) :
    ({ abi with MVBGods := ⟨[("send", m1), ("send1", m2)]⟩ } : ABI).overloadedMVBGodName "send"
      = some "send0" ∧
    ({ abi with MVBGods := ⟨[("send1", m2), ("send", m1)]⟩ } : ABI).overloadedMVBGodName "send"
      = some "send0" ∧
    ({ abi with Events := ⟨[("received", e1), ("received1", e2)]⟩ } : ABI).overloadedEventName
        "received" = some "received0" ∧
    ({ abi with Events := ⟨[("received1", e2), ("received", e1)]⟩ } : ABI).overloadedEventName
        "received" = some "received0" ∧
    "send0" ≠ "send2" ∧ "received0" ≠ "received2" ∧
    (∃ abi1 : ABI,
      abi.UnmarshalJSON keccak256 newEvent
          [functionField "send" Slice.nil Slice.nil "", functionField "send1" Slice.nil Slice.nil "",
            functionField "send" Slice.nil Slice.nil ""]
        = some (abi1, none) ∧
      abi1.MVBGods.keys = ["send", "send1", "send0"]) :=
  ⟨rfl, rfl, rfl, rfl, by decide, by decide, _, rfl, rfl⟩

/-- C29: when the raw name is a key of a table of `n` entries, the name loop of
`overloadedMVBGodName` and of `overloadedEventName` is left with a suffix `i` smaller than
`n`, the least one whose candidate name is not a key: the loop body runs `i + 1` times, at
most `n`, so that `n + 1` tests of the loop condition are enough and more fuel gives the
same name; and both functions return that name. -/
theorem overloadedName_bound (abi : ABI) (rawName : String) :
    (abi.MVBGods.has rawName = true →
      ∃ i, i < abi.MVBGods.entries.length ∧ i + 1 ≤ abi.MVBGods.entries.length ∧
        abi.MVBGods.has (rawName ++ decimal i) = false ∧
        (∀ j, j < i → abi.MVBGods.has (rawName ++ decimal j) = true) ∧
        (∀ fuel, abi.MVBGods.entries.length + 1 ≤ fuel →
          overloadedNameLoop abi.MVBGods.has rawName fuel rawName
            (abi.MVBGods.has rawName) 0 = some (rawName ++ decimal i)) ∧
        abi.overloadedMVBGodName rawName = some (rawName ++ decimal i)) ∧
    (abi.Events.has rawName = true →
      ∃ i, i < abi.Events.entries.length ∧ i + 1 ≤ abi.Events.entries.length ∧
        abi.Events.has (rawName ++ decimal i) = false ∧
        (∀ j, j < i → abi.Events.has (rawName ++ decimal j) = true) ∧
        (∀ fuel, abi.Events.entries.length + 1 ≤ fuel →
          overloadedNameLoop abi.Events.has rawName fuel rawName
            (abi.Events.has rawName) 0 = some (rawName ++ decimal i)) ∧
        abi.overloadedEventName rawName = some (rawName ++ decimal i)) ∧
    (abi.MVBGods.has rawName = false →
      ∀ fuel, 1 ≤ fuel →
        overloadedNameLoop abi.MVBGods.has rawName fuel rawName (abi.MVBGods.has rawName) 0
          = some rawName) ∧
    (abi.Events.has rawName = false →
      ∀ fuel, 1 ≤ fuel →
        overloadedNameLoop abi.Events.has rawName fuel rawName (abi.Events.has rawName) 0
          = some rawName) := by
  refine ⟨?_, ?_, ?_, ?_⟩
  · intro h
    obtain ⟨i, hi, hout, hmin, hfuel⟩ := overloadedNameLoop_bound abi.MVBGods rawName h
    exact ⟨i, hi, hi, hout, hmin, fun fuel hf => hfuel fuel (by omega),
      hfuel _ (by omega)⟩
  · intro h
    obtain ⟨i, hi, hout, hmin, hfuel⟩ := overloadedNameLoop_bound abi.Events rawName h
    exact ⟨i, hi, hi, hout, hmin, fun fuel hf => hfuel fuel (by omega),
      hfuel _ (by omega)⟩
  · intro h fuel hf
    obtain ⟨f, rfl⟩ : ∃ f, fuel = f + 1 := ⟨fuel - 1, by omega⟩
    simp [overloadedNameLoop, h]
  · intro h fuel hf
    obtain ⟨f, rfl⟩ : ∃ f, fuel = f + 1 := ⟨fuel - 1, by omega⟩
    simp [overloadedNameLoop, h]

/-- C29, at the test schema: `send` is one of the 7 keys of the function table, and the
suffix appended to it is smaller than 7. -/
theorem overloadedName_bound_witness :
    sampleABI.MVBGods.has "send" = true ∧ sampleABI.MVBGods.entries.length = 7 ∧
    ∃ i, i < sampleABI.MVBGods.entries.length ∧
      sampleABI.overloadedMVBGodName "send" = some ("send" ++ decimal i) :=
  ⟨rfl, rfl,
    ((overloadedName_bound sampleABI "send").1 rfl).elim fun i hi => ⟨i, hi.1, hi.2.2.2.2.2⟩⟩

/-! ## The keys of the function table -/

/-- C27: after an ingestion without error, every entry of the function table, stored under
the key `k`, has `Name = k` and the kind `Function`; its `RawName` is the name declared
in one of the "function" fields; `k` is the `RawName` or the `RawName` followed by a
decimal number; the signature is the `RawName` followed by "(" and more; the keys are
pairwise distinct, so that an entry is what a lookup of its key reads; and the table has
as many entries as there are "function" fields. -/
theorem UnmarshalJSON_key_invariant (keccak256 : List Byte → Digest)
    (newEvent : String → String → Bool → Arguments → Event) (abi abi1 : ABI)
    (fields : List Field)
    (hing : abi.UnmarshalJSON keccak256 newEvent fields = some (abi1, none)) :
    (∀ k mVBGod, (k, mVBGod) ∈ abi1.MVBGods.entries →
      abi1.MVBGods.lookup k = some mVBGod ∧
      mVBGod.Name = k ∧ mVBGod.Type_ = FunctionType.Function ∧
      (∃ f ∈ fields, f.Type_ = "function" ∧ mVBGod.RawName = f.Name) ∧
      (k = mVBGod.RawName ∨ ∃ i, k = mVBGod.RawName ++ decimal i) ∧
      (∃ rest, mVBGod.Sig = mVBGod.RawName ++ "(" ++ rest)) ∧
    (∀ k mVBGod, abi1.MVBGods.lookup k = some mVBGod → (k, mVBGod) ∈ abi1.MVBGods.entries) ∧
    abi1.MVBGods.entries.length =
      (fields.filter fun f => decide (f.Type_ = "function")).length := by
  have h0 : functionTableInvariant keccak256
      ({ abi with MVBGods := GoMap.empty, Events := GoMap.empty } : ABI) [] := by
    refine ⟨?_, ?_, ?_⟩
    · intro e he
      simp [GoMap.empty] at he
    · simp [GoMap.keys, GoMap.empty]
    · simp [GoMap.empty]
  have h1 := unmarshalFields_invariant keccak256 newEvent fields _ abi1 [] hing h0
  rw [List.nil_append] at h1
  obtain ⟨hall, hnodup, hlen⟩ := h1
  refine ⟨?_, ?_, hlen⟩
  · intro k mVBGod hmem
    obtain ⟨f, hf, hfun, hval, hkey⟩ := hall (k, mVBGod) hmem
    simp only at hval hkey
    refine ⟨GoMap.lookup_of_mem _ k mVBGod hnodup hmem, ?_, ?_, ⟨f, hf, hfun, ?_⟩, ?_, ?_⟩
    · rw [hval]; rfl
    · rw [hval]; rfl
    · rw [hval]; rfl
    · have hraw : mVBGod.RawName = f.Name := by rw [hval]; rfl
      rw [hraw]
      exact hkey
    · refine ⟨String.intercalate "," (f.Inputs.toList.map fun input => input.Type_.String)
        ++ ")", ?_⟩
      rw [hval]
      simp [NewMVBGod, String.append_assoc]
  · intro k mVBGod hlook
    exact GoMap.mem_of_lookup _ k mVBGod hlook

/-- C27, at the test schema: its seven function fields give seven entries, and the entry
under the key "send" is the method `send(uint256)`. -/
theorem UnmarshalJSON_key_invariant_witness :
    ABI.zero.UnmarshalJSON sampleKeccak256 sampleNewEvent mVBGoddata = some (sampleABI, none) ∧
    sampleABI.MVBGods.entries.length = 7 ∧
    (mVBGoddata.filter fun f => decide (f.Type_ = "function")).length = 7 ∧
    sampleABI.MVBGods.lookup "send" = some sampleSend ∧
    sampleSend.Name = "send" ∧ sampleSend.RawName = "send" ∧
    sampleSend.Sig = "send(uint256)" ∧
    ∀ k mVBGod, (k, mVBGod) ∈ sampleABI.MVBGods.entries →
      mVBGod.Name = k ∧ mVBGod.Type_ = FunctionType.Function :=
  have h := UnmarshalJSON_key_invariant sampleKeccak256 sampleNewEvent ABI.zero sampleABI
    mVBGoddata rfl
  ⟨rfl, rfl, rfl, rfl, rfl, rfl, by decide,
    fun k mVBGod hmem => ⟨(h.1 k mVBGod hmem).2.1, (h.1 k mVBGod hmem).2.2.1⟩⟩

/-! ## A function and an event of the same name -/

/-- C26: the ingestion of a function field and of an event field of the same name, in
either order, ends without error, and the name is then a key of the function table and
of the event table: each name loop consults its own table only. So it is at the schema
`collisionFields`, whose registry has the key "transfer" in both tables. -/
theorem UnmarshalJSON_collision (keccak256 : List Byte → Digest)
    (newEvent : String → String → Bool → Arguments → Event) (abi : ABI) (name : String)
    (inputs outputs eventInputs : Arguments) (stateMutability : String) :
    (∃ abi1 : ABI,
      abi.UnmarshalJSON keccak256 newEvent
          [functionField name inputs outputs stateMutability, eventField name eventInputs]
        = some (abi1, none) ∧
      abi1.MVBGods.has name = true ∧ abi1.Events.has name = true) ∧
    (∃ abi1 : ABI,
      abi.UnmarshalJSON keccak256 newEvent
          [eventField name eventInputs, functionField name inputs outputs stateMutability]
        = some (abi1, none) ∧
      abi1.MVBGods.has name = true ∧ abi1.Events.has name = true) ∧
    JSON sampleKeccak256 sampleNewEvent collisionFields = some ⟨collisionABI, none⟩ ∧
    collisionABI.MVBGods.keys = ["transfer"] ∧ collisionABI.Events.keys = ["transfer"] := by
  refine ⟨⟨_, rfl, ?_, ?_⟩, ⟨_, rfl, ?_, ?_⟩, rfl, rfl, rfl⟩ <;>
    simp [GoMap.has, GoMap.lookup, GoMap.store, GoMap.empty, functionField, eventField]

/-- For a name that is a function and an event, and data whose length is a multiple of
32, `getArguments` returns the inputs of the event when they are not the nil slice, and
`Unpack` then decodes the data with them; when they are the nil slice `getArguments`
returns the could-not-locate error, and so does `Unpack`, without calling the decoder. -/
theorem getArguments_both {V : Type} (unpack : Arguments → List Byte → Ret (Slice V))
    (abi : ABI) (name : String) (mVBGod : MVBGod) (event : Event) (data : List Byte)
    (hfun : abi.MVBGods.lookup name = some mVBGod)
    (hev : abi.Events.lookup name = some event) (hlen : data.length % 32 = 0) :
    (event.Inputs.isNil = false →
      abi.getArguments name data = ⟨event.Inputs, none⟩ ∧
      abi.Unpack unpack name data = unpack event.Inputs data) ∧
    (event.Inputs.isNil = true →
      abi.getArguments name data = ⟨Slice.nil, some Error.couldNotLocate⟩ ∧
      abi.Unpack unpack name data = ⟨Slice.nil, some Error.couldNotLocate⟩) := by
  constructor <;> intro hnil <;>
    simp [ABI.Unpack, ABI.getArguments, ABI.getArgumentsEvent, hfun, hev, hlen, hnil]

/-- C28: the schema `bareEventFields` is ingested without error, "transfer" is then a key
of the function table and of the event table, and the empty data has a length that is a
multiple of 32; yet `getArguments` does not return the (nil) input list of the event: it
returns the could-not-locate error, and so does `Unpack`, without calling the decoder.
With the event of `collisionFields`, whose input list is not nil, `getArguments` returns
the inputs of the event and not the outputs of the function. -/
theorem getArguments_bare_event :
    JSON sampleKeccak256 sampleNewEvent bareEventFields = some ⟨bareEventABI, none⟩ ∧
    bareEventABI.MVBGods.has "transfer" = true ∧ bareEventABI.Events.has "transfer" = true ∧
    ([] : List Byte).length % 32 = 0 ∧
    (∀ e, bareEventABI.Events.lookup "transfer" = some e → e.Inputs = Slice.nil) ∧
    bareEventABI.getArguments "transfer" [] = ⟨Slice.nil, some Error.couldNotLocate⟩ ∧
    (∀ (V : Type) (unpack : Arguments → List Byte → Ret (Slice V)),
      bareEventABI.Unpack unpack "transfer" [] = ⟨Slice.nil, some Error.couldNotLocate⟩) ∧
    collisionABI.getArguments "transfer" []
      = ⟨Slice.mk [⟨"to", Type_.address, true⟩, ⟨"value", Type_.uint 256, false⟩], none⟩ := by
  have hget : bareEventABI.getArguments "transfer" []
      = ⟨Slice.nil, some Error.couldNotLocate⟩ := rfl
  refine ⟨rfl, rfl, rfl, rfl, ?_, hget, ?_, rfl⟩
  · intro e he
    cases he
    rfl
  · intro V unpack
    simp [ABI.Unpack, hget]

/-! ## Unnamed inputs and outputs in the string representation -/

/-- C30: in the string representation of a method of any kind built by `NewMVBGod`, an
input whose name is empty is rendered as its type followed by one space, and an output
whose name is empty as its type alone; a named input or output is rendered as type, space,
name. So `f` with one unnamed `uint256` input and no output renders as
"function f(uint256 ) returns()", and with one unnamed `uint256` output and no input as
"function f() returns(uint256)". -/
theorem String_unnamed (keccak256 : List Byte → Digest) (name rawName mutability : String)
    (funType : FunctionType) (isConst isPayable : Bool) (inputs outputs : Arguments) :
    (NewMVBGod keccak256 name rawName funType mutability isConst isPayable
        inputs outputs).String
      = (match funType with
          | FunctionType.Fallback => "fallback"
          | FunctionType.Receive => "receive"
          | FunctionType.Constructor => "constructor"
          | FunctionType.Function => "function " ++ rawName) ++ "("
          ++ String.intercalate ", "
              (inputs.toList.map fun a =>
                if a.Name = "" then a.Type_.String ++ " " else a.Type_.String ++ " " ++ a.Name)
          ++ ") "
          ++ (if mutability = "nonpayable" ∨ mutability = "" then "" else mutability ++ " ")
          ++ "returns("
          ++ String.intercalate ", "
              (outputs.toList.map fun a =>
                if a.Name = "" then a.Type_.String else a.Type_.String ++ " " ++ a.Name)
          ++ ")" ∧
    (NewMVBGod keccak256 "f" "f" FunctionType.Function "nonpayable" isConst isPayable
        (Slice.mk [⟨"", Type_.uint 256, false⟩]) (Slice.mk [])).String
      = "function f(uint256 ) returns()" ∧
    (NewMVBGod keccak256 "f" "f" FunctionType.Function "nonpayable" isConst isPayable
        (Slice.mk []) (Slice.mk [⟨"", Type_.uint 256, false⟩])).String
      = "function f() returns(uint256)" ∧
    (NewMVBGod keccak256 "f" "f" FunctionType.Function "nonpayable" isConst isPayable
        (Slice.mk [⟨"", Type_.uint 256, false⟩, ⟨"to", Type_.address, false⟩])
        (Slice.mk [⟨"", Type_.uint 256, false⟩, ⟨"ok", Type_.bool, false⟩])).String
      = "function f(uint256 , address to) returns(uint256, bool ok)" := by
  refine ⟨?_, rfl, rfl, rfl⟩
  have hstate : (if (if mutability = "nonpayable" then "" else mutability) ≠ ""
        then (if mutability = "nonpayable" then "" else mutability) ++ " "
        else (if mutability = "nonpayable" then "" else mutability))
      = (if mutability = "nonpayable" ∨ mutability = "" then "" else mutability ++ " ") := by
    by_cases h1 : mutability = "nonpayable"
    · simp [h1]
    · by_cases h2 : mutability = ""
      · simp [h2]
      · simp [h1, h2]
  have hin : (inputs.toList.map fun input : Argument =>
        input.Type_.String ++ " " ++ input.Name)
      = (inputs.toList.map fun a : Argument =>
        if a.Name = "" then a.Type_.String ++ " " else a.Type_.String ++ " " ++ a.Name) := by
    apply List.map_congr_left
    intro a _
    by_cases h : a.Name = ""
    · simp [h]
    · simp [h]
  have hout : (outputs.toList.map fun output : Argument =>
        if output.Name.length > 0 then output.Type_.String ++ (" " ++ output.Name)
        else output.Type_.String)
      = (outputs.toList.map fun a : Argument =>
        if a.Name = "" then a.Type_.String else a.Type_.String ++ " " ++ a.Name) := by
    apply List.map_congr_left
    intro a _
    by_cases h : a.Name = ""
    · simp [h]
    · have hlen : a.Name.length > 0 := by
        rcases Nat.eq_zero_or_pos a.Name.length with h0 | h0
        · exact absurd (string_eq_empty_of_length a.Name h0) h
        · exact h0
      simp [h, hlen, String.append_assoc]
  cases funType <;>
    · simp only [MVBGod.String, NewMVBGod, hstate, hin, hout]
      simp

end abi
